import Mathlib

/-!
Verification of the intrusive binary min-heap from `src/common/heap.c` /
`src/common/heap.h` (olsrd).

The C code stores the heap as a pointer-linked binary tree: each
`struct heap_node` has a key and `parent`/`left`/`right` pointers, and the
controller `struct bin_heap` holds `count`, `root_node` and `last_node`.
We embed this shallowly: a node's address becomes a natural-number `id`,
and the linked structure reachable from `root_node` becomes an inductive
tree whose nodes carry `(id, key)`.  The parent pointers of the C code are
the inverses of the child pointers and are represented implicitly; walks
that follow parent pointers are modelled as computations on the path from
the root to the node.  Every pointer rotation of the source
(`heap_swap_left`, `heap_swap_right`, and the parent swap inside
`heap_decrease_key`) exchanges a node and one child while both keep their
other links, which in this representation is exactly a swap of the two
`(id, key)` labels with all subtrees kept in place.
-/

namespace Olsrd

/-- The intrusive node record, mirroring `struct heap_node`: the key
(`olsr_linkcost`, a numeric cost) plus the three link fields, with `id`
standing for the node's address. -/
structure HeapNodeRec where
  id : Nat
  key : Nat
  parent : Option Nat
  left : Option Nat
  right : Option Nat
deriving Repr, DecidableEq

/-- The linked structure reachable from `root_node`: each queued node is a
tree vertex labelled with its address (`id`) and its `key`. -/
inductive Tree where
  | nil : Tree
  | node (id : Nat) (key : Nat) (left right : Tree) : Tree
deriving Repr, DecidableEq

/-- `struct bin_heap`: the element count, the tree hanging off `root_node`,
and the address stored in `last_node` (`none` models the NULL pointer). -/
structure BinHeap where
  count : Nat
  root_node : Tree
  last_node : Option Nat
deriving Repr, DecidableEq

namespace Tree

/-- Number of nodes in the linked structure. -/
def sizeT : Tree → Nat
  | nil => 0
  | node _ _ l r => 1 + l.sizeT + r.sizeT

/-- The id stored at the root of a subtree (the address a pointer to it
would hold), `none` for the NULL subtree. -/
def rootId? : Tree → Option Nat
  | nil => none
  | node i _ _ _ => some i

/-- The key stored at the root of a subtree. -/
def rootKey? : Tree → Option Nat
  | nil => none
  | node _ k _ _ => some k

/-- Follow a chain of child pointers: `false` follows `left`, `true`
follows `right`. -/
def sub : Tree → List Bool → Tree
  | t, [] => t
  | nil, _ :: _ => nil
  | node _ _ l r, d :: p => (if d then r else l).sub p

/-- The `(id, key)` label of the node reached by a pointer chain. -/
def labelAt? (t : Tree) (p : List Bool) : Option (Nat × Nat) :=
  match t.sub p with
  | nil => none
  | node i k _ _ => some (i, k)

/-- The id of the node reached by a pointer chain. -/
def idAt? (t : Tree) (p : List Bool) : Option Nat :=
  (t.sub p).rootId?

/-- The key of the node reached by a pointer chain. -/
def keyAt? (t : Tree) (p : List Bool) : Option Nat :=
  (t.sub p).rootKey?

/-- Whether the pointer chain `p` reaches an actual node. -/
def hasPath (t : Tree) (p : List Bool) : Bool :=
  (t.idAt? p).isSome

/-- All `(id, key)` labels in the structure, in preorder. -/
def labels : Tree → List (Nat × Nat)
  | nil => []
  | node i k l r => (i, k) :: (l.labels ++ r.labels)

/-- All node addresses in the structure, in preorder. -/
def ids (t : Tree) : List Nat :=
  t.labels.map Prod.fst

/-- Search for the node whose address is `i`; returns the pointer chain
from the root to it (the C code never needs this search because the caller
passes the node pointer directly, but the embedding addresses nodes by id). -/
def findPath? : Tree → Nat → Option (List Bool)
  | nil, _ => none
  | node j _ l r, i =>
    if j = i then some []
    else
      match l.findPath? i with
      | some p => some (false :: p)
      | none =>
        match r.findPath? i with
        | some p => some (true :: p)
        | none => none

/-- Whether the node with address `i` is part of the structure. -/
def containsId (t : Tree) (i : Nat) : Bool :=
  (t.findPath? i).isSome

/-- Rewrite the subtree at the end of a pointer chain. -/
def modifyAt : Tree → List Bool → (Tree → Tree) → Tree
  | t, [], f => f t
  | nil, _ :: _, _ => nil
  | node i k l r, d :: p, f =>
    if d then node i k l (r.modifyAt p f) else node i k (l.modifyAt p f) r

/-- `node->key = k` for the node at path `p` (the caller updates the key
field in place before calling `heap_decrease_key`). -/
def setKeyAt (t : Tree) (p : List Bool) (k : Nat) : Tree :=
  t.modifyAt p fun s =>
    match s with
    | nil => nil
    | node i _ l r => node i k l r

/-- `parent->left = node` / `parent->right = node` from `heap_insert`:
the new node is attached as the left child if the left slot is free,
otherwise it is written into the right slot, exactly as the source's
`if (parent->left) parent->right = node; else parent->left = node;`. -/
def attachNew (t : Tree) (pp : List Bool) (nid nk : Nat) : Tree :=
  t.modifyAt pp fun s =>
    match s with
    | nil => nil
    | node i k nil r => node i k (node nid nk nil nil) r
    | node i k l _ => node i k l (node nid nk nil nil)

/-- `parent->left = NULL` (for `d = false`) or `parent->right = NULL`
(for `d = true`), as done by `heap_extract_min` to detach the last node. -/
def setChildNil (t : Tree) (pp : List Bool) (d : Bool) : Tree :=
  t.modifyAt pp fun s =>
    match s, d with
    | nil, _ => nil
    | node i k _ r, false => node i k nil r
    | node i k l _, true => node i k l nil

/-- The parent-swap of `heap_decrease_key`, seen from the parent: the child
in direction `d` takes the parent's place, the parent takes the child's
place keeping the child's two subtrees, and the sibling subtree stays.
All other pointers (grandparent child slot, subtree parents) are fixed up
by the source accordingly; in this representation the rotation is exactly
the swap of the two labels. -/
def rotUp : Tree → Bool → Tree
  | node pi pk (node ni nk a b) r, false => node ni nk (node pi pk a b) r
  | node pi pk l (node ni nk a b), true => node ni nk l (node pi pk a b)
  | t, _ => t

/-- Parent-swap rotation at the node reached by `pp`, promoting its child
in direction `d`. -/
def rotAt (t : Tree) (pp : List Bool) (d : Bool) : Tree :=
  t.modifyAt pp (fun s => rotUp s d)

/-- `while (aux->left) aux = aux->left;` — the chain of left links taken
from a node down to its leftmost descendant. -/
def leftDescent : Tree → List Bool
  | node _ _ (node li lk a b) _ => false :: (node li lk a b).leftDescent
  | _ => []

/-- `while (aux->right) aux = aux->right;` — the chain of right links. -/
def rightDescent : Tree → List Bool
  | node _ _ _ (node ri rk a b) => true :: (node ri rk a b).rightDescent
  | _ => []

end Tree

/-- `while (aux->parent->X == aux) aux = aux->parent;` — walking up from a
node while it is its parent's child on side `b` shortens the root-to-node
path by its trailing `b` entries. -/
def stripTrail (b : Bool) (p : List Bool) : List Bool :=
  (p.reverse.dropWhile (fun d => d = b)).reverse

/-- Level-order position (1-based) of the node reached by a pointer chain
starting from position `a`: stepping to the left child doubles the
position, stepping to the right child doubles it and adds one. -/
def posFrom (a : Nat) (p : List Bool) : Nat :=
  p.foldl (fun x d => 2 * x + cond d 1 0) a

/-- Level-order position (1-based) of a root-to-node pointer chain. -/
def pos (p : List Bool) : Nat :=
  posFrom 1 p

/-- Fuel-driven binary logarithm, `heap_log2_go n n` mirrors the source's
`while (number >>= 1) ++log;` (the fuel `n` always suffices since each
shift at least halves the number). -/
def heap_log2_go : Nat → Nat → Nat
  | 0, _ => 0
  | fuel + 1, n => if n ≤ 1 then 0 else heap_log2_go fuel (n / 2) + 1

/-- `log` computed by `heap_perfect_log2`'s shift loop. -/
def heap_log2 (n : Nat) : Nat :=
  heap_log2_go n n

/-- `heap_perfect_log2` from the source: the difference between `number`
and the largest power of two not exceeding it; zero exactly when the heap
of `number` nodes would be a perfect tree.  (The source is only ever
called with `number = count + 1 >= 1`; at 0 the C computes `0u - 1` which
is nonzero, and this embedding is never instantiated there.) -/
def heap_perfect_log2 (number : Nat) : Nat :=
  number - 2 ^ heap_log2 number

/-- The root-to-node pointer chain of the node at level-order position
`n` (the binary digits of `n` below its leading one, most significant
first); fuel-driven with fuel `n`, which always suffices. -/
def binPathGo : Nat → Nat → List Bool
  | 0, _ => []
  | fuel + 1, n => if n ≤ 1 then [] else binPathGo fuel (n / 2) ++ [n % 2 == 1]

/-- Root-to-node pointer chain of level-order position `n`. -/
def binPath (n : Nat) : List Bool :=
  binPathGo n n

/-- Strip the trailing one bits of a binary representation: the position
reached from `n` by `while (aux->parent->right == aux) aux = aux->parent;`. -/
def oddUp : Nat → Nat
  | 0 => 0
  | 1 => 1
  | n + 2 => if (n + 2) % 2 = 1 then oddUp ((n + 2) / 2) else n + 2

/-- Strip the trailing zero bits of a binary representation: the position
reached from `n` by `while (aux->parent->left == aux) aux = aux->parent;`. -/
def oddDown : Nat → Nat
  | 0 => 0
  | 1 => 1
  | n + 2 => if (n + 2) % 2 = 0 then oddDown ((n + 2) / 2) else n + 2

/-- `heap_init`: `count = 0`, `root_node = last_node = NULL`. -/
def heap_init : BinHeap :=
  { count := 0, root_node := Tree.nil, last_node := none }

/-- `heap_init_node`: `node->parent = node->left = node->right = NULL`. -/
def heap_init_node (n : HeapNodeRec) : HeapNodeRec :=
  { n with parent := none, left := none, right := none }

/-- `heap_find_parent_insert_node`: locates the parent of the slot the next
inserted node will occupy, using only `count` and `last_node`.  Returns the
root-to-parent path; `none` marks the states in which the C walk would
dereference a NULL pointer (unreachable from well-formed heaps). -/
def heap_find_parent_insert_node (heap : BinHeap) : Option (List Bool) :=
  let N := heap.count + 1
  if heap_perfect_log2 N = 0 then
    /- the bottom level is full: a new level starts at the leftmost node -/
    some heap.root_node.leftDescent
  else if N % 2 = 0 then
    match heap.last_node with
    | none => none
    | some lid =>
      match heap.root_node.findPath? lid with
      | none => none
      | some p0 =>
        /- while (aux->parent->right == aux) aux = aux->parent; -/
        let p1 := stripTrail true p0
        match p1.reverse with
        | [] => none  /- the walk would reach the root and crash -/
        | _ :: rpp =>
          let pp := rpp.reverse
          if (heap.root_node.hasPath (pp ++ [true])) then
            /- aux = aux->parent->right; while (aux->left) aux = aux->left; -/
            some ((pp ++ [true]) ++ (heap.root_node.sub (pp ++ [true])).leftDescent)
          else
            /- if (!aux->parent->right) return aux->parent; -/
            some pp
  else
    /- N odd: the free slot is the right child of last's parent -/
    match heap.last_node with
    | none => none
    | some lid =>
      match heap.root_node.findPath? lid with
      | none => none
      | some p0 =>
        match p0.reverse with
        | [] => none  /- last is the root: aux->parent is NULL -/
        | _ :: rpp => some rpp.reverse

/-- The `while (parent && parent->key > node->key)` loop of
`heap_decrease_key`.  The argument is the reversed root-to-node path: its
head is the direction from the node's parent to the node, the tail is the
reversed path to the parent.  Each iteration is one parent swap. -/
def heap_decrease_key_loop : Tree → List Bool → Tree
  | t, [] => t
  | t, d :: rp =>
    let pp := rp.reverse
    match (t.keyAt? pp), (t.keyAt? (pp ++ [d])) with
    | some pk, some nk =>
      if pk > nk then heap_decrease_key_loop (t.rotAt pp d) rp
      else t
    | _, _ => t

/-- `heap_decrease_key`: sift the node with address `i` upward.  Returns
the heap unchanged when the node has no parent, when it is not below its
parent's key, or when `i` is not queued at all (the C code would then read
the node's cleared links and also return). -/
def heap_decrease_key (heap : BinHeap) (i : Nat) : BinHeap :=
  match heap.root_node.findPath? i with
  | none => heap
  | some [] => heap  /- if (!parent) return; -/
  | some p =>
    let pp := p.dropLast
    let h1 : BinHeap :=
      match (heap.root_node.keyAt? pp), (heap.root_node.keyAt? p) with
      | some pk, some nk =>
        /- if (parent->key > node->key) if (heap->last_node == node)
             heap->last_node = parent; -/
        if pk > nk ∧ heap.last_node = some i then
          { heap with last_node := heap.root_node.idAt? pp }
        else heap
      | _, _ => heap
    { h1 with root_node := heap_decrease_key_loop h1.root_node p.reverse }

/-- `heap_insert`: clear the node's links, place it in the next free slot
in level order, then sift it up. -/
def heap_insert (heap : BinHeap) (n0 : HeapNodeRec) : BinHeap :=
  let n := heap_init_node n0
  if heap.count = 0 then
    { count := heap.count + 1,
      root_node := Tree.node n.id n.key Tree.nil Tree.nil,
      last_node := some n.id }
  else
    match heap_find_parent_insert_node heap with
    | none => heap  /- unreachable on a well-formed heap: the C walk crashes -/
    | some pp =>
      let h1 : BinHeap :=
        { count := heap.count + 1,
          root_node := heap.root_node.attachNew pp n.id n.key,
          last_node := some n.id }
      heap_decrease_key h1 n.id

/-- `heap_increse_key` (the source's spelling): recursive sift-down of the
subtree root past its smaller children, together with the `last_node`
fix-up performed inside `heap_swap_left` / `heap_swap_right` (when the
promoted child was the last node, the demoted node takes over that slot).
Threads the `last_node` value through the recursion. -/
def heap_increse_key : Tree → Option Nat → Tree × Option Nat
  | Tree.node i k (Tree.node li lk a b) r, last =>
    if k > lk then
      match r with
      | Tree.node ri rk c d =>
        if k > rk then
          if lk < rk then
            /- heap_swap_left, then recurse on the demoted node -/
            let last1 := if last = some li then some i else last
            let res := heap_increse_key (Tree.node i k a b) last1
            (Tree.node li lk res.1 (Tree.node ri rk c d), res.2)
          else
            /- heap_swap_right -/
            let last1 := if last = some ri then some i else last
            let res := heap_increse_key (Tree.node i k c d) last1
            (Tree.node ri rk (Tree.node li lk a b) res.1, res.2)
        else
          let last1 := if last = some li then some i else last
          let res := heap_increse_key (Tree.node i k a b) last1
          (Tree.node li lk res.1 (Tree.node ri rk c d), res.2)
      | Tree.nil =>
        let last1 := if last = some li then some i else last
        let res := heap_increse_key (Tree.node i k a b) last1
        (Tree.node li lk res.1 Tree.nil, res.2)
    else
      match r with
      | Tree.node ri rk c d =>
        if k > rk then
          let last1 := if last = some ri then some i else last
          let res := heap_increse_key (Tree.node i k c d) last1
          (Tree.node ri rk (Tree.node li lk a b) res.1, res.2)
        else (Tree.node i k (Tree.node li lk a b) (Tree.node ri rk c d), last)
      | Tree.nil => (Tree.node i k (Tree.node li lk a b) Tree.nil, last)
  | Tree.node i k Tree.nil (Tree.node ri rk c d), last =>
    if k > rk then
      let last1 := if last = some ri then some i else last
      let res := heap_increse_key (Tree.node i k c d) last1
      (Tree.node ri rk Tree.nil res.1, res.2)
    else (Tree.node i k Tree.nil (Tree.node ri rk c d), last)
  | t, last => (t, last)
termination_by t _ => t.sizeT
decreasing_by
  all_goals simp [Tree.sizeT]
  all_goals omega

/-- `heap_find_last_node`: after the old last node (at position `count+1`,
`count` being already decremented) has been detached as a left child,
locate the new rightmost occupied slot of the bottom level, starting from
`last_node` (already redirected to the detached node's parent). -/
def heap_find_last_node (heap : BinHeap) : Option Nat :=
  let N := heap.count + 1
  if heap_perfect_log2 N = 0 then
    /- the tree is perfect again: the last node is the rightmost node -/
    heap.root_node.idAt? heap.root_node.rightDescent
  else if N % 2 = 0 then
    match heap.last_node with
    | none => none
    | some lid =>
      match heap.root_node.findPath? lid with
      | none => none
      | some p0 =>
        /- while (aux->parent->left == aux) aux = aux->parent; -/
        let p1 := stripTrail false p0
        match p1.reverse with
        | [] => none  /- the walk would reach the root and crash -/
        | _ :: rpp =>
          let pp := rpp.reverse
          /- aux = aux->parent->left; while (aux->right) aux = aux->right; -/
          let q := pp ++ [false]
          heap.root_node.idAt? (q ++ (heap.root_node.sub q).rightDescent)
  else
    heap.last_node

/-- `heap_extract_min`: remove and return the root (with its links cleared
by `heap_init_node`), promote the last node into the root slot and sift it
down.  Returns `none` with the heap untouched when the heap is empty. -/
def heap_extract_min (heap : BinHeap) : Option HeapNodeRec × BinHeap :=
  match heap.root_node with
  | Tree.nil => (none, heap)
  | Tree.node rid rkey _ _ =>
    let minRec : HeapNodeRec :=
      { id := rid, key := rkey, parent := none, left := none, right := none }
    let c1 := heap.count - 1
    if c1 = 0 then
      (some minRec, { count := 0, root_node := Tree.nil, last_node := none })
    else if c1 = 1 then
      /- two nodes: the old last node becomes root and last; its parent
         link is cleared -/
      match heap.last_node with
      | none => (some minRec, heap)  /- C would dereference NULL -/
      | some lid =>
        match heap.root_node.findPath? lid with
        | none => (some minRec, heap)
        | some p =>
          (some minRec,
           { count := c1, root_node := heap.root_node.sub p, last_node := some lid })
    else
      match heap.last_node with
      | none => (some minRec, heap)
      | some lid =>
        match heap.root_node.findPath? lid with
        | none => (some minRec, heap)
        | some p =>
          match p.getLast? with
          | none => (some minRec, heap)  /- last is the root: ill-formed -/
          | some dLast =>
            let pp := p.dropLast
            let lkey := (heap.root_node.keyAt? p).getD 0
            if dLast = false then
              /- new_min->parent->left = NULL; last = parent; then the
                 navigator recomputes the last slot -/
              let t1 := heap.root_node.setChildNil pp false
              let h1 : BinHeap :=
                { count := c1, root_node := t1,
                  last_node := heap.root_node.idAt? pp }
              let h2 : BinHeap := { h1 with last_node := heap_find_last_node h1 }
              let t2 :=
                match h2.root_node with
                | Tree.nil => Tree.nil
                | Tree.node _ _ a b => Tree.node lid lkey a b
              let res := heap_increse_key t2 h2.last_node
              (some minRec, { count := c1, root_node := res.1, last_node := res.2 })
            else
              /- new_min->parent->right = NULL; last = parent->left -/
              let t1 := heap.root_node.setChildNil pp true
              let h1 : BinHeap :=
                { count := c1, root_node := t1,
                  last_node := t1.idAt? (pp ++ [false]) }
              let t2 :=
                match h1.root_node with
                | Tree.nil => Tree.nil
                | Tree.node _ _ a b => Tree.node lid lkey a b
              let res := heap_increse_key t2 h1.last_node
              (some minRec, { count := c1, root_node := res.1, last_node := res.2 })

/-- `heap_get_size` from the header. -/
def heap_get_size (heap : BinHeap) : Nat :=
  heap.count

/-- `heap_get_root_node` from the header (the address it returns). -/
def heap_get_root_node (heap : BinHeap) : Option Nat :=
  heap.root_node.rootId?

/-- `heap_is_empty` from the header. -/
def heap_is_empty (heap : BinHeap) : Bool :=
  heap.count == 0

/-- `node->parent` of the node with address `i`: for a queued node this is
the inverse of the child link leading to it; for a node outside the heap
the field was cleared by `heap_init_node` and reads `none`. -/
def parentIdOf (t : Tree) (i : Nat) : Option Nat :=
  match t.findPath? i with
  | none => none
  | some [] => none
  | some p => t.idAt? p.dropLast

/-- `node->left` of the node with address `i`. -/
def leftIdOf (t : Tree) (i : Nat) : Option Nat :=
  match t.findPath? i with
  | none => none
  | some p => t.idAt? (p ++ [false])

/-- `node->right` of the node with address `i`. -/
def rightIdOf (t : Tree) (i : Nat) : Option Nat :=
  match t.findPath? i with
  | none => none
  | some p => t.idAt? (p ++ [true])

/-- `heap_is_node_added` from the header: a non-NULL node is reported as
queued when any of its three links is set or when it is the root. -/
def heap_is_node_added (heap : BinHeap) (node : Option Nat) : Bool :=
  match node with
  | none => false
  | some i =>
    if (parentIdOf heap.root_node i).isSome
        || (leftIdOf heap.root_node i).isSome
        || (rightIdOf heap.root_node i).isSome then
      true
    else if heap_get_root_node heap == some i then
      true
    else
      false

/-- The caller-side key update preceding `heap_decrease_key`: the owner of
the record lowers `node->key` in place (the heap code itself never writes
the key field). -/
def heap_set_key (heap : BinHeap) (i k : Nat) : BinHeap :=
  match heap.root_node.findPath? i with
  | none => heap
  | some p => { heap with root_node := heap.root_node.setKeyAt p k }

/-- Precondition of the public decrease-key operation: the new key does
not exceed the queued node's current key (nodes outside the heap are
unconstrained; the operation is then vacuous). -/
def decrease_pre (heap : BinHeap) (i k : Nat) : Bool :=
  match heap.root_node.findPath? i with
  | none => true
  | some p => k ≤ ((heap.root_node.keyAt? p).getD 0)

/-- Heap states reachable by the public API from `heap_init`, under the
documented preconditions: inserted nodes are fresh (never already queued)
and `heap_decrease_key` is only invoked after the caller lowered the key. -/
inductive Reach : BinHeap → Prop
  | init : Reach heap_init
  | insert {h : BinHeap} (n : HeapNodeRec) :
      Reach h → h.root_node.containsId n.id = false → Reach (heap_insert h n)
  | decrease {h : BinHeap} (i k : Nat) :
      Reach h → decrease_pre h i k = true →
      Reach (heap_decrease_key (heap_set_key h i k) i)
  | extract {h : BinHeap} :
      Reach h → Reach (heap_extract_min h).2

/-- Build a heap by inserting the given `(id, key)` pairs in order. -/
def buildHeap (l : List (Nat × Nat)) : BinHeap :=
  l.foldl
    (fun h x =>
      heap_insert h
        { id := x.1, key := x.2, parent := none, left := none, right := none })
    heap_init

/-- Extract repeatedly (at most `fuel` times), collecting the keys of the
returned nodes until the heap reports empty. -/
def drain : Nat → BinHeap → List Nat
  | 0, _ => []
  | fuel + 1, h =>
    match heap_extract_min h with
    | (none, _) => []
    | (some n, h') => n.key :: drain fuel h'

/-- Fuel-instrumented version of the recursive `heap_increse_key`, for the
termination claim: `none` signals fuel exhaustion. -/
def heap_increse_key_fuel : Nat → Tree → Option Nat → Option (Tree × Option Nat)
  | 0, _, _ => none
  | fuel + 1, t, last =>
    match t, last with
    | Tree.node i k (Tree.node li lk a b) r, last =>
      if k > lk then
        match r with
        | Tree.node ri rk c d =>
          if k > rk then
            if lk < rk then
              let last1 := if last = some li then some i else last
              match heap_increse_key_fuel fuel (Tree.node i k a b) last1 with
              | none => none
              | some res => some (Tree.node li lk res.1 (Tree.node ri rk c d), res.2)
            else
              let last1 := if last = some ri then some i else last
              match heap_increse_key_fuel fuel (Tree.node i k c d) last1 with
              | none => none
              | some res => some (Tree.node ri rk (Tree.node li lk a b) res.1, res.2)
          else
            let last1 := if last = some li then some i else last
            match heap_increse_key_fuel fuel (Tree.node i k a b) last1 with
            | none => none
            | some res => some (Tree.node li lk res.1 (Tree.node ri rk c d), res.2)
        | Tree.nil =>
          let last1 := if last = some li then some i else last
          match heap_increse_key_fuel fuel (Tree.node i k a b) last1 with
          | none => none
          | some res => some (Tree.node li lk res.1 Tree.nil, res.2)
      else
        match r with
        | Tree.node ri rk c d =>
          if k > rk then
            let last1 := if last = some ri then some i else last
            match heap_increse_key_fuel fuel (Tree.node i k c d) last1 with
            | none => none
            | some res => some (Tree.node ri rk (Tree.node li lk a b) res.1, res.2)
          else some (Tree.node i k (Tree.node li lk a b) (Tree.node ri rk c d), last)
        | Tree.nil => some (Tree.node i k (Tree.node li lk a b) Tree.nil, last)
    | Tree.node i k Tree.nil (Tree.node ri rk c d), last =>
      if k > rk then
        let last1 := if last = some ri then some i else last
        match heap_increse_key_fuel fuel (Tree.node i k c d) last1 with
        | none => none
        | some res => some (Tree.node ri rk Tree.nil res.1, res.2)
      else some (Tree.node i k Tree.nil (Tree.node ri rk c d), last)
    | t, last => some (t, last)

/-- Fuel-instrumented version of the `heap_decrease_key` sift-up loop. -/
def heap_decrease_key_loop_fuel : Nat → Tree → List Bool → Option Tree
  | 0, t, [] => some t
  | 0, _, _ :: _ => none
  | _ + 1, t, [] => some t
  | fuel + 1, t, d :: rp =>
    let pp := rp.reverse
    match (t.keyAt? pp), (t.keyAt? (pp ++ [d])) with
    | some pk, some nk =>
      if pk > nk then heap_decrease_key_loop_fuel fuel (t.rotAt pp d) rp
      else some t
    | _, _ => some t

end Olsrd

namespace Olsrd

/-! ### Level-order position arithmetic -/

theorem posFrom_nil (a : Nat) : posFrom a [] = a := rfl

theorem posFrom_cons (a : Nat) (d : Bool) (p : List Bool) :
    posFrom a (d :: p) = posFrom (2 * a + cond d 1 0) p := rfl

theorem posFrom_append (a : Nat) (p q : List Bool) :
    posFrom a (p ++ q) = posFrom (posFrom a p) q := by
  simp [posFrom, List.foldl_append]

theorem posFrom_single (a : Nat) (d : Bool) :
    posFrom a [d] = 2 * a + cond d 1 0 := rfl

theorem pos_append_single (p : List Bool) (d : Bool) :
    pos (p ++ [d]) = 2 * pos p + cond d 1 0 := by
  simp [pos, posFrom_append, posFrom_single]

theorem posFrom_split (a : Nat) (p : List Bool) :
    posFrom a p = a * 2 ^ p.length + posFrom 0 p ∧ posFrom 0 p < 2 ^ p.length := by
  induction p generalizing a with
  | nil => simp [posFrom]
  | cons d p ih =>
    have h1 := ih (2 * a + cond d 1 0)
    have h2 := ih (cond d 1 0)
    have hd : (cond d 1 0 : Nat) ≤ 1 := by cases d <;> simp
    constructor
    · rw [posFrom_cons, h1.1]
      have : posFrom 0 (d :: p) = cond d 1 0 * 2 ^ p.length + posFrom 0 p := by
        rw [posFrom_cons]
        simpa using h2.1
      rw [this]
      ring_nf
      simp [List.length_cons, pow_succ]
      ring
    · rw [posFrom_cons]
      have := h2.1
      simp only [Nat.zero_mul, Nat.zero_add] at this ⊢
      rw [show (2 * 0 + cond d 1 0 : Nat) = cond d 1 0 by omega, this]
      have := h2.2
      simp [List.length_cons, pow_succ]
      calc cond d 1 0 * 2 ^ p.length + posFrom 0 p
      _ ≤ 1 * 2 ^ p.length + posFrom 0 p := by
        exact Nat.add_le_add_right (Nat.mul_le_mul_right _ hd) _
      _ < 2 ^ p.length + 2 ^ p.length := by omega
      _ = 2 ^ p.length * 2 := by ring

theorem pos_bounds (p : List Bool) :
    2 ^ p.length ≤ pos p ∧ pos p < 2 ^ (p.length + 1) := by
  have h := posFrom_split 1 p
  constructor
  · rw [pos, h.1]; omega
  · rw [pos, h.1, pow_succ]
    have := h.2
    omega

theorem pos_pos (p : List Bool) : 1 ≤ pos p := by
  have := (pos_bounds p).1
  have : (1 : Nat) ≤ 2 ^ p.length := Nat.one_le_two_pow
  omega

theorem pos_length_eq {p q : List Bool} (h : pos p = pos q) :
    p.length = q.length := by
  have hp := pos_bounds p
  have hq := pos_bounds q
  by_contra hne
  rcases Nat.lt_or_ge p.length q.length with hlt | hge
  · have : pos p < pos q := by
      calc pos p < 2 ^ (p.length + 1) := hp.2
      _ ≤ 2 ^ q.length := Nat.pow_le_pow_right (by omega) (by omega)
      _ ≤ pos q := hq.1
    omega
  · have hlt : q.length < p.length := by omega
    have : pos q < pos p := by
      calc pos q < 2 ^ (q.length + 1) := hq.2
      _ ≤ 2 ^ p.length := Nat.pow_le_pow_right (by omega) (by omega)
      _ ≤ pos p := hp.1
    omega

theorem pos_inj : ∀ {p q : List Bool}, pos p = pos q → p = q := by
  intro p
  induction p using List.reverseRecOn with
  | nil =>
    intro q
    induction q using List.reverseRecOn with
    | nil => intro _; rfl
    | append_singleton q e _ =>
      intro h
      rw [pos_append_single] at h
      have h0 : pos ([] : List Bool) = 1 := rfl
      rw [h0] at h
      have := pos_pos q
      cases e <;> simp at h <;> omega
  | append_singleton p d ih =>
    intro q
    induction q using List.reverseRecOn with
    | nil =>
      intro h
      rw [pos_append_single] at h
      have h0 : pos ([] : List Bool) = 1 := rfl
      rw [h0] at h
      have := pos_pos p
      cases d <;> simp at h <;> omega
    | append_singleton q e _ =>
      intro h
      rw [pos_append_single, pos_append_single] at h
      have hde : d = e := by
        cases d <;> cases e <;> simp at h ⊢ <;> omega
      subst hde
      have hpq : pos p = pos q := by
        cases d <;> simp at h <;> omega
      rw [ih hpq]

theorem binPathGo_fuel :
    ∀ fuel fuel' n : Nat, n ≤ fuel → n ≤ fuel' →
      binPathGo fuel n = binPathGo fuel' n := by
  intro fuel
  induction fuel with
  | zero =>
    intro fuel' n h _
    have : n = 0 := by omega
    subst this
    cases fuel' <;> rfl
  | succ fuel ih =>
    intro fuel' n h h'
    by_cases h1 : n ≤ 1
    · rcases Nat.le_one_iff_eq_zero_or_eq_one.mp h1 with h0 | h0 <;> subst h0 <;>
        cases fuel' <;> simp [binPathGo]
    · cases fuel' with
      | zero => omega
      | succ g =>
        simp only [binPathGo, if_neg h1]
        rw [ih g (n / 2) (by omega) (by omega)]

theorem binPath_two {n : Nat} (h : 2 ≤ n) :
    binPath n = binPath (n / 2) ++ [n % 2 == 1] := by
  match n, h with
  | k + 1, _ =>
    have h1 : binPath (k + 1) = binPathGo k ((k + 1) / 2) ++ [(k + 1) % 2 == 1] := by
      show binPathGo (k + 1) (k + 1) = _
      simp only [binPathGo, if_neg (show ¬ k + 1 ≤ 1 by omega)]
    rw [h1, binPathGo_fuel k ((k + 1) / 2) ((k + 1) / 2) (by omega) (by omega)]
    rfl

theorem pos_binPath {n : Nat} (h : 1 ≤ n) : pos (binPath n) = n := by
  induction n using Nat.strong_induction_on with
  | _ n ih =>
    by_cases h1 : n = 1
    · subst h1; rfl
    · have h2 : 2 ≤ n := by omega
      rw [binPath_two h2, pos_append_single, ih (n / 2) (by omega) (by omega)]
      rcases Nat.even_or_odd n with he | he
      · have : n % 2 = 0 := Nat.even_iff.mp he
        simp [this]
        omega
      · have : n % 2 = 1 := Nat.odd_iff.mp he
        simp [this]
        omega

theorem binPath_pos (p : List Bool) : binPath (pos p) = p :=
  pos_inj (pos_binPath (pos_pos p))

theorem binPath_even {n : Nat} (h : 2 ≤ n) (he : n % 2 = 0) :
    binPath n = binPath (n / 2) ++ [false] := by
  rw [binPath_two h, he]
  rfl

theorem binPath_odd {n : Nat} (h : 2 ≤ n) (he : n % 2 = 1) :
    binPath n = binPath (n / 2) ++ [true] := by
  rw [binPath_two h, he]
  rfl

end Olsrd

namespace Olsrd

/-! ### Pointer-chain lemmas -/

theorem Tree.sub_nil_tree : ∀ p : List Bool, Tree.nil.sub p = Tree.nil
  | [] => rfl
  | _ :: _ => rfl

theorem Tree.sub_nil_path (t : Tree) : t.sub [] = t := by
  cases t <;> simp [Tree.sub]

theorem Tree.sub_cons (i k : Nat) (l r : Tree) (d : Bool) (p : List Bool) :
    (Tree.node i k l r).sub (d :: p) = (if d then r else l).sub p := by
  simp [Tree.sub]

theorem Tree.sub_append (t : Tree) (p q : List Bool) :
    t.sub (p ++ q) = (t.sub p).sub q := by
  induction p generalizing t with
  | nil => rw [List.nil_append, Tree.sub_nil_path]
  | cons d p ih =>
    cases t with
    | nil => rw [Tree.sub_nil_tree, Tree.sub_nil_tree, Tree.sub_nil_tree]
    | node i k l r =>
      rw [List.cons_append, Tree.sub_cons, Tree.sub_cons, ih]

theorem Tree.idAt?_eq (t : Tree) (p : List Bool) :
    t.idAt? p = (t.labelAt? p).map Prod.fst := by
  rw [Tree.idAt?, Tree.labelAt?]
  cases t.sub p <;> rfl

theorem Tree.keyAt?_eq (t : Tree) (p : List Bool) :
    t.keyAt? p = (t.labelAt? p).map Prod.snd := by
  rw [Tree.keyAt?, Tree.labelAt?]
  cases t.sub p <;> rfl

theorem Tree.hasPath_eq (t : Tree) (p : List Bool) :
    t.hasPath p = (t.labelAt? p).isSome := by
  rw [Tree.hasPath, Tree.idAt?_eq]
  cases t.labelAt? p <;> rfl

theorem Tree.labelAt?_nil_tree (p : List Bool) :
    Tree.nil.labelAt? p = none := by
  rw [Tree.labelAt?, Tree.sub_nil_tree]

theorem Tree.labelAt?_node_nil (i k : Nat) (l r : Tree) :
    (Tree.node i k l r).labelAt? [] = some (i, k) := rfl

theorem Tree.labelAt?_cons (i k : Nat) (l r : Tree) (d : Bool) (p : List Bool) :
    (Tree.node i k l r).labelAt? (d :: p) = (if d then r else l).labelAt? p := by
  rw [Tree.labelAt?, Tree.labelAt?, Tree.sub_cons]

theorem Tree.sub_cons_false (i k : Nat) (l r : Tree) (p : List Bool) :
    (Tree.node i k l r).sub (false :: p) = l.sub p := by
  rw [Tree.sub_cons]; simp

theorem Tree.sub_cons_true (i k : Nat) (l r : Tree) (p : List Bool) :
    (Tree.node i k l r).sub (true :: p) = r.sub p := by
  rw [Tree.sub_cons]; simp

theorem Tree.modifyAt_cons_false (i k : Nat) (l r : Tree) (p : List Bool)
    (f : Tree → Tree) :
    (Tree.node i k l r).modifyAt (false :: p) f = Tree.node i k (l.modifyAt p f) r := by
  simp [Tree.modifyAt]

theorem Tree.modifyAt_cons_true (i k : Nat) (l r : Tree) (p : List Bool)
    (f : Tree → Tree) :
    (Tree.node i k l r).modifyAt (true :: p) f = Tree.node i k l (r.modifyAt p f) := by
  simp [Tree.modifyAt]

theorem Tree.labelAt?_cons_false (i k : Nat) (l r : Tree) (p : List Bool) :
    (Tree.node i k l r).labelAt? (false :: p) = l.labelAt? p := by
  rw [Tree.labelAt?, Tree.labelAt?, Tree.sub_cons_false]

theorem Tree.labelAt?_cons_true (i k : Nat) (l r : Tree) (p : List Bool) :
    (Tree.node i k l r).labelAt? (true :: p) = r.labelAt? p := by
  rw [Tree.labelAt?, Tree.labelAt?, Tree.sub_cons_true]

theorem Tree.labelAt?_isSome_of_append {t : Tree} {p q : List Bool}
    (h : (t.labelAt? (p ++ q)).isSome) : (t.labelAt? p).isSome := by
  rw [Tree.labelAt?] at h ⊢
  rw [Tree.sub_append] at h
  cases hs : t.sub p with
  | nil => rw [hs, Tree.sub_nil_tree] at h; simp at h
  | node i k l r => simp

theorem Tree.hasPath_of_append {t : Tree} {p q : List Bool}
    (h : t.hasPath (p ++ q) = true) : t.hasPath p = true := by
  rw [Tree.hasPath_eq] at h ⊢
  simpa using Tree.labelAt?_isSome_of_append (by simpa using h)

/-- The subtree one step below `p` is the corresponding child of the
subtree at `p`. -/
theorem Tree.sub_append_single (t : Tree) (p : List Bool) (d : Bool) :
    t.sub (p ++ [d]) = (match t.sub p with
      | Tree.nil => Tree.nil
      | Tree.node _ _ l r => if d then r else l) := by
  rw [Tree.sub_append]
  cases t.sub p with
  | nil => rw [Tree.sub_nil_tree]
  | node i k l r => rw [Tree.sub_cons]; cases d <;> simp [Tree.sub_nil_path]

/-! ### modifyAt lemmas -/

theorem Tree.modifyAt_nil_tree (p : List Bool) (f : Tree → Tree) (h : p ≠ []) :
    Tree.nil.modifyAt p f = Tree.nil := by
  cases p with
  | nil => exact absurd rfl h
  | cons d p => rfl

theorem Tree.modifyAt_nil_path (t : Tree) (f : Tree → Tree) :
    t.modifyAt [] f = f t := by
  cases t <;> simp [Tree.modifyAt]

theorem Tree.modifyAt_cons (i k : Nat) (l r : Tree) (d : Bool) (p : List Bool)
    (f : Tree → Tree) :
    (Tree.node i k l r).modifyAt (d :: p) f =
      if d then Tree.node i k l (r.modifyAt p f)
      else Tree.node i k (l.modifyAt p f) r := by
  simp [Tree.modifyAt]

/-- Labels strictly outside the modified cone are untouched. -/
theorem Tree.labelAt?_modifyAt_out {p q : List Bool} (t : Tree) (f : Tree → Tree)
    (h : ¬ p <+: q) : (t.modifyAt p f).labelAt? q = t.labelAt? q := by
  induction q generalizing p t with
  | nil =>
    cases p with
    | nil => exact absurd List.nil_prefix h
    | cons d p =>
      cases t with
      | nil => rw [Tree.modifyAt_nil_tree _ _ (by simp)]
      | node i k l r =>
        rw [Tree.modifyAt_cons]
        cases d <;> simp [Tree.labelAt?_node_nil]
  | cons e q ih =>
    cases p with
    | nil => exact absurd List.nil_prefix h
    | cons d p =>
      cases t with
      | nil => rw [Tree.modifyAt_nil_tree _ _ (by simp)]
      | node i k l r =>
        rw [Tree.modifyAt_cons]
        by_cases hde : d = e
        · subst hde
          have hpq : ¬ p <+: q := fun hc => h (List.cons_prefix_cons.mpr ⟨rfl, hc⟩)
          cases d <;> simp [Tree.labelAt?_cons_false, Tree.labelAt?_cons_true] <;>
            exact ih _ hpq
        · cases d <;> cases e
          · exact absurd rfl hde
          · simp [Tree.labelAt?_cons_true]
          · simp [Tree.labelAt?_cons_false]
          · exact absurd rfl hde

/-- Inside the modified cone, the result is read off the rewritten
subtree. -/
theorem Tree.sub_modifyAt_pre {t : Tree} {p : List Bool} (f : Tree → Tree)
    (h : t.hasPath p = true) (q : List Bool) :
    (t.modifyAt p f).sub (p ++ q) = (f (t.sub p)).sub q := by
  induction p generalizing t with
  | nil => rw [List.nil_append, Tree.modifyAt_nil_path, Tree.sub_nil_path]
  | cons d p ih =>
    cases t with
    | nil =>
      rw [Tree.hasPath, Tree.idAt?, Tree.sub_nil_tree] at h
      simp [Tree.rootId?] at h
    | node i k l r =>
      cases d
      · rw [Tree.hasPath, Tree.idAt?, Tree.sub_cons_false] at h
        rw [Tree.modifyAt_cons_false, List.cons_append, Tree.sub_cons_false,
          Tree.sub_cons_false]
        exact ih (by rw [Tree.hasPath, Tree.idAt?]; exact h)
      · rw [Tree.hasPath, Tree.idAt?, Tree.sub_cons_true] at h
        rw [Tree.modifyAt_cons_true, List.cons_append, Tree.sub_cons_true,
          Tree.sub_cons_true]
        exact ih (by rw [Tree.hasPath, Tree.idAt?]; exact h)

theorem Tree.labelAt?_modifyAt_pre {t : Tree} {p : List Bool} (f : Tree → Tree)
    (h : t.hasPath p = true) (q : List Bool) :
    (t.modifyAt p f).labelAt? (p ++ q) = (f (t.sub p)).labelAt? q := by
  rw [Tree.labelAt?, Tree.labelAt?, Tree.sub_modifyAt_pre f h]

end Olsrd

namespace Olsrd

/-! ### Label lists, ids and the id search -/

theorem Tree.labels_nil : Tree.nil.labels = [] := rfl

theorem Tree.labels_node (i k : Nat) (l r : Tree) :
    (Tree.node i k l r).labels = (i, k) :: (l.labels ++ r.labels) := rfl

theorem Tree.ids_nil : Tree.nil.ids = [] := rfl

theorem Tree.ids_node (i k : Nat) (l r : Tree) :
    (Tree.node i k l r).ids = i :: (l.ids ++ r.ids) := by
  simp [Tree.ids, Tree.labels_node]

theorem Tree.mem_labels_iff (t : Tree) (x : Nat × Nat) :
    x ∈ t.labels ↔ ∃ p, t.labelAt? p = some x := by
  induction t with
  | nil =>
    simp [Tree.labels_nil, Tree.labelAt?_nil_tree]
  | node i k l r ihl ihr =>
    rw [Tree.labels_node]
    constructor
    · intro h
      rcases List.mem_cons.mp h with h | h
      · exact ⟨[], by rw [h, Tree.labelAt?_node_nil]⟩
      · rcases List.mem_append.mp h with h | h
        · rcases ihl.mp h with ⟨p, hp⟩
          exact ⟨false :: p, by rw [Tree.labelAt?_cons_false]; exact hp⟩
        · rcases ihr.mp h with ⟨p, hp⟩
          exact ⟨true :: p, by rw [Tree.labelAt?_cons_true]; exact hp⟩
    · rintro ⟨p, hp⟩
      cases p with
      | nil =>
        rw [Tree.labelAt?_node_nil] at hp
        exact List.mem_cons.mpr (Or.inl (by injection hp; simp [*]))
      | cons d p =>
        cases d
        · rw [Tree.labelAt?_cons_false] at hp
          exact List.mem_cons.mpr (Or.inr (List.mem_append.mpr
            (Or.inl (ihl.mpr ⟨p, hp⟩))))
        · rw [Tree.labelAt?_cons_true] at hp
          exact List.mem_cons.mpr (Or.inr (List.mem_append.mpr
            (Or.inr (ihr.mpr ⟨p, hp⟩))))

theorem Tree.mem_ids_iff (t : Tree) (i : Nat) :
    i ∈ t.ids ↔ ∃ p, t.idAt? p = some i := by
  rw [Tree.ids]
  constructor
  · intro h
    rcases List.mem_map.mp h with ⟨x, hx, hfst⟩
    rcases (Tree.mem_labels_iff t x).mp hx with ⟨p, hp⟩
    exact ⟨p, by rw [Tree.idAt?_eq, hp]; simp [hfst]⟩
  · rintro ⟨p, hp⟩
    rw [Tree.idAt?_eq] at hp
    cases hl : t.labelAt? p with
    | none => rw [hl] at hp; simp at hp
    | some x =>
      rw [hl] at hp
      simp at hp
      exact List.mem_map.mpr ⟨x, (Tree.mem_labels_iff t x).mpr ⟨p, hl⟩, hp⟩

/-- Decompose the label list around the subtree at `p`; the decomposition
is stable under rewriting that subtree. -/
theorem Tree.labels_modifyAt_decomp {t : Tree} {p : List Bool}
    (h : t.hasPath p = true) :
    ∃ pre post, t.labels = pre ++ ((t.sub p).labels ++ post) ∧
      ∀ f : Tree → Tree,
        (t.modifyAt p f).labels = pre ++ ((f (t.sub p)).labels ++ post) := by
  induction p generalizing t with
  | nil =>
    exact ⟨[], [], by simp [Tree.sub_nil_path], fun f => by
      simp [Tree.modifyAt_nil_path, Tree.sub_nil_path]⟩
  | cons d p ih =>
    cases t with
    | nil =>
      rw [Tree.hasPath, Tree.idAt?, Tree.sub_nil_tree] at h
      simp [Tree.rootId?] at h
    | node i k l r =>
      cases d
      · rw [Tree.hasPath, Tree.idAt?, Tree.sub_cons_false] at h
        rcases @ih l (by rw [Tree.hasPath, Tree.idAt?]; exact h) with
          ⟨pre, post, h1, h2⟩
        refine ⟨(i, k) :: pre, post ++ r.labels, ?_, ?_⟩
        · rw [Tree.labels_node, Tree.sub_cons_false, h1]
          simp
        · intro f
          rw [Tree.modifyAt_cons_false, Tree.labels_node, Tree.sub_cons_false, h2 f]
          simp
      · rw [Tree.hasPath, Tree.idAt?, Tree.sub_cons_true] at h
        rcases @ih r (by rw [Tree.hasPath, Tree.idAt?]; exact h) with
          ⟨pre, post, h1, h2⟩
        refine ⟨(i, k) :: (l.labels ++ pre), post, ?_, ?_⟩
        · rw [Tree.labels_node, Tree.sub_cons_true, h1]
          simp
        · intro f
          rw [Tree.modifyAt_cons_true, Tree.labels_node, Tree.sub_cons_true, h2 f]
          simp

theorem Tree.findPath?_sound {t : Tree} {i : Nat} {p : List Bool}
    (h : t.findPath? i = some p) : t.idAt? p = some i := by
  induction t generalizing p with
  | nil => simp [Tree.findPath?] at h
  | node j k l r ihl ihr =>
    rw [Tree.findPath?] at h
    by_cases hj : j = i
    · rw [if_pos hj] at h
      injection h with h
      subst h
      rw [Tree.idAt?, Tree.sub_nil_path, Tree.rootId?, hj]
    · rw [if_neg hj] at h
      cases hl : l.findPath? i with
      | some pl =>
        rw [hl] at h
        injection h with h
        subst h
        rw [Tree.idAt?, Tree.sub_cons_false]
        exact ihl hl
      | none =>
        rw [hl] at h
        cases hr : r.findPath? i with
        | some pr =>
          rw [hr] at h
          injection h with h
          subst h
          rw [Tree.idAt?, Tree.sub_cons_true]
          exact ihr hr
        | none => rw [hr] at h; exact absurd h (by simp)

theorem Tree.findPath?_total {t : Tree} {i : Nat} {p : List Bool}
    (h : t.idAt? p = some i) : (t.findPath? i).isSome := by
  induction t generalizing p with
  | nil => rw [Tree.idAt?, Tree.sub_nil_tree] at h; simp [Tree.rootId?] at h
  | node j k l r ihl ihr =>
    rw [Tree.findPath?]
    by_cases hj : j = i
    · rw [if_pos hj]; simp
    · rw [if_neg hj]
      cases p with
      | nil =>
        rw [Tree.idAt?, Tree.sub_nil_path, Tree.rootId?] at h
        injection h with h
        exact absurd h hj
      | cons d p =>
        cases d
        · rw [Tree.idAt?, Tree.sub_cons_false] at h
          have := ihl h
          cases hl : l.findPath? i with
          | some pl => simp [hl]
          | none => rw [hl] at this; simp at this
        · rw [Tree.idAt?, Tree.sub_cons_true] at h
          have := ihr h
          cases hl : l.findPath? i with
          | some pl => simp [hl]
          | none =>
            cases hr : r.findPath? i with
            | some pr => simp [hl, hr]
            | none => rw [hr] at this; simp at this

theorem Tree.idAt?_inj {t : Tree} (hn : t.ids.Nodup) {p q : List Bool} {i : Nat}
    (hp : t.idAt? p = some i) (hq : t.idAt? q = some i) : p = q := by
  induction t generalizing p q with
  | nil => rw [Tree.idAt?, Tree.sub_nil_tree] at hp; simp [Tree.rootId?] at hp
  | node j k l r ihl ihr =>
    rw [Tree.ids_node] at hn
    have hn1 := List.nodup_cons.mp hn
    have hnl : l.ids.Nodup := (List.nodup_append.mp hn1.2).1
    have hnr : r.ids.Nodup := (List.nodup_append.mp hn1.2).2.1
    have hdisj := (List.nodup_append.mp hn1.2).2.2
    cases p with
    | nil =>
      rw [Tree.idAt?, Tree.sub_nil_path, Tree.rootId?] at hp
      injection hp with hp
      subst hp
      cases q with
      | nil => rfl
      | cons e q =>
        exfalso
        cases e
        · rw [Tree.idAt?, Tree.sub_cons_false] at hq
          exact hn1.1 (List.mem_append.mpr (Or.inl
            ((Tree.mem_ids_iff l j).mpr ⟨q, hq⟩)))
        · rw [Tree.idAt?, Tree.sub_cons_true] at hq
          exact hn1.1 (List.mem_append.mpr (Or.inr
            ((Tree.mem_ids_iff r j).mpr ⟨q, hq⟩)))
    | cons d p =>
      cases q with
      | nil =>
        rw [Tree.idAt?, Tree.sub_nil_path, Tree.rootId?] at hq
        injection hq with hq
        subst hq
        exfalso
        cases d
        · rw [Tree.idAt?, Tree.sub_cons_false] at hp
          exact hn1.1 (List.mem_append.mpr (Or.inl
            ((Tree.mem_ids_iff l j).mpr ⟨p, hp⟩)))
        · rw [Tree.idAt?, Tree.sub_cons_true] at hp
          exact hn1.1 (List.mem_append.mpr (Or.inr
            ((Tree.mem_ids_iff r j).mpr ⟨p, hp⟩)))
      | cons e q =>
        cases d <;> cases e
        · rw [Tree.idAt?, Tree.sub_cons_false] at hp hq
          rw [ihl hnl hp hq]
        · exfalso
          rw [Tree.idAt?, Tree.sub_cons_false] at hp
          rw [Tree.idAt?, Tree.sub_cons_true] at hq
          exact hdisj ((Tree.mem_ids_iff l i).mpr ⟨p, hp⟩)
            ((Tree.mem_ids_iff r i).mpr ⟨q, hq⟩)
        · exfalso
          rw [Tree.idAt?, Tree.sub_cons_true] at hp
          rw [Tree.idAt?, Tree.sub_cons_false] at hq
          exact hdisj ((Tree.mem_ids_iff l i).mpr ⟨q, hq⟩)
            ((Tree.mem_ids_iff r i).mpr ⟨p, hp⟩)
        · rw [Tree.idAt?, Tree.sub_cons_true] at hp hq
          rw [ihr hnr hp hq]

theorem Tree.findPath?_eq {t : Tree} (hn : t.ids.Nodup) {p : List Bool} {i : Nat}
    (hp : t.idAt? p = some i) : t.findPath? i = some p := by
  have ht := Tree.findPath?_total hp
  cases hf : t.findPath? i with
  | none => rw [hf] at ht; simp at ht
  | some q =>
    have := Tree.findPath?_sound hf
    rw [Tree.idAt?_inj hn this hp]

theorem Tree.containsId_iff_mem (t : Tree) (i : Nat) :
    t.containsId i = true ↔ i ∈ t.ids := by
  rw [Tree.containsId]
  constructor
  · intro h
    cases hf : t.findPath? i with
    | none => rw [hf] at h; simp at h
    | some p => exact (Tree.mem_ids_iff t i).mpr ⟨p, Tree.findPath?_sound hf⟩
  · intro h
    rcases (Tree.mem_ids_iff t i).mp h with ⟨p, hp⟩
    have := Tree.findPath?_total hp
    simpa using this

end Olsrd

namespace Olsrd

/-! ### Effect of the parent-swap rotation on labels -/

theorem Tree.rotUp_nil (d : Bool) : Tree.rotUp Tree.nil d = Tree.nil := by
  cases d <;> rfl

theorem Tree.rotUp_left (pi pk ni nk : Nat) (a b r : Tree) :
    Tree.rotUp (Tree.node pi pk (Tree.node ni nk a b) r) false =
      Tree.node ni nk (Tree.node pi pk a b) r := by
  simp [Tree.rotUp]

theorem Tree.rotUp_right (pi pk ni nk : Nat) (l a b : Tree) :
    Tree.rotUp (Tree.node pi pk l (Tree.node ni nk a b)) true =
      Tree.node ni nk l (Tree.node pi pk a b) := by
  cases l <;> simp [Tree.rotUp]

theorem Tree.rotUp_left_nil (pi pk : Nat) (r : Tree) :
    Tree.rotUp (Tree.node pi pk Tree.nil r) false = Tree.node pi pk Tree.nil r := by
  simp [Tree.rotUp]

theorem Tree.rotUp_right_nil (pi pk : Nat) (l : Tree) :
    Tree.rotUp (Tree.node pi pk l Tree.nil) true = Tree.node pi pk l Tree.nil := by
  cases l <;> simp [Tree.rotUp]

theorem Tree.modifyAt_eq_of_no_path {t : Tree} {p : List Bool} {f : Tree → Tree}
    (h : t.hasPath p = false) (hf : f Tree.nil = Tree.nil) : t.modifyAt p f = t := by
  induction p generalizing t with
  | nil =>
    cases t with
    | nil => rw [Tree.modifyAt_nil_path, hf]
    | node i k l r =>
      rw [Tree.hasPath, Tree.idAt?, Tree.sub_nil_path] at h
      simp [Tree.rootId?] at h
  | cons d p ih =>
    cases t with
    | nil => rfl
    | node i k l r =>
      cases d
      · rw [Tree.hasPath, Tree.idAt?, Tree.sub_cons_false] at h
        rw [Tree.modifyAt_cons_false, ih (by rw [Tree.hasPath, Tree.idAt?]; exact h)]
      · rw [Tree.hasPath, Tree.idAt?, Tree.sub_cons_true] at h
        rw [Tree.modifyAt_cons_true, ih (by rw [Tree.hasPath, Tree.idAt?]; exact h)]

theorem Tree.rotUp_labels_perm (s : Tree) (d : Bool) :
    (Tree.rotUp s d).labels.Perm s.labels := by
  cases s with
  | nil => rw [Tree.rotUp_nil]
  | node pi pk l r =>
    cases d
    · cases l with
      | nil => rw [Tree.rotUp_left_nil]
      | node ni nk a b =>
        rw [Tree.rotUp_left]
        rw [Tree.labels_node, Tree.labels_node, Tree.labels_node, Tree.labels_node]
        simp only [List.cons_append, List.append_assoc]
        exact List.Perm.swap _ _ _
    · cases r with
      | nil => rw [Tree.rotUp_right_nil]
      | node ni nk a b =>
        rw [Tree.rotUp_right]
        rw [Tree.labels_node, Tree.labels_node, Tree.labels_node, Tree.labels_node]
        refine List.Perm.trans (List.Perm.cons _ List.perm_middle) ?_
        refine List.Perm.trans (List.Perm.swap _ _ _) ?_
        exact List.Perm.cons _ List.perm_middle.symm

theorem Tree.labels_rotAt_perm (t : Tree) (pp : List Bool) (d : Bool) :
    (t.rotAt pp d).labels.Perm t.labels := by
  by_cases h : t.hasPath pp = true
  · rcases Tree.labels_modifyAt_decomp h with ⟨pre, post, h1, h2⟩
    rw [Tree.rotAt, h2, h1]
    exact ((Tree.rotUp_labels_perm (t.sub pp) d).append_right post).append_left pre
  · rw [Tree.rotAt,
      Tree.modifyAt_eq_of_no_path (Bool.not_eq_true _ ▸ h) (Tree.rotUp_nil d)]

end Olsrd

namespace Olsrd

/-- Full description of the parent-swap rotation: the labels at the parent
slot and the promoted child's slot are exchanged, everything else is
untouched. -/
theorem Tree.labelAt?_rotAt {t : Tree} {pp : List Bool} {d : Bool}
    (hc : t.hasPath (pp ++ [d]) = true) (q : List Bool) :
    (t.rotAt pp d).labelAt? q =
      if q = pp then t.labelAt? (pp ++ [d])
      else if q = pp ++ [d] then t.labelAt? pp
      else t.labelAt? q := by
  have hP : t.hasPath pp = true := Tree.hasPath_of_append hc
  have hAt : ∀ X, t.labelAt? (pp ++ X) = (t.sub pp).labelAt? X := fun X => by
    rw [Tree.labelAt?, Tree.labelAt?, Tree.sub_append]
  by_cases hpre : pp <+: q
  · rcases hpre with ⟨q', rfl⟩
    rw [Tree.rotAt, Tree.labelAt?_modifyAt_pre _ hP]
    cases hs : t.sub pp with
    | nil =>
      rw [Tree.hasPath, Tree.idAt?, hs] at hP
      simp [Tree.rootId?] at hP
    | node i k l r =>
      have hchild : t.sub (pp ++ [d]) = (if d then r else l) := by
        rw [Tree.sub_append, hs, Tree.sub_cons, Tree.sub_nil_path]
      cases d
      · simp only [if_neg Bool.false_ne_true] at hchild
        cases l with
        | nil =>
          rw [Tree.hasPath, Tree.idAt?, hchild] at hc
          simp [Tree.rootId?] at hc
        | node ni nk a b =>
          rw [Tree.rotUp_left]
          cases q' with
          | nil =>
            rw [List.append_nil, if_pos rfl, hAt, hs, Tree.labelAt?_cons_false,
              Tree.labelAt?_node_nil, Tree.labelAt?_node_nil]
          | cons e rest =>
            have hq1 : ¬ pp ++ e :: rest = pp := by simp
            rw [if_neg hq1]
            cases e
            · cases rest with
              | nil =>
                rw [if_pos rfl, Tree.labelAt?_cons_false, Tree.labelAt?_node_nil,
                  show t.labelAt? pp = some (i, k) by rw [Tree.labelAt?, hs]]
              | cons e2 rest2 =>
                have hq2 : ¬ pp ++ false :: e2 :: rest2 = pp ++ [false] := by simp
                rw [if_neg hq2, Tree.labelAt?_cons_false, Tree.labelAt?_cons, hAt,
                  hs, Tree.labelAt?_cons_false, Tree.labelAt?_cons]
            · have hq2 : ¬ pp ++ true :: rest = pp ++ [false] := by simp
              rw [if_neg hq2, Tree.labelAt?_cons_true, hAt, hs,
                Tree.labelAt?_cons_true]
      · simp only [if_pos rfl] at hchild
        cases r with
        | nil =>
          rw [Tree.hasPath, Tree.idAt?, hchild] at hc
          simp [Tree.rootId?] at hc
        | node ni nk a b =>
          rw [Tree.rotUp_right]
          cases q' with
          | nil =>
            rw [List.append_nil, if_pos rfl, hAt, hs, Tree.labelAt?_cons_true,
              Tree.labelAt?_node_nil, Tree.labelAt?_node_nil]
          | cons e rest =>
            have hq1 : ¬ pp ++ e :: rest = pp := by simp
            rw [if_neg hq1]
            cases e
            · have hq2 : ¬ pp ++ false :: rest = pp ++ [true] := by simp
              rw [if_neg hq2, Tree.labelAt?_cons_false, hAt, hs,
                Tree.labelAt?_cons_false]
            · cases rest with
              | nil =>
                rw [if_pos rfl, Tree.labelAt?_cons_true, Tree.labelAt?_node_nil,
                  show t.labelAt? pp = some (i, k) by rw [Tree.labelAt?, hs]]
              | cons e2 rest2 =>
                have hq2 : ¬ pp ++ true :: e2 :: rest2 = pp ++ [true] := by simp
                rw [if_neg hq2, Tree.labelAt?_cons_true, Tree.labelAt?_cons, hAt,
                  hs, Tree.labelAt?_cons_true, Tree.labelAt?_cons]
  · have h1 : ¬ q = pp := fun hq => hpre (hq ▸ List.prefix_refl pp)
    have h2 : ¬ q = pp ++ [d] := fun hq => hpre (hq ▸ List.prefix_append pp [d])
    rw [if_neg h1, if_neg h2, Tree.rotAt, Tree.labelAt?_modifyAt_out _ _ hpre]

theorem Tree.hasPath_rotAt {t : Tree} {pp : List Bool} {d : Bool}
    (hc : t.hasPath (pp ++ [d]) = true) (q : List Bool) :
    (t.rotAt pp d).hasPath q = t.hasPath q := by
  have hP : t.hasPath pp = true := Tree.hasPath_of_append hc
  rw [Tree.hasPath_eq, Tree.hasPath_eq, Tree.labelAt?_rotAt hc]
  by_cases h1 : q = pp
  · subst h1
    rw [if_pos rfl]
    rw [Tree.hasPath_eq] at hP hc
    rw [hc, hP]
  · rw [if_neg h1]
    by_cases h2 : q = pp ++ [d]
    · subst h2
      rw [if_pos rfl]
      rw [Tree.hasPath_eq] at hP hc
      rw [hc, hP]
    · rw [if_neg h2]

end Olsrd

namespace Olsrd

/-! ### Effect of attaching a new leaf (insert) -/


theorem perm_pull_second {α : Type} (u v : α) (pre mid post : List α) :
    (pre ++ u :: v :: (mid ++ post)).Perm (v :: (pre ++ u :: (mid ++ post))) := by
  refine List.Perm.trans List.perm_middle ?_
  refine List.Perm.trans (List.Perm.cons _ List.perm_middle) ?_
  refine List.Perm.trans (List.Perm.swap _ _ _) ?_
  exact List.Perm.cons _ List.perm_middle.symm

theorem perm_pull_after {α : Type} (u v : α) (pre mid post : List α) :
    (pre ++ u :: (mid ++ v :: post)).Perm (v :: (pre ++ u :: (mid ++ post))) := by
  have h2 : pre ++ (mid ++ v :: post) = (pre ++ mid) ++ v :: post := by
    rw [List.append_assoc]
  have h3 : ((pre ++ mid) ++ v :: post).Perm (v :: ((pre ++ mid) ++ post)) :=
    List.perm_middle
  have h4 : (pre ++ u :: (mid ++ post)).Perm (u :: (pre ++ (mid ++ post))) :=
    List.perm_middle
  refine List.Perm.trans List.perm_middle ?_
  rw [h2]
  refine (List.Perm.cons u h3).trans ?_
  refine (List.Perm.swap _ _ _).trans ?_
  refine List.Perm.cons v ?_
  rw [List.append_assoc]
  exact h4.symm

end Olsrd

namespace Olsrd

/-- `modifyAt` only evaluates its function at the addressed subtree. -/
theorem Tree.modifyAt_congr {t : Tree} {p : List Bool} {f g : Tree → Tree}
    (hP : t.hasPath p = true) (hfg : f (t.sub p) = g (t.sub p)) :
    t.modifyAt p f = t.modifyAt p g := by
  induction p generalizing t with
  | nil =>
    rw [Tree.modifyAt_nil_path, Tree.modifyAt_nil_path]
    rw [Tree.sub_nil_path] at hfg
    exact hfg
  | cons d p ih =>
    cases t with
    | nil => rw [Tree.modifyAt_nil_tree _ _ (by simp), Tree.modifyAt_nil_tree _ _ (by simp)]
    | node i k l r =>
      cases d
      · rw [Tree.hasPath, Tree.idAt?, Tree.sub_cons_false] at hP
        rw [Tree.sub_cons_false] at hfg
        rw [Tree.modifyAt_cons_false, Tree.modifyAt_cons_false,
          ih (by rw [Tree.hasPath, Tree.idAt?]; exact hP) hfg]
      · rw [Tree.hasPath, Tree.idAt?, Tree.sub_cons_true] at hP
        rw [Tree.sub_cons_true] at hfg
        rw [Tree.modifyAt_cons_true, Tree.modifyAt_cons_true,
          ih (by rw [Tree.hasPath, Tree.idAt?]; exact hP) hfg]

/-- With the left slot free, `attachNew` writes the new leaf there. -/
theorem Tree.attachNew_eq_left {t : Tree} {pp : List Bool} {nid nk i k : Nat}
    {r : Tree} (hP : t.hasPath pp = true)
    (hs : t.sub pp = Tree.node i k Tree.nil r) :
    t.attachNew pp nid nk =
      t.modifyAt pp
        (fun _ => Tree.node i k (Tree.node nid nk Tree.nil Tree.nil) r) := by
  rw [Tree.attachNew]
  refine Tree.modifyAt_congr hP ?_
  rw [hs]

/-- With the left slot occupied, `attachNew` overwrites the right slot
(which `heap_insert` only reaches when it is free). -/
theorem Tree.attachNew_eq_right {t : Tree} {pp : List Bool}
    {nid nk i k li lk : Nat} {a b r : Tree} (hP : t.hasPath pp = true)
    (hs : t.sub pp = Tree.node i k (Tree.node li lk a b) r) :
    t.attachNew pp nid nk =
      t.modifyAt pp
        (fun _ => Tree.node i k (Tree.node li lk a b)
          (Tree.node nid nk Tree.nil Tree.nil)) := by
  rw [Tree.attachNew]
  refine Tree.modifyAt_congr hP ?_
  rw [hs]

/-- `setChildNil` clears the left slot. -/
theorem Tree.setChildNil_eq_left {t : Tree} {pp : List Bool} {i k : Nat}
    {l r : Tree} (hP : t.hasPath pp = true)
    (hs : t.sub pp = Tree.node i k l r) :
    t.setChildNil pp false = t.modifyAt pp (fun _ => Tree.node i k Tree.nil r) := by
  rw [Tree.setChildNil]
  refine Tree.modifyAt_congr hP ?_
  rw [hs]

/-- `setChildNil` clears the right slot. -/
theorem Tree.setChildNil_eq_right {t : Tree} {pp : List Bool} {i k : Nat}
    {l r : Tree} (hP : t.hasPath pp = true)
    (hs : t.sub pp = Tree.node i k l r) :
    t.setChildNil pp true = t.modifyAt pp (fun _ => Tree.node i k l Tree.nil) := by
  rw [Tree.setChildNil]
  refine Tree.modifyAt_congr hP ?_
  rw [hs]

/-- `setKeyAt` rewrites the key of the addressed node. -/
theorem Tree.setKeyAt_eq {t : Tree} {p : List Bool} {i0 k0 : Nat} {l r : Tree}
    (hP : t.hasPath p = true) (hs : t.sub p = Tree.node i0 k0 l r) (k : Nat) :
    t.setKeyAt p k = t.modifyAt p (fun _ => Tree.node i0 k l r) := by
  rw [Tree.setKeyAt]
  refine Tree.modifyAt_congr hP ?_
  rw [hs]

end Olsrd

namespace Olsrd

/-- Attaching into the free left slot: only the new position gains a label. -/
theorem Tree.labelAt?_attachNew_left {t : Tree} {pp : List Bool} {nid nk i k : Nat}
    {r : Tree} (hP : t.hasPath pp = true)
    (hs : t.sub pp = Tree.node i k Tree.nil r) (q : List Bool) :
    (t.attachNew pp nid nk).labelAt? q =
      if q = pp ++ [false] then some (nid, nk) else t.labelAt? q := by
  have hAt : ∀ X, t.labelAt? (pp ++ X) = (t.sub pp).labelAt? X := fun X => by
    rw [Tree.labelAt?, Tree.labelAt?, Tree.sub_append]
  rw [Tree.attachNew_eq_left hP hs]
  by_cases hpre : pp <+: q
  · rcases hpre with ⟨q', rfl⟩
    rw [Tree.labelAt?_modifyAt_pre _ hP]
    show (Tree.node i k (Tree.node nid nk Tree.nil Tree.nil) r).labelAt? q' = _
    cases q' with
    | nil =>
      have hq1 : ¬ pp ++ ([] : List Bool) = pp ++ [false] := by simp
      rw [if_neg hq1, hAt, hs]
      rw [Tree.labelAt?_node_nil, Tree.labelAt?_node_nil]
    | cons e rest =>
      cases e
      · cases rest with
        | nil =>
          rw [if_pos rfl, Tree.labelAt?_cons_false, Tree.labelAt?_node_nil]
        | cons e2 rest2 =>
          have hq1 : ¬ pp ++ false :: e2 :: rest2 = pp ++ [false] := by simp
          rw [if_neg hq1, hAt, hs, Tree.labelAt?_cons_false,
            Tree.labelAt?_cons_false, Tree.labelAt?_cons]
          cases e2 <;> simp [Tree.labelAt?_nil_tree]
      · have hq1 : ¬ pp ++ true :: rest = pp ++ [false] := by simp
        rw [if_neg hq1, hAt, hs, Tree.labelAt?_cons_true, Tree.labelAt?_cons_true]
  · have h2 : ¬ q = pp ++ [false] := fun hq => hpre (hq ▸ List.prefix_append pp [false])
    rw [if_neg h2, Tree.labelAt?_modifyAt_out _ _ hpre]

/-- Attaching into the free right slot (left occupied): only the new
position gains a label. -/
theorem Tree.labelAt?_attachNew_right {t : Tree} {pp : List Bool}
    {nid nk i k li lk : Nat} {a b : Tree} (hP : t.hasPath pp = true)
    (hs : t.sub pp = Tree.node i k (Tree.node li lk a b) Tree.nil) (q : List Bool) :
    (t.attachNew pp nid nk).labelAt? q =
      if q = pp ++ [true] then some (nid, nk) else t.labelAt? q := by
  have hAt : ∀ X, t.labelAt? (pp ++ X) = (t.sub pp).labelAt? X := fun X => by
    rw [Tree.labelAt?, Tree.labelAt?, Tree.sub_append]
  rw [Tree.attachNew_eq_right hP hs]
  by_cases hpre : pp <+: q
  · rcases hpre with ⟨q', rfl⟩
    rw [Tree.labelAt?_modifyAt_pre _ hP]
    show (Tree.node i k (Tree.node li lk a b)
      (Tree.node nid nk Tree.nil Tree.nil)).labelAt? q' = _
    cases q' with
    | nil =>
      have hq1 : ¬ pp ++ ([] : List Bool) = pp ++ [true] := by simp
      rw [if_neg hq1, hAt, hs]
      rw [Tree.labelAt?_node_nil, Tree.labelAt?_node_nil]
    | cons e rest =>
      cases e
      · have hq1 : ¬ pp ++ false :: rest = pp ++ [true] := by simp
        rw [if_neg hq1, hAt, hs, Tree.labelAt?_cons_false, Tree.labelAt?_cons_false]
      · cases rest with
        | nil =>
          rw [if_pos rfl, Tree.labelAt?_cons_true, Tree.labelAt?_node_nil]
        | cons e2 rest2 =>
          have hq1 : ¬ pp ++ true :: e2 :: rest2 = pp ++ [true] := by simp
          rw [if_neg hq1, hAt, hs, Tree.labelAt?_cons_true,
            Tree.labelAt?_cons_true, Tree.labelAt?_cons]
          cases e2 <;> simp [Tree.labelAt?_nil_tree]
  · have h2 : ¬ q = pp ++ [true] := fun hq => hpre (hq ▸ List.prefix_append pp [true])
    rw [if_neg h2, Tree.labelAt?_modifyAt_out _ _ hpre]

theorem Tree.labels_attachNew_left {t : Tree} {pp : List Bool} {nid nk i k : Nat}
    {r : Tree} (hP : t.hasPath pp = true)
    (hs : t.sub pp = Tree.node i k Tree.nil r) :
    (t.attachNew pp nid nk).labels.Perm ((nid, nk) :: t.labels) := by
  rcases Tree.labels_modifyAt_decomp hP with ⟨pre, post, h1, h2⟩
  rw [Tree.attachNew_eq_left hP hs, h2, h1, hs]
  show (pre ++ ((Tree.node i k (Tree.node nid nk Tree.nil Tree.nil) r).labels
    ++ post)).Perm _
  rw [Tree.labels_node, Tree.labels_node, Tree.labels_node, Tree.labels_nil]
  simp only [List.cons_append, List.nil_append, List.append_assoc]
  exact perm_pull_second _ _ pre _ post

theorem Tree.labels_attachNew_right {t : Tree} {pp : List Bool}
    {nid nk i k li lk : Nat} {a b : Tree} (hP : t.hasPath pp = true)
    (hs : t.sub pp = Tree.node i k (Tree.node li lk a b) Tree.nil) :
    (t.attachNew pp nid nk).labels.Perm ((nid, nk) :: t.labels) := by
  rcases Tree.labels_modifyAt_decomp hP with ⟨pre, post, h1, h2⟩
  rw [Tree.attachNew_eq_right hP hs, h2, h1, hs]
  show (pre ++ ((Tree.node i k (Tree.node li lk a b)
    (Tree.node nid nk Tree.nil Tree.nil)).labels ++ post)).Perm _
  have hgen := perm_pull_after (i, k) (nid, nk) pre
    ((li, lk) :: (a.labels ++ b.labels)) post
  simp only [Tree.labels_node, Tree.labels_nil, List.cons_append, List.nil_append,
    List.append_assoc, List.append_nil] at hgen ⊢
  exact hgen

/-- Detaching the child on side `d`: the whole subtree below it vanishes. -/
theorem Tree.labelAt?_setChildNil {t : Tree} {pp : List Bool} {i k : Nat}
    {l r : Tree} (d : Bool) (hP : t.hasPath pp = true)
    (hs : t.sub pp = Tree.node i k l r) (q : List Bool) :
    (t.setChildNil pp d).labelAt? q =
      if pp ++ [d] <+: q then none else t.labelAt? q := by
  have hAt : ∀ X, t.labelAt? (pp ++ X) = (t.sub pp).labelAt? X := fun X => by
    rw [Tree.labelAt?, Tree.labelAt?, Tree.sub_append]
  have heq : t.setChildNil pp d =
      t.modifyAt pp (fun _ => if d then Tree.node i k l Tree.nil
        else Tree.node i k Tree.nil r) := by
    cases d
    · rw [Tree.setChildNil_eq_left hP hs]
      simp
    · rw [Tree.setChildNil_eq_right hP hs]
      simp
  rw [heq]
  by_cases hpre : pp <+: q
  · rcases hpre with ⟨q', rfl⟩
    rw [Tree.labelAt?_modifyAt_pre _ hP]
    show (if d then Tree.node i k l Tree.nil
      else Tree.node i k Tree.nil r).labelAt? q' = _
    cases q' with
    | nil =>
      have hq1 : ¬ pp ++ [d] <+: pp ++ ([] : List Bool) := by
        rw [List.prefix_append_right_inj]
        simp
      rw [if_neg hq1, hAt, hs]
      cases d <;> simp [Tree.labelAt?_node_nil]
    | cons e rest =>
      by_cases hde : e = d
      · subst hde
        have hq1 : pp ++ [e] <+: pp ++ e :: rest := by
          rw [List.prefix_append_right_inj]
          simp
        rw [if_pos hq1]
        cases e <;>
          simp [Tree.labelAt?_cons_false, Tree.labelAt?_cons_true,
            Tree.labelAt?_nil_tree]
      · have hq1 : ¬ pp ++ [d] <+: pp ++ e :: rest := by
          rw [List.prefix_append_right_inj]
          intro hc
          rcases hc with ⟨tail, htail⟩
          rw [List.cons_append] at htail
          injection htail with h1 _
          exact hde (h1.symm)
        rw [if_neg hq1, hAt, hs]
        cases e <;> cases d <;> simp_all <;>
          simp [Tree.labelAt?_cons_false, Tree.labelAt?_cons_true]
  · have h2 : ¬ pp ++ [d] <+: q := fun hq =>
      hpre ((List.prefix_append pp [d]).trans hq)
    rw [if_neg h2, Tree.labelAt?_modifyAt_out _ _ hpre]

/-- Detaching a leaf child removes exactly its label. -/
theorem Tree.labels_setChildNil_leaf {t : Tree} {pp : List Bool} {i k x y : Nat}
    {l r : Tree} (d : Bool) (hP : t.hasPath pp = true)
    (hs : t.sub pp = Tree.node i k l r)
    (hleaf : (if d then r else l) = Tree.node x y Tree.nil Tree.nil) :
    t.labels.Perm ((x, y) :: (t.setChildNil pp d).labels) := by
  rcases Tree.labels_modifyAt_decomp hP with ⟨pre, post, h1, h2⟩
  have h2c : ∀ V : Tree, (t.modifyAt pp (fun _ => V)).labels =
      pre ++ (V.labels ++ post) := fun V => h2 _
  cases d
  · simp only [if_neg Bool.false_ne_true] at hleaf
    subst hleaf
    rw [Tree.setChildNil_eq_left hP hs, h2c, h1, hs]
    have hgen := perm_pull_second (i, k) (x, y) pre r.labels post
    simp only [Tree.labels_node, Tree.labels_nil, List.cons_append, List.nil_append,
      List.append_assoc, List.append_nil] at hgen ⊢
    exact hgen
  · simp only [if_pos rfl] at hleaf
    subst hleaf
    rw [Tree.setChildNil_eq_right hP hs, h2c, h1, hs]
    have hgen := perm_pull_after (i, k) (x, y) pre l.labels post
    simp only [Tree.labels_node, Tree.labels_nil, List.cons_append, List.nil_append,
      List.append_assoc, List.append_nil] at hgen ⊢
    exact hgen

/-- Rewriting a key changes the label at that position only. -/
theorem Tree.labelAt?_setKeyAt {t : Tree} {p : List Bool} {i0 k0 : Nat}
    {l r : Tree} (hP : t.hasPath p = true) (hs : t.sub p = Tree.node i0 k0 l r)
    (k : Nat) (q : List Bool) :
    (t.setKeyAt p k).labelAt? q =
      if q = p then some (i0, k) else t.labelAt? q := by
  have hAt : ∀ X, t.labelAt? (p ++ X) = (t.sub p).labelAt? X := fun X => by
    rw [Tree.labelAt?, Tree.labelAt?, Tree.sub_append]
  rw [Tree.setKeyAt_eq hP hs]
  by_cases hpre : p <+: q
  · rcases hpre with ⟨q', rfl⟩
    rw [Tree.labelAt?_modifyAt_pre _ hP]
    show (Tree.node i0 k l r).labelAt? q' = _
    cases q' with
    | nil =>
      rw [List.append_nil, if_pos rfl, Tree.labelAt?_node_nil]
    | cons e rest =>
      have hq1 : ¬ p ++ e :: rest = p := by simp
      rw [if_neg hq1, hAt, hs, Tree.labelAt?_cons, Tree.labelAt?_cons]
  · have h1 : ¬ q = p := fun hq => hpre (hq ▸ List.prefix_refl p)
    rw [if_neg h1, Tree.labelAt?_modifyAt_out _ _ hpre]

/-- Rewriting a key leaves the id list unchanged. -/
theorem Tree.ids_setKeyAt {t : Tree} {p : List Bool} {i0 k0 : Nat}
    {l r : Tree} (hP : t.hasPath p = true) (hs : t.sub p = Tree.node i0 k0 l r)
    (k : Nat) : (t.setKeyAt p k).ids = t.ids := by
  rcases Tree.labels_modifyAt_decomp hP with ⟨pre, post, h1, h2⟩
  have h2c : ∀ V : Tree, (t.modifyAt p (fun _ => V)).labels =
      pre ++ (V.labels ++ post) := fun V => h2 _
  rw [Tree.ids, Tree.ids, Tree.setKeyAt_eq hP hs, h2c, h1, hs]
  rw [Tree.labels_node, Tree.labels_node]
  simp

end Olsrd

namespace Olsrd

/-! ### The heap invariants -/

/-- Shape invariant: the occupied pointer chains are exactly the level-order
positions `1..n` — a complete binary tree filled left to right. -/
def Complete (t : Tree) (n : Nat) : Prop :=
  ∀ p : List Bool, t.hasPath p = true ↔ pos p ≤ n

/-- One min-heap edge: when both endpoints exist, the parent's key is no
greater than the child's. -/
def edgeOrd (t : Tree) (q : List Bool) (d : Bool) : Prop :=
  ∀ a b : Nat × Nat,
    t.labelAt? q = some a → t.labelAt? (q ++ [d]) = some b → a.2 ≤ b.2

/-- Order invariant: every parent/child edge is ordered. -/
def HeapOrd (t : Tree) : Prop :=
  ∀ (q : List Bool) (d : Bool), edgeOrd t q d

/-- The root key bounds a subtree. -/
def belowRoot (k : Nat) : Tree → Prop
  | Tree.nil => True
  | Tree.node _ k2 _ _ => k ≤ k2

/-- Recursive form of the order invariant. -/
def HeapOrdR : Tree → Prop
  | Tree.nil => True
  | Tree.node _ k l r => belowRoot k l ∧ belowRoot k r ∧ HeapOrdR l ∧ HeapOrdR r

/-- All invariants of a well-formed `bin_heap` state. -/
structure WF (h : BinHeap) : Prop where
  complete : Complete h.root_node h.count
  ord : HeapOrd h.root_node
  lastv : h.last_node = h.root_node.idAt? (binPath h.count)
  nodup : h.root_node.ids.Nodup

theorem edgeOrd_node_false {i k : Nat} {l r : Tree} {q : List Bool} {d : Bool} :
    edgeOrd (Tree.node i k l r) (false :: q) d ↔ edgeOrd l q d := by
  unfold edgeOrd
  constructor
  · intro h a b ha hb
    exact h a b (by rw [Tree.labelAt?_cons_false]; exact ha)
      (by rw [List.cons_append, Tree.labelAt?_cons_false]; exact hb)
  · intro h a b ha hb
    rw [Tree.labelAt?_cons_false] at ha
    rw [List.cons_append, Tree.labelAt?_cons_false] at hb
    exact h a b ha hb

theorem edgeOrd_node_true {i k : Nat} {l r : Tree} {q : List Bool} {d : Bool} :
    edgeOrd (Tree.node i k l r) (true :: q) d ↔ edgeOrd r q d := by
  unfold edgeOrd
  constructor
  · intro h a b ha hb
    exact h a b (by rw [Tree.labelAt?_cons_true]; exact ha)
      (by rw [List.cons_append, Tree.labelAt?_cons_true]; exact hb)
  · intro h a b ha hb
    rw [Tree.labelAt?_cons_true] at ha
    rw [List.cons_append, Tree.labelAt?_cons_true] at hb
    exact h a b ha hb

theorem HeapOrd_nil : HeapOrd Tree.nil := by
  intro q d a b ha
  rw [Tree.labelAt?_nil_tree] at ha
  exact absurd ha (by simp)

theorem HeapOrd_iff_R : ∀ t : Tree, HeapOrd t ↔ HeapOrdR t := by
  intro t
  induction t with
  | nil =>
    simp only [HeapOrdR]
    exact ⟨fun _ => trivial, fun _ => HeapOrd_nil⟩
  | node i k l r ihl ihr =>
    constructor
    · intro h
      refine ⟨?_, ?_, ihl.mp ?_, ihr.mp ?_⟩
      · cases hl : l with
        | nil => exact trivial
        | node li lk a b =>
          show k ≤ lk
          have := h [] false (i, k) (li, lk) (Tree.labelAt?_node_nil i k l r)
            (by rw [List.nil_append, Tree.labelAt?_cons_false, hl,
              Tree.labelAt?_node_nil])
          exact this
      · cases hr : r with
        | nil => exact trivial
        | node ri rk a b =>
          show k ≤ rk
          have := h [] true (i, k) (ri, rk) (Tree.labelAt?_node_nil i k l r)
            (by rw [List.nil_append, Tree.labelAt?_cons_true, hr,
              Tree.labelAt?_node_nil])
          exact this
      · intro q d
        exact edgeOrd_node_false.mp (h (false :: q) d)
      · intro q d
        exact edgeOrd_node_true.mp (h (true :: q) d)
    · rintro ⟨hbl, hbr, hl, hr⟩
      intro q d
      cases q with
      | nil =>
        intro a b ha hb
        rw [Tree.labelAt?_node_nil] at ha
        injection ha with ha
        subst ha
        cases d
        · rw [List.nil_append, Tree.labelAt?_cons_false] at hb
          cases hl2 : l with
          | nil => rw [hl2, Tree.labelAt?_nil_tree] at hb; exact absurd hb (by simp)
          | node li lk c e =>
            rw [hl2] at hb
            rw [Tree.labelAt?_node_nil] at hb
            injection hb with hb
            subst hb
            rw [hl2] at hbl
            exact hbl
        · rw [List.nil_append, Tree.labelAt?_cons_true] at hb
          cases hr2 : r with
          | nil => rw [hr2, Tree.labelAt?_nil_tree] at hb; exact absurd hb (by simp)
          | node ri rk c e =>
            rw [hr2] at hb
            rw [Tree.labelAt?_node_nil] at hb
            injection hb with hb
            subst hb
            rw [hr2] at hbr
            exact hbr
      | cons e q =>
        cases e
        · exact edgeOrd_node_false.mpr ((ihl.mpr hl) q d)
        · exact edgeOrd_node_true.mpr ((ihr.mpr hr) q d)

/-- Under the order invariant, the root key bounds every key in the tree. -/
theorem HeapOrd_root_min {t : Tree} (h : HeapOrd t) {ri rk : Nat}
    (hroot : t.labelAt? [] = some (ri, rk)) :
    ∀ (q : List Bool) (x : Nat × Nat), t.labelAt? q = some x → rk ≤ x.2 := by
  intro q
  induction q using List.reverseRecOn with
  | nil =>
    intro x hx
    rw [hroot] at hx
    injection hx with hx
    subst hx
    exact Nat.le_refl _
  | append_singleton q d ih =>
    intro x hx
    have hq : (t.labelAt? q).isSome := Tree.labelAt?_isSome_of_append (by
      rw [hx]; rfl)
    cases hql : t.labelAt? q with
    | none => rw [hql] at hq; exact absurd hq (by simp)
    | some a =>
      have h1 := ih a hql
      have h2 := h q d a x hql hx
      omega

end Olsrd

namespace Olsrd

theorem append_single_inj {p q : List Bool} {d e : Bool}
    (h : p ++ [d] = q ++ [e]) : p = q ∧ d = e := by
  have h1 : p = q := by
    have := congrArg List.dropLast h
    simpa using this
  subst h1
  have h2 := List.append_cancel_left h
  injection h2 with h2
  exact ⟨rfl, h2⟩

theorem heap_decrease_key_loop_nil (t : Tree) : heap_decrease_key_loop t [] = t := by
  simp [heap_decrease_key_loop]

theorem heap_decrease_key_loop_cons (t : Tree) (d : Bool) (rp : List Bool) :
    heap_decrease_key_loop t (d :: rp) =
      (match (t.keyAt? rp.reverse), (t.keyAt? (rp.reverse ++ [d])) with
        | some pk, some nk =>
          if pk > nk then heap_decrease_key_loop (t.rotAt rp.reverse d) rp
          else t
        | _, _ => t) := by
  simp [heap_decrease_key_loop]

/-- Invariant carried by the `heap_decrease_key` loop: every heap edge
holds except possibly the one into the sifted node, and the sifted node's
children are bounded by its parent's key (they used to sit below a key at
least that large). -/
def SiftUpInv (t : Tree) (p : List Bool) : Prop :=
  (∀ (q : List Bool) (d : Bool), q ++ [d] ≠ p → edgeOrd t q d) ∧
  (∀ (d2 : Bool) (a b : Nat × Nat), t.labelAt? p.dropLast = some a →
    t.labelAt? (p ++ [d2]) = some b → a.2 ≤ b.2)

theorem keyAt?_of_labelAt? {t : Tree} {q : List Bool} {a : Nat × Nat}
    (h : t.labelAt? q = some a) : t.keyAt? q = some a.2 := by
  rw [Tree.keyAt?_eq, h]
  rfl

theorem labelAt?_isSome_of_keyAt? {t : Tree} {q : List Bool} {k : Nat}
    (h : t.keyAt? q = some k) : ∃ a : Nat × Nat, t.labelAt? q = some a ∧ a.2 = k := by
  rw [Tree.keyAt?_eq] at h
  cases hl : t.labelAt? q with
  | none => rw [hl] at h; exact absurd h (by simp)
  | some a =>
    rw [hl] at h
    injection h with h
    exact ⟨a, rfl, h⟩

theorem siftUp_ord : ∀ (rp : List Bool) (t : Tree),
    SiftUpInv t rp.reverse → HeapOrd (heap_decrease_key_loop t rp) := by
  intro rp
  induction rp with
  | nil =>
    intro t hinv
    rw [heap_decrease_key_loop_nil]
    intro q d
    exact hinv.1 q d (by simp)
  | cons d rp ih =>
    intro t hinv
    rw [List.reverse_cons] at hinv
    set pp := rp.reverse with hpp
    set p : List Bool := pp ++ [d] with hp
    rw [heap_decrease_key_loop_cons]
    cases hpk : t.keyAt? pp with
    | none =>
      simp only [hpk]
      intro q e a b ha hb
      by_cases hqe : q ++ [e] = p
      · have hq : q = pp := (append_single_inj hqe).1
        subst hq
        rw [keyAt?_of_labelAt? ha] at hpk
        exact absurd hpk (by simp)
      · exact hinv.1 q e hqe a b ha hb
    | some pk =>
      cases hnk : t.keyAt? (pp ++ [d]) with
      | none =>
        simp only [hpk, hnk]
        intro q e a b ha hb
        by_cases hqe : q ++ [e] = p
        · have hq : q = pp := (append_single_inj hqe).1
          have he : e = d := (append_single_inj hqe).2
          subst hq
          subst he
          rw [keyAt?_of_labelAt? hb] at hnk
          exact absurd hnk (by simp)
        · exact hinv.1 q e hqe a b ha hb
      | some nk =>
        simp only [hpk, hnk]
        by_cases hgt : pk > nk
        · rw [if_pos hgt]
          have hc : t.hasPath (pp ++ [d]) = true := by
            rcases labelAt?_isSome_of_keyAt? hnk with ⟨x, hx, _⟩
            rw [Tree.hasPath_eq, hx]
            rfl
          have R := Tree.labelAt?_rotAt hc
          rcases labelAt?_isSome_of_keyAt? hpk with ⟨pa, hpa, hpa2⟩
          rcases labelAt?_isSome_of_keyAt? hnk with ⟨na, hna, hna2⟩
          refine ih (t.rotAt pp d) ?_
          constructor
          · intro q e hqe a b ha hb
            rw [R] at ha hb
            by_cases hq1 : q = pp
            · subst hq1
              rw [if_pos rfl] at ha
              by_cases he : e = d
              · subst he
                rw [if_neg (by
                    intro hc2
                    exact hqe (by rw [hc2]))] at hb
                rw [if_pos rfl] at hb
                have ha2 : a = na := by
                  rw [ha] at hna
                  exact Option.some.inj hna
                have hb2 : b = pa := by
                  rw [hb] at hpa
                  exact Option.some.inj hpa
                rw [ha2, hb2, hna2, hpa2]
                omega
              · have hne1 : ¬ pp ++ [e] = pp := by simp
                have hne2 : ¬ pp ++ [e] = pp ++ [d] := by
                  intro hc2
                  exact he (append_single_inj hc2).2
                rw [if_neg hne1, if_neg hne2] at hb
                have hedge := hinv.1 pp e (by
                  intro hc2
                  exact he (append_single_inj hc2).2) pa b hpa hb
                have ha2 : a = na := by
                  rw [ha] at hna
                  exact Option.some.inj hna
                rw [ha2, hna2]
                omega
            · by_cases hq2 : q = pp ++ [d]
              · subst hq2
                rw [if_neg (by simp), if_pos rfl] at ha
                have hb2 : t.labelAt? ((pp ++ [d]) ++ [e]) = some b := by
                  have hx1 : ¬ (pp ++ [d]) ++ [e] = pp := by
                    intro hc2
                    have := congrArg List.length hc2
                    simp at this
                  have hx2 : ¬ (pp ++ [d]) ++ [e] = pp ++ [d] := by
                    intro hc2
                    have := congrArg List.length hc2
                    simp at this
                  rw [if_neg hx1, if_neg hx2] at hb
                  exact hb
                have := hinv.2 e a b (by
                  rw [show (pp ++ [d]).dropLast = pp by simp]
                  exact ha) hb2
                exact this
              · rw [if_neg hq1, if_neg hq2] at ha
                have hv1 : ¬ q ++ [e] = pp := hqe
                have hv2 : ¬ q ++ [e] = pp ++ [d] := by
                  intro hc2
                  exact hq1 (append_single_inj hc2).1
                rw [if_neg hv1, if_neg hv2] at hb
                exact hinv.1 q e (by
                  intro hc2
                  exact hq1 (append_single_inj hc2).1) a b ha hb
          · intro e a b ha hb
            rw [R] at ha hb
            have hbnd : ∀ x : Nat × Nat,
                t.labelAt? (pp ++ [e]) = some x → nk ≤ x.2 := by
              intro x hx
              by_cases he : e = d
              · subst he
                have hxna : x = na := by
                  rw [hx] at hna
                  exact Option.some.inj hna
                rw [hxna, hna2]
              · have hedge := hinv.1 pp e (by
                  intro hc2
                  exact he (append_single_inj hc2).2) pa x hpa hx
                omega
            by_cases hppnil : pp = []
            · rw [hppnil] at ha hb hpa hna hbnd
              rw [if_pos (show List.dropLast ([] : List Bool) = [] by simp)] at ha
              have ha2 : a = na := by
                rw [ha] at hna
                exact Option.some.inj hna
              by_cases he : e = d
              · subst he
                rw [if_neg (by simp), if_pos rfl] at hb
                have hb2 : b = pa := by
                  rw [hb] at hpa
                  exact Option.some.inj hpa
                rw [ha2, hb2, hna2, hpa2]
                omega
              · rw [if_neg (by simp), if_neg (by
                  intro hc2
                  have := @append_single_inj ([] : List Bool) ([] : List Bool) _ _ hc2
                  exact he this.2)] at hb
                have := hbnd b hb
                rw [ha2, hna2]
                omega
            · have hgp : pp.dropLast ≠ pp := by
                intro hc2
                have := congrArg List.length hc2
                rcases List.exists_cons_of_ne_nil hppnil with ⟨x, xs, hxs⟩
                rw [hxs] at this
                simp at this
              have hgp2 : pp.dropLast ≠ pp ++ [d] := by
                intro hc2
                have := congrArg List.length hc2
                rcases List.exists_cons_of_ne_nil hppnil with ⟨x, xs, hxs⟩
                rw [hxs] at this
                simp at this
                omega
              rw [if_neg hgp, if_neg hgp2] at ha
              have hgedge := hinv.1 pp.dropLast (pp.getLast hppnil) (by
                rw [List.dropLast_append_getLast hppnil]
                intro hc2
                rw [hp] at hc2
                have := congrArg List.length hc2
                simp at this) a pa ha (by
                rw [List.dropLast_append_getLast hppnil]
                exact hpa)
            -- the parent edge gives a.2 ≤ pa.2 = pk
              by_cases he : e = d
              · subst he
                rw [if_neg (by simp), if_pos rfl] at hb
                have hb2 : b = pa := by
                  rw [hb] at hpa
                  exact Option.some.inj hpa
                rw [hb2, hpa2]
                omega
              · have hne2 : ¬ pp ++ [e] = pp ++ [d] := by
                  intro hc2
                  exact he (append_single_inj hc2).2
                rw [if_neg (by simp), if_neg hne2] at hb
                have hsib := hinv.1 pp e (by
                  intro hc2
                  exact he (append_single_inj hc2).2) pa b hpa hb
                omega
        · rw [if_neg hgt]
          intro q e a b ha hb
          by_cases hqe : q ++ [e] = p
          · have hq : q = pp := (append_single_inj hqe).1
            have he : e = d := (append_single_inj hqe).2
            subst hq
            subst he
            rw [keyAt?_of_labelAt? ha] at hpk
            injection hpk with hpk
            rw [keyAt?_of_labelAt? hb] at hnk
            injection hnk with hnk
            omega
          · exact hinv.1 q e hqe a b ha hb

end Olsrd

namespace Olsrd

theorem siftUp_labels_perm : ∀ (rp : List Bool) (t : Tree),
    (heap_decrease_key_loop t rp).labels.Perm t.labels := by
  intro rp
  induction rp with
  | nil =>
    intro t
    rw [heap_decrease_key_loop_nil]
  | cons d rp ih =>
    intro t
    rw [heap_decrease_key_loop_cons]
    cases hpk : t.keyAt? rp.reverse with
    | none =>
      simp only [hpk]
      exact List.Perm.refl _
    | some pk =>
      cases hnk : t.keyAt? (rp.reverse ++ [d]) with
      | none =>
        simp only [hpk, hnk]
        exact List.Perm.refl _
      | some nk =>
        simp only [hpk, hnk]
        by_cases hgt : pk > nk
        · rw [if_pos hgt]
          exact (ih _).trans (Tree.labels_rotAt_perm t rp.reverse d)
        · rw [if_neg hgt]

theorem siftUp_hasPath : ∀ (rp : List Bool) (t : Tree) (q : List Bool),
    (heap_decrease_key_loop t rp).hasPath q = t.hasPath q := by
  intro rp
  induction rp with
  | nil =>
    intro t q
    rw [heap_decrease_key_loop_nil]
  | cons d rp ih =>
    intro t q
    rw [heap_decrease_key_loop_cons]
    cases hpk : t.keyAt? rp.reverse with
    | none => simp only [hpk]
    | some pk =>
      cases hnk : t.keyAt? (rp.reverse ++ [d]) with
      | none => simp only [hpk, hnk]
      | some nk =>
        simp only [hpk, hnk]
        by_cases hgt : pk > nk
        · rw [if_pos hgt]
          have hc : t.hasPath (rp.reverse ++ [d]) = true := by
            rcases labelAt?_isSome_of_keyAt? hnk with ⟨x, hx, _⟩
            rw [Tree.hasPath_eq, hx]
            rfl
          rw [ih _ q, Tree.hasPath_rotAt hc]
        · rw [if_neg hgt]

theorem siftUp_labelAt_out : ∀ (rp : List Bool) (t : Tree) (q : List Bool),
    ¬ q <+: rp.reverse →
    (heap_decrease_key_loop t rp).labelAt? q = t.labelAt? q := by
  intro rp
  induction rp with
  | nil =>
    intro t q _
    rw [heap_decrease_key_loop_nil]
  | cons d rp ih =>
    intro t q hq
    rw [List.reverse_cons] at hq
    rw [heap_decrease_key_loop_cons]
    cases hpk : t.keyAt? rp.reverse with
    | none => simp only [hpk]
    | some pk =>
      cases hnk : t.keyAt? (rp.reverse ++ [d]) with
      | none => simp only [hpk, hnk]
      | some nk =>
        simp only [hpk, hnk]
        by_cases hgt : pk > nk
        · rw [if_pos hgt]
          have hc : t.hasPath (rp.reverse ++ [d]) = true := by
            rcases labelAt?_isSome_of_keyAt? hnk with ⟨x, hx, _⟩
            rw [Tree.hasPath_eq, hx]
            rfl
          have hq2 : ¬ q <+: rp.reverse := fun hc2 =>
            hq (hc2.trans (List.prefix_append _ _))
          rw [ih _ q hq2, Tree.labelAt?_rotAt hc]
          have hq3 : ¬ q = rp.reverse := fun hc2 =>
            hq2 (hc2 ▸ List.prefix_refl _)
          have hq4 : ¬ q = rp.reverse ++ [d] := fun hc2 =>
            hq (hc2 ▸ List.prefix_refl _)
          rw [if_neg hq3, if_neg hq4]
        · rw [if_neg hgt]

/-- After a first successful swap, the node that was the parent occupies
the sifted node's original slot, and later iterations never touch it. -/
theorem siftUp_top_label (t : Tree) (d : Bool) (rp : List Bool) {pk nk : Nat}
    (hpk : t.keyAt? rp.reverse = some pk)
    (hnk : t.keyAt? (rp.reverse ++ [d]) = some nk) (hgt : pk > nk) :
    (heap_decrease_key_loop t (d :: rp)).labelAt? (rp.reverse ++ [d]) =
      t.labelAt? rp.reverse := by
  rw [heap_decrease_key_loop_cons]
  simp only [hpk, hnk]
  rw [if_pos hgt]
  have hc : t.hasPath (rp.reverse ++ [d]) = true := by
    rcases labelAt?_isSome_of_keyAt? hnk with ⟨x, hx, _⟩
    rw [Tree.hasPath_eq, hx]
    rfl
  have hout : ¬ (rp.reverse ++ [d]) <+: rp.reverse := by
    intro hc2
    have := hc2.length_le
    simp at this
  rw [siftUp_labelAt_out rp _ _ hout, Tree.labelAt?_rotAt hc]
  rw [if_neg (by
    intro hc2
    have := congrArg List.length hc2
    simp at this), if_pos rfl]

/-- When the parent is not larger, the loop does nothing. -/
theorem siftUp_noswap (t : Tree) (d : Bool) (rp : List Bool)
    (h : ∀ pk nk, t.keyAt? rp.reverse = some pk →
      t.keyAt? (rp.reverse ++ [d]) = some nk → ¬ pk > nk) :
    heap_decrease_key_loop t (d :: rp) = t := by
  rw [heap_decrease_key_loop_cons]
  cases hpk : t.keyAt? rp.reverse with
  | none => simp only [hpk]
  | some pk =>
    cases hnk : t.keyAt? (rp.reverse ++ [d]) with
    | none => simp only [hpk, hnk]
    | some nk =>
      simp only [hpk, hnk]
      rw [if_neg (h pk nk hpk hnk)]

end Olsrd

namespace Olsrd

theorem increse_nil (last : Option Nat) :
    heap_increse_key Tree.nil last = (Tree.nil, last) := by
  rw [heap_increse_key] <;> simp

theorem increse_leaf (i k : Nat) (last : Option Nat) :
    heap_increse_key (Tree.node i k Tree.nil Tree.nil) last =
      (Tree.node i k Tree.nil Tree.nil, last) := by
  rw [heap_increse_key] <;> simp

theorem increse_swapL_both (i k li lk ri rk : Nat) (a b c d : Tree)
    (last : Option Nat) (h1 : k > lk) (h2 : k > rk) (h3 : lk < rk) :
    heap_increse_key (Tree.node i k (Tree.node li lk a b) (Tree.node ri rk c d))
      last =
      (Tree.node li lk
        (heap_increse_key (Tree.node i k a b)
          (if last = some li then some i else last)).1 (Tree.node ri rk c d),
       (heap_increse_key (Tree.node i k a b)
          (if last = some li then some i else last)).2) := by
  rw [heap_increse_key]
  rw [if_pos h1, if_pos h2, if_pos h3]

theorem increse_swapR_both (i k li lk ri rk : Nat) (a b c d : Tree)
    (last : Option Nat) (h1 : k > lk) (h2 : k > rk) (h3 : ¬ lk < rk) :
    heap_increse_key (Tree.node i k (Tree.node li lk a b) (Tree.node ri rk c d))
      last =
      (Tree.node ri rk (Tree.node li lk a b)
        (heap_increse_key (Tree.node i k c d)
          (if last = some ri then some i else last)).1,
       (heap_increse_key (Tree.node i k c d)
          (if last = some ri then some i else last)).2) := by
  rw [heap_increse_key]
  rw [if_pos h1, if_pos h2, if_neg h3]

theorem increse_swapL_only (i k li lk ri rk : Nat) (a b c d : Tree)
    (last : Option Nat) (h1 : k > lk) (h2 : ¬ k > rk) :
    heap_increse_key (Tree.node i k (Tree.node li lk a b) (Tree.node ri rk c d))
      last =
      (Tree.node li lk
        (heap_increse_key (Tree.node i k a b)
          (if last = some li then some i else last)).1 (Tree.node ri rk c d),
       (heap_increse_key (Tree.node i k a b)
          (if last = some li then some i else last)).2) := by
  rw [heap_increse_key]
  rw [if_pos h1, if_neg h2]

theorem increse_swapL_nilR (i k li lk : Nat) (a b : Tree)
    (last : Option Nat) (h1 : k > lk) :
    heap_increse_key (Tree.node i k (Tree.node li lk a b) Tree.nil) last =
      (Tree.node li lk
        (heap_increse_key (Tree.node i k a b)
          (if last = some li then some i else last)).1 Tree.nil,
       (heap_increse_key (Tree.node i k a b)
          (if last = some li then some i else last)).2) := by
  rw [heap_increse_key]
  rw [if_pos h1]

theorem increse_swapR_only (i k li lk ri rk : Nat) (a b c d : Tree)
    (last : Option Nat) (h1 : ¬ k > lk) (h2 : k > rk) :
    heap_increse_key (Tree.node i k (Tree.node li lk a b) (Tree.node ri rk c d))
      last =
      (Tree.node ri rk (Tree.node li lk a b)
        (heap_increse_key (Tree.node i k c d)
          (if last = some ri then some i else last)).1,
       (heap_increse_key (Tree.node i k c d)
          (if last = some ri then some i else last)).2) := by
  rw [heap_increse_key]
  rw [if_neg h1, if_pos h2]

theorem increse_stay_both (i k li lk ri rk : Nat) (a b c d : Tree)
    (last : Option Nat) (h1 : ¬ k > lk) (h2 : ¬ k > rk) :
    heap_increse_key (Tree.node i k (Tree.node li lk a b) (Tree.node ri rk c d))
      last =
      (Tree.node i k (Tree.node li lk a b) (Tree.node ri rk c d), last) := by
  rw [heap_increse_key]
  rw [if_neg h1, if_neg h2]

theorem increse_stay_nilR (i k li lk : Nat) (a b : Tree)
    (last : Option Nat) (h1 : ¬ k > lk) :
    heap_increse_key (Tree.node i k (Tree.node li lk a b) Tree.nil) last =
      (Tree.node i k (Tree.node li lk a b) Tree.nil, last) := by
  rw [heap_increse_key]
  rw [if_neg h1]

theorem increse_swapR_nilL (i k ri rk : Nat) (c d : Tree)
    (last : Option Nat) (h2 : k > rk) :
    heap_increse_key (Tree.node i k Tree.nil (Tree.node ri rk c d)) last =
      (Tree.node ri rk Tree.nil
        (heap_increse_key (Tree.node i k c d)
          (if last = some ri then some i else last)).1,
       (heap_increse_key (Tree.node i k c d)
          (if last = some ri then some i else last)).2) := by
  rw [heap_increse_key]
  rw [if_pos h2]

theorem increse_stay_nilL (i k ri rk : Nat) (c d : Tree)
    (last : Option Nat) (h2 : ¬ k > rk) :
    heap_increse_key (Tree.node i k Tree.nil (Tree.node ri rk c d)) last =
      (Tree.node i k Tree.nil (Tree.node ri rk c d), last) := by
  rw [heap_increse_key]
  rw [if_neg h2]

end Olsrd

namespace Olsrd

theorem Tree.hasPath_node_nilq (i k : Nat) (l r : Tree) :
    (Tree.node i k l r).hasPath [] = true := by
  rw [Tree.hasPath, Tree.idAt?, Tree.sub_nil_path, Tree.rootId?]
  rfl

theorem Tree.hasPath_cons_false (i k : Nat) (l r : Tree) (q : List Bool) :
    (Tree.node i k l r).hasPath (false :: q) = l.hasPath q := by
  rw [Tree.hasPath, Tree.hasPath, Tree.idAt?, Tree.idAt?, Tree.sub_cons_false]

theorem Tree.hasPath_cons_true (i k : Nat) (l r : Tree) (q : List Bool) :
    (Tree.node i k l r).hasPath (true :: q) = r.hasPath q := by
  rw [Tree.hasPath, Tree.hasPath, Tree.idAt?, Tree.idAt?, Tree.sub_cons_true]

theorem Tree.sizeT_nil : Tree.nil.sizeT = 0 := rfl

theorem Tree.sizeT_node (i k : Nat) (l r : Tree) :
    (Tree.node i k l r).sizeT = 1 + l.sizeT + r.sizeT := rfl

theorem increse_hasPath_aux : ∀ (n : Nat) (t : Tree), t.sizeT ≤ n →
    ∀ (last : Option Nat) (q : List Bool),
    (heap_increse_key t last).1.hasPath q = t.hasPath q := by
  intro n
  induction n with
  | zero =>
    intro t ht last q
    cases t with
    | nil => rw [increse_nil]
    | node i k l r => rw [Tree.sizeT_node] at ht; omega
  | succ n ih =>
    intro t ht last q
    have hstep : ∀ (i2 k2 li2 lk2 : Nat) (a2 b2 r2 : Tree) (last2 : Option Nat)
        (q3 : List Bool),
        t = Tree.node i2 k2 (Tree.node li2 lk2 a2 b2) r2 →
        (heap_increse_key (Tree.node i2 k2 a2 b2) last2).1.hasPath q3 =
          (Tree.node li2 lk2 a2 b2).hasPath q3 := by
      intro i2 k2 li2 lk2 a2 b2 r2 last2 q3 hteq
      rw [ih (Tree.node i2 k2 a2 b2) (by
        rw [hteq] at ht
        rw [Tree.sizeT_node] at ht
        rw [Tree.sizeT_node] at ht
        rw [Tree.sizeT_node]
        omega) last2 q3]
      cases q3 with
      | nil => rw [Tree.hasPath_node_nilq, Tree.hasPath_node_nilq]
      | cons e q2 =>
        cases e
        · rw [Tree.hasPath_cons_false, Tree.hasPath_cons_false]
        · rw [Tree.hasPath_cons_true, Tree.hasPath_cons_true]
    cases t with
    | nil => rw [increse_nil]
    | node i k l r =>
      cases l with
      | nil =>
        cases r with
        | nil => rw [increse_leaf]
        | node ri rk c d =>
          by_cases h2 : k > rk
          · rw [increse_swapR_nilL _ _ _ _ _ _ _ h2]
            have hstepR : (heap_increse_key (Tree.node i k c d)
                (if last = some ri then some i else last)).1.hasPath =
                (Tree.node ri rk c d).hasPath := by
              funext q2
              rw [ih (Tree.node i k c d) (by
                simp only [Tree.sizeT_node] at ht ⊢
                omega) _ q2]
              cases q2 with
              | nil => rw [Tree.hasPath_node_nilq, Tree.hasPath_node_nilq]
              | cons e q3 =>
                cases e
                · rw [Tree.hasPath_cons_false, Tree.hasPath_cons_false]
                · rw [Tree.hasPath_cons_true, Tree.hasPath_cons_true]
            cases q with
            | nil => rw [Tree.hasPath_node_nilq, Tree.hasPath_node_nilq]
            | cons e q2 =>
              cases e
              · rw [Tree.hasPath_cons_false, Tree.hasPath_cons_false]
              · rw [Tree.hasPath_cons_true, Tree.hasPath_cons_true, hstepR]
          · rw [increse_stay_nilL _ _ _ _ _ _ _ h2]
      | node li lk a b =>
        by_cases h1 : k > lk
        · cases r with
          | nil =>
            rw [increse_swapL_nilR _ _ _ _ _ _ _ h1]
            cases q with
            | nil => rw [Tree.hasPath_node_nilq, Tree.hasPath_node_nilq]
            | cons e q2 =>
              cases e
              · rw [Tree.hasPath_cons_false, Tree.hasPath_cons_false,
                  hstep i k li lk a b Tree.nil _ q2 rfl]
              · rw [Tree.hasPath_cons_true, Tree.hasPath_cons_true]
          | node ri rk c d =>
            by_cases h2 : k > rk
            · by_cases h3 : lk < rk
              · rw [increse_swapL_both _ _ _ _ _ _ _ _ _ _ _ h1 h2 h3]
                cases q with
                | nil => rw [Tree.hasPath_node_nilq, Tree.hasPath_node_nilq]
                | cons e q2 =>
                  cases e
                  · rw [Tree.hasPath_cons_false, Tree.hasPath_cons_false,
                      hstep i k li lk a b (Tree.node ri rk c d) _ q2 rfl]
                  · rw [Tree.hasPath_cons_true, Tree.hasPath_cons_true]
              · rw [increse_swapR_both _ _ _ _ _ _ _ _ _ _ _ h1 h2 h3]
                have hstepR : (heap_increse_key (Tree.node i k c d)
                    (if last = some ri then some i else last)).1.hasPath =
                    (Tree.node ri rk c d).hasPath := by
                  funext q2
                  rw [ih (Tree.node i k c d) (by
                    rw [Tree.sizeT_node, Tree.sizeT_node, Tree.sizeT_node] at ht
                    rw [Tree.sizeT_node]
                    omega) _ q2]
                  cases q2 with
                  | nil => rw [Tree.hasPath_node_nilq, Tree.hasPath_node_nilq]
                  | cons e q3 =>
                    cases e
                    · rw [Tree.hasPath_cons_false, Tree.hasPath_cons_false]
                    · rw [Tree.hasPath_cons_true, Tree.hasPath_cons_true]
                cases q with
                | nil => rw [Tree.hasPath_node_nilq, Tree.hasPath_node_nilq]
                | cons e q2 =>
                  cases e
                  · rw [Tree.hasPath_cons_false, Tree.hasPath_cons_false]
                  · rw [Tree.hasPath_cons_true, Tree.hasPath_cons_true, hstepR]
            · rw [increse_swapL_only _ _ _ _ _ _ _ _ _ _ _ h1 h2]
              cases q with
              | nil => rw [Tree.hasPath_node_nilq, Tree.hasPath_node_nilq]
              | cons e q2 =>
                cases e
                · rw [Tree.hasPath_cons_false, Tree.hasPath_cons_false,
                    hstep i k li lk a b (Tree.node ri rk c d) _ q2 rfl]
                · rw [Tree.hasPath_cons_true, Tree.hasPath_cons_true]
        · cases r with
          | nil => rw [increse_stay_nilR _ _ _ _ _ _ _ h1]
          | node ri rk c d =>
            by_cases h2 : k > rk
            · rw [increse_swapR_only _ _ _ _ _ _ _ _ _ _ _ h1 h2]
              have hstepR : (heap_increse_key (Tree.node i k c d)
                  (if last = some ri then some i else last)).1.hasPath =
                  (Tree.node ri rk c d).hasPath := by
                funext q2
                rw [ih (Tree.node i k c d) (by
                  rw [Tree.sizeT_node, Tree.sizeT_node, Tree.sizeT_node] at ht
                  rw [Tree.sizeT_node]
                  omega) _ q2]
                cases q2 with
                | nil => rw [Tree.hasPath_node_nilq, Tree.hasPath_node_nilq]
                | cons e q3 =>
                  cases e
                  · rw [Tree.hasPath_cons_false, Tree.hasPath_cons_false]
                  · rw [Tree.hasPath_cons_true, Tree.hasPath_cons_true]
              cases q with
              | nil => rw [Tree.hasPath_node_nilq, Tree.hasPath_node_nilq]
              | cons e q2 =>
                cases e
                · rw [Tree.hasPath_cons_false, Tree.hasPath_cons_false]
                · rw [Tree.hasPath_cons_true, Tree.hasPath_cons_true, hstepR]
            · rw [increse_stay_both _ _ _ _ _ _ _ _ _ _ _ h1 h2]

theorem increse_hasPath (t : Tree) (last : Option Nat) (q : List Bool) :
    (heap_increse_key t last).1.hasPath q = t.hasPath q :=
  increse_hasPath_aux t.sizeT t (Nat.le_refl _) last q

end Olsrd

namespace Olsrd

theorem increse_labels_aux : ∀ (n : Nat) (t : Tree), t.sizeT ≤ n →
    ∀ (last : Option Nat),
    (heap_increse_key t last).1.labels.Perm t.labels := by
  intro n
  induction n with
  | zero =>
    intro t ht last
    cases t with
    | nil =>
      rw [increse_nil]
    | node i k l r => rw [Tree.sizeT_node] at ht; omega
  | succ n ih =>
    intro t ht last
    cases t with
    | nil => rw [increse_nil]
    | node i k l r =>
      have hL : ∀ (li2 lk2 : Nat) (a2 b2 : Tree) (last2 : Option Nat),
          l = Tree.node li2 lk2 a2 b2 →
          (Tree.node li2 lk2
            (heap_increse_key (Tree.node i k a2 b2) last2).1 r).labels.Perm
            (Tree.node i k l r).labels := by
        intro li2 lk2 a2 b2 last2 hleq
        subst hleq
        have h1 : (heap_increse_key (Tree.node i k a2 b2) last2).1.labels.Perm
            (Tree.node i k a2 b2).labels := by
          refine ih (Tree.node i k a2 b2) ?_ last2
          simp only [Tree.sizeT_node] at ht ⊢
          omega
        have h2 : (Tree.node li2 lk2 (Tree.node i k a2 b2) r).labels.Perm
            (Tree.node i k (Tree.node li2 lk2 a2 b2) r).labels := by
          conv_lhs => rw [← Tree.rotUp_left i k li2 lk2 a2 b2 r]
          exact Tree.rotUp_labels_perm _ false
        refine List.Perm.trans ?_ h2
        rw [Tree.labels_node, Tree.labels_node]
        exact List.Perm.cons _ (h1.append_right _)
      have hR : ∀ (ri2 rk2 : Nat) (c2 d2 : Tree) (last2 : Option Nat),
          r = Tree.node ri2 rk2 c2 d2 →
          (Tree.node ri2 rk2 l
            (heap_increse_key (Tree.node i k c2 d2) last2).1).labels.Perm
            (Tree.node i k l r).labels := by
        intro ri2 rk2 c2 d2 last2 hreq
        subst hreq
        have h1 : (heap_increse_key (Tree.node i k c2 d2) last2).1.labels.Perm
            (Tree.node i k c2 d2).labels := by
          refine ih (Tree.node i k c2 d2) ?_ last2
          simp only [Tree.sizeT_node] at ht ⊢
          omega
        have h2 : (Tree.node ri2 rk2 l (Tree.node i k c2 d2)).labels.Perm
            (Tree.node i k l (Tree.node ri2 rk2 c2 d2)).labels := by
          conv_lhs => rw [← Tree.rotUp_right i k ri2 rk2 l c2 d2]
          exact Tree.rotUp_labels_perm _ true
        refine List.Perm.trans ?_ h2
        rw [Tree.labels_node, Tree.labels_node]
        exact List.Perm.cons _ ((h1).append_left _)
      cases l with
      | nil =>
        cases r with
        | nil => rw [increse_leaf]
        | node ri rk c d =>
          by_cases h2 : k > rk
          · rw [increse_swapR_nilL _ _ _ _ _ _ _ h2]
            exact hR ri rk c d _ rfl
          · rw [increse_stay_nilL _ _ _ _ _ _ _ h2]
      | node li lk a b =>
        by_cases h1 : k > lk
        · cases r with
          | nil =>
            rw [increse_swapL_nilR _ _ _ _ _ _ _ h1]
            exact hL li lk a b _ rfl
          | node ri rk c d =>
            by_cases h2 : k > rk
            · by_cases h3 : lk < rk
              · rw [increse_swapL_both _ _ _ _ _ _ _ _ _ _ _ h1 h2 h3]
                exact hL li lk a b _ rfl
              · rw [increse_swapR_both _ _ _ _ _ _ _ _ _ _ _ h1 h2 h3]
                exact hR ri rk c d _ rfl
            · rw [increse_swapL_only _ _ _ _ _ _ _ _ _ _ _ h1 h2]
              exact hL li lk a b _ rfl
        · cases r with
          | nil => rw [increse_stay_nilR _ _ _ _ _ _ _ h1]
          | node ri rk c d =>
            by_cases h2 : k > rk
            · rw [increse_swapR_only _ _ _ _ _ _ _ _ _ _ _ h1 h2]
              exact hR ri rk c d _ rfl
            · rw [increse_stay_both _ _ _ _ _ _ _ _ _ _ _ h1 h2]

theorem increse_labels_perm (t : Tree) (last : Option Nat) :
    (heap_increse_key t last).1.labels.Perm t.labels :=
  increse_labels_aux t.sizeT t (Nat.le_refl _) last

end Olsrd

namespace Olsrd

/-- The hypothesis the sift-down works from: both subtrees are ordered,
only the root may be out of place. -/
def AlmostOrd : Tree → Prop
  | Tree.nil => True
  | Tree.node _ _ l r => HeapOrdR l ∧ HeapOrdR r

theorem HeapOrdR_node {i k : Nat} {l r : Tree} :
    HeapOrdR (Tree.node i k l r) ↔
      belowRoot k l ∧ belowRoot k r ∧ HeapOrdR l ∧ HeapOrdR r := by
  simp [HeapOrdR]

theorem belowRoot_nil (k : Nat) : belowRoot k Tree.nil := trivial

theorem belowRoot_node {k i2 k2 : Nat} {l r : Tree} :
    belowRoot k (Tree.node i2 k2 l r) ↔ k ≤ k2 := by
  simp [belowRoot]

/-- The root of an ordered subtree bounds all its labels. -/
theorem HeapOrdR_all {i0 k0 : Nat} {l0 r0 : Tree}
    (h : HeapOrdR (Tree.node i0 k0 l0 r0)) :
    ∀ x ∈ (Tree.node i0 k0 l0 r0).labels, k0 ≤ x.2 := by
  intro x hx
  rcases (Tree.mem_labels_iff _ x).mp hx with ⟨p, hp⟩
  exact HeapOrd_root_min ((HeapOrd_iff_R _).mpr h)
    (Tree.labelAt?_node_nil i0 k0 l0 r0) p x hp

/-- A key bounding every label of a tree bounds its root. -/
theorem belowRoot_of_bound {k2 : Nat} {s : Tree}
    (h : ∀ x ∈ s.labels, k2 ≤ x.2) : belowRoot k2 s := by
  cases s with
  | nil => exact trivial
  | node j jk l r =>
    rw [belowRoot_node]
    exact h (j, jk) (by rw [Tree.labels_node]; exact List.mem_cons_self _ _)

theorem increse_ord_aux : ∀ (n : Nat) (t : Tree), t.sizeT ≤ n →
    ∀ (last : Option Nat), AlmostOrd t →
    HeapOrdR (heap_increse_key t last).1 := by
  intro n
  induction n with
  | zero =>
    intro t ht last hao
    cases t with
    | nil => rw [increse_nil]; exact trivial
    | node i k l r => rw [Tree.sizeT_node] at ht; omega
  | succ n ih =>
    intro t ht last hao
    cases t with
    | nil => rw [increse_nil]; exact trivial
    | node i k l r =>
      rcases hao with ⟨hol, hor⟩
      cases l with
      | nil =>
        cases r with
        | nil =>
          rw [increse_leaf, HeapOrdR_node]
          exact ⟨trivial, trivial, trivial, trivial⟩
        | node ri rk c d =>
          by_cases h2 : k > rk
          · rw [increse_swapR_nilL _ _ _ _ _ _ _ h2]
            rw [HeapOrdR_node] at hor ⊢
            set X := (heap_increse_key (Tree.node i k c d)
              (if last = some ri then some i else last)).1 with hX
            have hbound : ∀ x ∈ (Tree.node i k c d).labels, rk ≤ x.2 := by
              intro x hx
              rw [Tree.labels_node] at hx
              rcases List.mem_cons.mp hx with hx | hx
              · subst hx; omega
              · refine @HeapOrdR_all ri rk c d (HeapOrdR_node.mpr hor) x ?_
                rw [Tree.labels_node]
                exact List.mem_cons_of_mem _ hx
            have hordX : HeapOrdR X := by
              refine ih (Tree.node i k c d) ?_ _ ?_
              · simp only [Tree.sizeT_node] at ht ⊢
                omega
              · exact ⟨hor.2.2.1, hor.2.2.2⟩
            refine ⟨belowRoot_nil rk, ?_, trivial, hordX⟩
            refine belowRoot_of_bound ?_
            intro x hx
            exact hbound x ((increse_labels_perm _ _).mem_iff.mp hx)
          · rw [increse_stay_nilL _ _ _ _ _ _ _ h2, HeapOrdR_node]
            exact ⟨trivial, by rw [belowRoot_node]; omega, trivial, hor⟩
      | node li lk a b =>
        have hboundL : k > lk → ∀ x ∈ (Tree.node i k a b).labels, lk ≤ x.2 := by
          intro h1 x hx
          rw [Tree.labels_node] at hx
          rcases List.mem_cons.mp hx with hx | hx
          · subst hx; omega
          · exact HeapOrdR_all hol x (by
              rw [Tree.labels_node]
              exact List.mem_cons_of_mem _ hx)
        have hordL : ∀ last2, HeapOrdR (heap_increse_key (Tree.node i k a b)
            last2).1 := by
          intro last2
          refine ih (Tree.node i k a b) ?_ _ ?_
          · simp only [Tree.sizeT_node] at ht ⊢
            omega
          · rw [HeapOrdR_node] at hol
            exact ⟨hol.2.2.1, hol.2.2.2⟩
        cases r with
        | nil =>
          by_cases h1 : k > lk
          · rw [increse_swapL_nilR _ _ _ _ _ _ _ h1, HeapOrdR_node]
            refine ⟨?_, belowRoot_nil lk, hordL _, trivial⟩
            refine belowRoot_of_bound ?_
            intro x hx
            exact hboundL h1 x ((increse_labels_perm _ _).mem_iff.mp hx)
          · rw [increse_stay_nilR _ _ _ _ _ _ _ h1, HeapOrdR_node]
            exact ⟨by rw [belowRoot_node]; omega, trivial, hol, trivial⟩
        | node ri rk c d =>
          have hboundR : k > rk → ∀ x ∈ (Tree.node i k c d).labels, rk ≤ x.2 := by
            intro h2 x hx
            rw [Tree.labels_node] at hx
            rcases List.mem_cons.mp hx with hx | hx
            · subst hx; omega
            · exact HeapOrdR_all hor x (by
                rw [Tree.labels_node]
                exact List.mem_cons_of_mem _ hx)
          have hordRX : ∀ last2, HeapOrdR (heap_increse_key (Tree.node i k c d)
              last2).1 := by
            intro last2
            refine ih (Tree.node i k c d) ?_ _ ?_
            · simp only [Tree.sizeT_node] at ht ⊢
              omega
            · rw [HeapOrdR_node] at hor
              exact ⟨hor.2.2.1, hor.2.2.2⟩
          by_cases h1 : k > lk
          · by_cases h2 : k > rk
            · by_cases h3 : lk < rk
              · rw [increse_swapL_both _ _ _ _ _ _ _ _ _ _ _ h1 h2 h3,
                  HeapOrdR_node]
                refine ⟨?_, by rw [belowRoot_node]; omega, hordL _, hor⟩
                refine belowRoot_of_bound ?_
                intro x hx
                exact hboundL h1 x ((increse_labels_perm _ _).mem_iff.mp hx)
              · rw [increse_swapR_both _ _ _ _ _ _ _ _ _ _ _ h1 h2 h3,
                  HeapOrdR_node]
                refine ⟨by rw [belowRoot_node]; omega, ?_, hol, hordRX _⟩
                refine belowRoot_of_bound ?_
                intro x hx
                exact hboundR h2 x ((increse_labels_perm _ _).mem_iff.mp hx)
            · rw [increse_swapL_only _ _ _ _ _ _ _ _ _ _ _ h1 h2, HeapOrdR_node]
              refine ⟨?_, by rw [belowRoot_node]; omega, hordL _, hor⟩
              refine belowRoot_of_bound ?_
              intro x hx
              exact hboundL h1 x ((increse_labels_perm _ _).mem_iff.mp hx)
          · by_cases h2 : k > rk
            · rw [increse_swapR_only _ _ _ _ _ _ _ _ _ _ _ h1 h2, HeapOrdR_node]
              refine ⟨by rw [belowRoot_node]; omega, ?_, hol, hordRX _⟩
              refine belowRoot_of_bound ?_
              intro x hx
              exact hboundR h2 x ((increse_labels_perm _ _).mem_iff.mp hx)
            · rw [increse_stay_both _ _ _ _ _ _ _ _ _ _ _ h1 h2, HeapOrdR_node]
              exact ⟨by rw [belowRoot_node]; omega,
                by rw [belowRoot_node]; omega, hol, hor⟩

theorem increse_ord (t : Tree) (last : Option Nat) (h : AlmostOrd t) :
    HeapOrdR (heap_increse_key t last).1 :=
  increse_ord_aux t.sizeT t (Nat.le_refl _) last h

end Olsrd

namespace Olsrd

theorem Tree.idAt?_node_nilp (i k : Nat) (l r : Tree) :
    (Tree.node i k l r).idAt? [] = some i := rfl

theorem Tree.idAt?_cons_false (i k : Nat) (l r : Tree) (q : List Bool) :
    (Tree.node i k l r).idAt? (false :: q) = l.idAt? q := by
  rw [Tree.idAt?, Tree.idAt?, Tree.sub_cons_false]

theorem Tree.idAt?_cons_true (i k : Nat) (l r : Tree) (q : List Bool) :
    (Tree.node i k l r).idAt? (true :: q) = r.idAt? q := by
  rw [Tree.idAt?, Tree.idAt?, Tree.sub_cons_true]

theorem Tree.idAt?_nil_tree (q : List Bool) : Tree.nil.idAt? q = none := by
  rw [Tree.idAt?, Tree.sub_nil_tree, Tree.rootId?]

/-- The node at `q` has no children. -/
def leafAt (t : Tree) (q : List Bool) : Prop :=
  ∃ x y, t.sub q = Tree.node x y Tree.nil Tree.nil

theorem nodup_node_parts {i k : Nat} {l r : Tree}
    (h : (Tree.node i k l r).ids.Nodup) :
    l.ids.Nodup ∧ r.ids.Nodup ∧ i ∉ l.ids ∧ i ∉ r.ids ∧
      ∀ j, j ∈ l.ids → j ∉ r.ids := by
  rw [Tree.ids_node] at h
  have h1 := List.nodup_cons.mp h
  have h2 := List.nodup_append.mp h1.2
  refine ⟨h2.1, h2.2.1, ?_, ?_, ?_⟩
  · intro hc
    exact h1.1 (List.mem_append.mpr (Or.inl hc))
  · intro hc
    exact h1.1 (List.mem_append.mpr (Or.inr hc))
  · intro j hj hjr
    exact h2.2.2 hj hjr

theorem nodup_promote_left {i k li lk : Nat} {a b R : Tree}
    (h : (Tree.node i k (Tree.node li lk a b) R).ids.Nodup) :
    (Tree.node i k a b).ids.Nodup := by
  rcases nodup_node_parts h with ⟨hl, _, hil, _, _⟩
  rw [Tree.ids_node] at hl ⊢
  have h1 := List.nodup_cons.mp hl
  refine List.nodup_cons.mpr ⟨?_, h1.2⟩
  intro hc
  exact hil (by rw [Tree.ids_node]; exact List.mem_cons_of_mem _ hc)

theorem nodup_promote_right {i k ri rk : Nat} {c d L : Tree}
    (h : (Tree.node i k L (Tree.node ri rk c d)).ids.Nodup) :
    (Tree.node i k c d).ids.Nodup := by
  rcases nodup_node_parts h with ⟨_, hr, _, hir, _⟩
  rw [Tree.ids_node] at hr ⊢
  have h1 := List.nodup_cons.mp hr
  refine List.nodup_cons.mpr ⟨?_, h1.2⟩
  intro hc
  exact hir (by rw [Tree.ids_node]; exact List.mem_cons_of_mem _ hc)

/-- What must hold of `last_node` relative to a subtree: if its id occurs,
it occupies a childless node. -/
def TrackInv (t : Tree) (last : Option Nat) : Prop :=
  ∀ j q, last = some j → t.idAt? q = some j → leafAt t q

/-- How the threaded `last_node` relates to the result of the sift-down:
if the id was at `q`, the returned value names the new occupant of `q`;
ids absent from the subtree (or NULL) pass through unchanged. -/
def TrackRes (t : Tree) (last : Option Nat) (res : Tree × Option Nat) : Prop :=
  (∀ j q, last = some j → t.idAt? q = some j → res.2 = res.1.idAt? q) ∧
  (∀ j, last = some j → (∀ q, t.idAt? q ≠ some j) → res.2 = last) ∧
  (last = none → res.2 = last)

end Olsrd

namespace Olsrd

theorem track_stepL (i k li lk : Nat) (a b R : Tree) (last : Option Nat)
    (hnd : (Tree.node i k (Tree.node li lk a b) R).ids.Nodup)
    (hinv : TrackInv (Tree.node i k (Tree.node li lk a b) R) last)
    (IH : ∀ last2 : Option Nat, (Tree.node i k a b).ids.Nodup →
      TrackInv (Tree.node i k a b) last2 →
      TrackRes (Tree.node i k a b) last2
        (heap_increse_key (Tree.node i k a b) last2)) :
    TrackRes (Tree.node i k (Tree.node li lk a b) R) last
      (Tree.node li lk
        (heap_increse_key (Tree.node i k a b)
          (if last = some li then some i else last)).1 R,
       (heap_increse_key (Tree.node i k a b)
          (if last = some li then some i else last)).2) := by
  have hrootid : (Tree.node i k (Tree.node li lk a b) R).idAt? [] = some i :=
    Tree.idAt?_node_nilp _ _ _ _
  have hli : (Tree.node i k (Tree.node li lk a b) R).idAt? [false] = some li := by
    rw [Tree.idAt?_cons_false]
    exact Tree.idAt?_node_nilp _ _ _ _
  have hnotroot : ∀ j, last = some j → j ≠ i := by
    intro j hj hji
    subst hji
    rcases hinv j [] hj hrootid with ⟨x, y, hxy⟩
    rw [Tree.sub_nil_path] at hxy
    injection hxy with _ _ h3 _
    exact Tree.noConfusion h3
  cases last with
  | none =>
    have hl1 : (if (none : Option Nat) = some li then some i else none) = none := by
      simp
    rw [hl1]
    have htr := IH none (nodup_promote_left hnd) (fun j q hj => by cases hj)
    refine ⟨?_, ?_, ?_⟩
    · intro j q hj
      cases hj
    · intro j hj
      cases hj
    · intro _
      exact htr.2.2 rfl
  | some j =>
    by_cases hjl : j = li
    · subst hjl
      have hl1 : (if (some j : Option Nat) = some j then some i else some j) =
          some i := by simp
      rw [hl1]
      rcases hinv j [false] rfl hli with ⟨x, y, hxy⟩
      rw [Tree.sub_cons_false, Tree.sub_nil_path] at hxy
      injection hxy with _ _ ha hb
      subst ha
      subst hb
      rw [increse_leaf]
      refine ⟨?_, ?_, ?_⟩
      · intro j2 q hj2 hq
        injection hj2 with hj2
        subst hj2
        have hqe : q = [false] := Tree.idAt?_inj hnd hq hli
        subst hqe
        rw [Tree.idAt?_cons_false]
        rfl
      · intro j2 hj2 hnone
        injection hj2 with hj2
        subst hj2
        exact absurd hli (hnone [false])
      · intro hc
        cases hc
    · have hl1 : (if (some j : Option Nat) = some li then some i else some j) =
          some j := by simp [hjl]
      rw [hl1]
      have hsubtrans : ∀ (e : Bool) (q3 : List Bool),
          (Tree.node i k (Tree.node li lk a b) R).sub (false :: e :: q3) =
            (Tree.node i k a b).sub (e :: q3) := by
        intro e q3
        rw [Tree.sub_cons_false, Tree.sub_cons, Tree.sub_cons]
      have hidtrans : ∀ (e : Bool) (q3 : List Bool),
          (Tree.node i k (Tree.node li lk a b) R).idAt? (false :: e :: q3) =
            (Tree.node i k a b).idAt? (e :: q3) := by
        intro e q3
        rw [Tree.idAt?, Tree.idAt?, hsubtrans]
      have hinvsub : TrackInv (Tree.node i k a b) (some j) := by
        intro j2 q2 hj2 hq2
        injection hj2 with hj2
        subst hj2
        cases q2 with
        | nil =>
          rw [Tree.idAt?_node_nilp] at hq2
          injection hq2 with hq2
          exact absurd hq2.symm (hnotroot j rfl)
        | cons e q3 =>
          have := hinv j (false :: e :: q3) rfl (by rw [hidtrans]; exact hq2)
          rcases this with ⟨x, y, hxy⟩
          rw [hsubtrans] at hxy
          exact ⟨x, y, hxy⟩
      have htr := IH (some j) (nodup_promote_left hnd) hinvsub
      refine ⟨?_, ?_, ?_⟩
      · intro j2 q hj2 hq
        injection hj2 with hj2
        subst hj2
        cases q with
        | nil =>
          rw [hrootid] at hq
          injection hq with hq
          exact absurd hq.symm (hnotroot j rfl)
        | cons e q2 =>
          cases e
          · cases q2 with
            | nil =>
              rw [hli] at hq
              injection hq with hq
              exact absurd hq.symm hjl
            | cons e2 q3 =>
              rw [hidtrans] at hq
              have := htr.1 j (e2 :: q3) rfl hq
              rw [Tree.idAt?_cons_false]
              exact this
          · rw [Tree.idAt?_cons_true] at hq ⊢
            have hnosub : ∀ q2b, (Tree.node i k a b).idAt? q2b ≠ some j := by
              intro q2b hq2b
              have hjR : j ∈ R.ids := (Tree.mem_ids_iff R j).mpr ⟨q2, hq⟩
              have hjsub : j ∈ (Tree.node i k a b).ids :=
                (Tree.mem_ids_iff _ j).mpr ⟨q2b, hq2b⟩
              rcases nodup_node_parts hnd with ⟨_, _, _, hiR, hdisj⟩
              rw [Tree.ids_node] at hjsub
              rcases List.mem_cons.mp hjsub with hjsub | hjsub
              · subst hjsub
                exact hiR hjR
              · refine hdisj j ?_ hjR
                rw [Tree.ids_node]
                exact List.mem_cons_of_mem _ (by
                  rcases List.mem_append.mp hjsub with hh | hh
                  · exact List.mem_append.mpr (Or.inl hh)
                  · exact List.mem_append.mpr (Or.inr hh))
            rw [htr.2.1 j rfl hnosub, hq]
      · intro j2 hj2 hnone
        injection hj2 with hj2
        subst hj2
        have hnosub : ∀ q2b, (Tree.node i k a b).idAt? q2b ≠ some j := by
          intro q2b hq2b
          cases q2b with
          | nil =>
            rw [Tree.idAt?_node_nilp] at hq2b
            injection hq2b with hq2b
            exact hnotroot j rfl hq2b.symm
          | cons e q3 =>
            exact hnone (false :: e :: q3) (by rw [hidtrans]; exact hq2b)
        exact htr.2.1 j rfl hnosub
      · intro hc
        cases hc

end Olsrd

namespace Olsrd

theorem track_stepR (i k ri rk : Nat) (c d L : Tree) (last : Option Nat)
    (hnd : (Tree.node i k L (Tree.node ri rk c d)).ids.Nodup)
    (hinv : TrackInv (Tree.node i k L (Tree.node ri rk c d)) last)
    (IH : ∀ last2 : Option Nat, (Tree.node i k c d).ids.Nodup →
      TrackInv (Tree.node i k c d) last2 →
      TrackRes (Tree.node i k c d) last2
        (heap_increse_key (Tree.node i k c d) last2)) :
    TrackRes (Tree.node i k L (Tree.node ri rk c d)) last
      (Tree.node ri rk L
        (heap_increse_key (Tree.node i k c d)
          (if last = some ri then some i else last)).1,
       (heap_increse_key (Tree.node i k c d)
          (if last = some ri then some i else last)).2) := by
  have hrootid : (Tree.node i k L (Tree.node ri rk c d)).idAt? [] = some i :=
    Tree.idAt?_node_nilp _ _ _ _
  have hri : (Tree.node i k L (Tree.node ri rk c d)).idAt? [true] = some ri := by
    rw [Tree.idAt?_cons_true]
    exact Tree.idAt?_node_nilp _ _ _ _
  have hnotroot : ∀ j, last = some j → j ≠ i := by
    intro j hj hji
    subst hji
    rcases hinv j [] hj hrootid with ⟨x, y, hxy⟩
    rw [Tree.sub_nil_path] at hxy
    injection hxy with _ _ _ h4
    exact Tree.noConfusion h4
  cases last with
  | none =>
    have hl1 : (if (none : Option Nat) = some ri then some i else none) = none := by
      simp
    rw [hl1]
    have htr := IH none (nodup_promote_right hnd) (fun j q hj => by cases hj)
    refine ⟨?_, ?_, ?_⟩
    · intro j q hj
      cases hj
    · intro j hj
      cases hj
    · intro _
      exact htr.2.2 rfl
  | some j =>
    by_cases hjr : j = ri
    · subst hjr
      have hl1 : (if (some j : Option Nat) = some j then some i else some j) =
          some i := by simp
      rw [hl1]
      rcases hinv j [true] rfl hri with ⟨x, y, hxy⟩
      rw [Tree.sub_cons_true, Tree.sub_nil_path] at hxy
      injection hxy with _ _ hc hd
      subst hc
      subst hd
      rw [increse_leaf]
      refine ⟨?_, ?_, ?_⟩
      · intro j2 q hj2 hq
        injection hj2 with hj2
        subst hj2
        have hqe : q = [true] := Tree.idAt?_inj hnd hq hri
        subst hqe
        rw [Tree.idAt?_cons_true]
        rfl
      · intro j2 hj2 hnone
        injection hj2 with hj2
        subst hj2
        exact absurd hri (hnone [true])
      · intro hc2
        cases hc2
    · have hl1 : (if (some j : Option Nat) = some ri then some i else some j) =
          some j := by simp [hjr]
      rw [hl1]
      have hsubtrans : ∀ (e : Bool) (q3 : List Bool),
          (Tree.node i k L (Tree.node ri rk c d)).sub (true :: e :: q3) =
            (Tree.node i k c d).sub (e :: q3) := by
        intro e q3
        rw [Tree.sub_cons_true, Tree.sub_cons, Tree.sub_cons]
      have hidtrans : ∀ (e : Bool) (q3 : List Bool),
          (Tree.node i k L (Tree.node ri rk c d)).idAt? (true :: e :: q3) =
            (Tree.node i k c d).idAt? (e :: q3) := by
        intro e q3
        rw [Tree.idAt?, Tree.idAt?, hsubtrans]
      have hinvsub : TrackInv (Tree.node i k c d) (some j) := by
        intro j2 q2 hj2 hq2
        injection hj2 with hj2
        subst hj2
        cases q2 with
        | nil =>
          rw [Tree.idAt?_node_nilp] at hq2
          injection hq2 with hq2
          exact absurd hq2.symm (hnotroot j rfl)
        | cons e q3 =>
          have := hinv j (true :: e :: q3) rfl (by rw [hidtrans]; exact hq2)
          rcases this with ⟨x, y, hxy⟩
          rw [hsubtrans] at hxy
          exact ⟨x, y, hxy⟩
      have htr := IH (some j) (nodup_promote_right hnd) hinvsub
      refine ⟨?_, ?_, ?_⟩
      · intro j2 q hj2 hq
        injection hj2 with hj2
        subst hj2
        cases q with
        | nil =>
          rw [hrootid] at hq
          injection hq with hq
          exact absurd hq.symm (hnotroot j rfl)
        | cons e q2 =>
          cases e
          · rw [Tree.idAt?_cons_false] at hq ⊢
            have hnosub : ∀ q2b, (Tree.node i k c d).idAt? q2b ≠ some j := by
              intro q2b hq2b
              have hjL : j ∈ L.ids := (Tree.mem_ids_iff L j).mpr ⟨q2, hq⟩
              have hjsub : j ∈ (Tree.node i k c d).ids :=
                (Tree.mem_ids_iff _ j).mpr ⟨q2b, hq2b⟩
              rcases nodup_node_parts hnd with ⟨_, _, hiL, _, hdisj⟩
              rw [Tree.ids_node] at hjsub
              rcases List.mem_cons.mp hjsub with hjsub | hjsub
              · subst hjsub
                exact hiL hjL
              · refine hdisj j hjL ?_
                rw [Tree.ids_node]
                exact List.mem_cons_of_mem _ (by
                  rcases List.mem_append.mp hjsub with hh | hh
                  · exact List.mem_append.mpr (Or.inl hh)
                  · exact List.mem_append.mpr (Or.inr hh))
            rw [htr.2.1 j rfl hnosub, hq]
          · cases q2 with
            | nil =>
              rw [hri] at hq
              injection hq with hq
              exact absurd hq.symm hjr
            | cons e2 q3 =>
              rw [hidtrans] at hq
              have := htr.1 j (e2 :: q3) rfl hq
              rw [Tree.idAt?_cons_true]
              exact this
      · intro j2 hj2 hnone
        injection hj2 with hj2
        subst hj2
        have hnosub : ∀ q2b, (Tree.node i k c d).idAt? q2b ≠ some j := by
          intro q2b hq2b
          cases q2b with
          | nil =>
            rw [Tree.idAt?_node_nilp] at hq2b
            injection hq2b with hq2b
            exact hnotroot j rfl hq2b.symm
          | cons e q3 =>
            exact hnone (true :: e :: q3) (by rw [hidtrans]; exact hq2b)
        exact htr.2.1 j rfl hnosub
      · intro hc2
        cases hc2

theorem track_stay (t : Tree) (last : Option Nat) : TrackRes t last (t, last) := by
  refine ⟨?_, ?_, ?_⟩
  · intro j q hj hq
    rw [hj, hq]
  · intro _ _ _
    rfl
  · intro _
    rfl

theorem increse_track_aux : ∀ (n : Nat) (t : Tree), t.sizeT ≤ n →
    ∀ (last : Option Nat), t.ids.Nodup → TrackInv t last →
    TrackRes t last (heap_increse_key t last) := by
  intro n
  induction n with
  | zero =>
    intro t ht last hnd hinv
    cases t with
    | nil =>
      rw [increse_nil]
      exact track_stay _ _
    | node i k l r => rw [Tree.sizeT_node] at ht; omega
  | succ n ih =>
    intro t ht last hnd hinv
    cases t with
    | nil =>
      rw [increse_nil]
      exact track_stay _ _
    | node i k l r =>
      have hIHL : ∀ (li2 lk2 : Nat) (a2 b2 : Tree), l = Tree.node li2 lk2 a2 b2 →
          ∀ last2 : Option Nat, (Tree.node i k a2 b2).ids.Nodup →
          TrackInv (Tree.node i k a2 b2) last2 →
          TrackRes (Tree.node i k a2 b2) last2
            (heap_increse_key (Tree.node i k a2 b2) last2) := by
        intro li2 lk2 a2 b2 hleq last2 hnd2 hinv2
        refine ih (Tree.node i k a2 b2) ?_ last2 hnd2 hinv2
        rw [hleq] at ht
        simp only [Tree.sizeT_node] at ht ⊢
        omega
      have hIHR : ∀ (ri2 rk2 : Nat) (c2 d2 : Tree), r = Tree.node ri2 rk2 c2 d2 →
          ∀ last2 : Option Nat, (Tree.node i k c2 d2).ids.Nodup →
          TrackInv (Tree.node i k c2 d2) last2 →
          TrackRes (Tree.node i k c2 d2) last2
            (heap_increse_key (Tree.node i k c2 d2) last2) := by
        intro ri2 rk2 c2 d2 hreq last2 hnd2 hinv2
        refine ih (Tree.node i k c2 d2) ?_ last2 hnd2 hinv2
        rw [hreq] at ht
        simp only [Tree.sizeT_node] at ht ⊢
        omega
      cases l with
      | nil =>
        cases r with
        | nil =>
          rw [increse_leaf]
          exact track_stay _ _
        | node ri rk c d =>
          by_cases h2 : k > rk
          · rw [increse_swapR_nilL _ _ _ _ _ _ _ h2]
            exact track_stepR i k ri rk c d Tree.nil last hnd hinv
              (hIHR ri rk c d rfl)
          · rw [increse_stay_nilL _ _ _ _ _ _ _ h2]
            exact track_stay _ _
      | node li lk a b =>
        by_cases h1 : k > lk
        · cases r with
          | nil =>
            rw [increse_swapL_nilR _ _ _ _ _ _ _ h1]
            exact track_stepL i k li lk a b Tree.nil last hnd hinv
              (hIHL li lk a b rfl)
          | node ri rk c d =>
            by_cases h2 : k > rk
            · by_cases h3 : lk < rk
              · rw [increse_swapL_both _ _ _ _ _ _ _ _ _ _ _ h1 h2 h3]
                exact track_stepL i k li lk a b (Tree.node ri rk c d) last hnd hinv
                  (hIHL li lk a b rfl)
              · rw [increse_swapR_both _ _ _ _ _ _ _ _ _ _ _ h1 h2 h3]
                exact track_stepR i k ri rk c d (Tree.node li lk a b) last hnd hinv
                  (hIHR ri rk c d rfl)
            · rw [increse_swapL_only _ _ _ _ _ _ _ _ _ _ _ h1 h2]
              exact track_stepL i k li lk a b (Tree.node ri rk c d) last hnd hinv
                (hIHL li lk a b rfl)
        · cases r with
          | nil =>
            rw [increse_stay_nilR _ _ _ _ _ _ _ h1]
            exact track_stay _ _
          | node ri rk c d =>
            by_cases h2 : k > rk
            · rw [increse_swapR_only _ _ _ _ _ _ _ _ _ _ _ h1 h2]
              exact track_stepR i k ri rk c d (Tree.node li lk a b) last hnd hinv
                (hIHR ri rk c d rfl)
            · rw [increse_stay_both _ _ _ _ _ _ _ _ _ _ _ h1 h2]
              exact track_stay _ _

theorem increse_track (t : Tree) (last : Option Nat) (hnd : t.ids.Nodup)
    (hinv : TrackInv t last) :
    TrackRes t last (heap_increse_key t last) :=
  increse_track_aux t.sizeT t (Nat.le_refl _) last hnd hinv

end Olsrd

namespace Olsrd

/-! ### Arithmetic of the shape navigator -/

theorem heap_log2_go_fuel : ∀ fuel fuel' n : Nat, n ≤ fuel → n ≤ fuel' →
    heap_log2_go fuel n = heap_log2_go fuel' n := by
  intro fuel
  induction fuel with
  | zero =>
    intro fuel' n h _
    have : n = 0 := by omega
    subst this
    cases fuel' <;> simp [heap_log2_go]
  | succ fuel ih =>
    intro fuel' n h h'
    by_cases h1 : n ≤ 1
    · cases fuel' with
      | zero =>
        have : n = 0 := by omega
        subst this
        simp [heap_log2_go]
      | succ g => simp [heap_log2_go, if_pos h1]
    · cases fuel' with
      | zero => omega
      | succ g =>
        simp only [heap_log2_go, if_neg h1]
        rw [ih g (n / 2) (by omega) (by omega)]

theorem heap_log2_two {n : Nat} (h : 2 ≤ n) :
    heap_log2 n = heap_log2 (n / 2) + 1 := by
  match n, h with
  | m + 1, _ =>
    have h1 : heap_log2 (m + 1) = heap_log2_go m ((m + 1) / 2) + 1 := by
      show heap_log2_go (m + 1) (m + 1) = _
      simp only [heap_log2_go, if_neg (show ¬ m + 1 ≤ 1 by omega)]
    rw [h1, heap_log2_go_fuel m ((m + 1) / 2) ((m + 1) / 2) (by omega) (by omega)]
    rfl

theorem heap_log2_one : heap_log2 1 = 0 := rfl

theorem heap_log2_bounds : ∀ n : Nat, 1 ≤ n →
    2 ^ heap_log2 n ≤ n ∧ n < 2 ^ (heap_log2 n + 1) := by
  intro n
  induction n using Nat.strong_induction_on with
  | _ n ih =>
    intro h1
    by_cases h2 : n = 1
    · subst h2
      rw [heap_log2_one]
      omega
    · have h3 : 2 ≤ n := by omega
      rw [heap_log2_two h3]
      rcases ih (n / 2) (by omega) (by omega) with ⟨hl, hr⟩
      constructor
      · rw [pow_succ]
        omega
      · rw [pow_succ, pow_succ]
        omega

theorem heap_perfect_log2_iff {N : Nat} (h : 1 ≤ N) :
    heap_perfect_log2 N = 0 ↔ ∃ e : Nat, N = 2 ^ e := by
  rcases heap_log2_bounds N h with ⟨hl, hr⟩
  constructor
  · intro hz
    rw [heap_perfect_log2] at hz
    exact ⟨heap_log2 N, by omega⟩
  · rintro ⟨e, rfl⟩
    rw [heap_perfect_log2]
    have h1 : heap_log2 (2 ^ e) ≤ e := by
      by_contra hc
      have : 2 ^ (e + 1) ≤ 2 ^ heap_log2 (2 ^ e) :=
        Nat.pow_le_pow_right (by omega) (by omega)
      have h2 : (2 : Nat) ^ e < 2 ^ (e + 1) := by
        rw [pow_succ]
        have : 1 ≤ (2 : Nat) ^ e := Nat.one_le_two_pow
        omega
      omega
    have h2 : e ≤ heap_log2 (2 ^ e) := by
      by_contra hc
      have : heap_log2 (2 ^ e) + 1 ≤ e := by omega
      have : (2 : Nat) ^ (heap_log2 (2 ^ e) + 1) ≤ 2 ^ e :=
        Nat.pow_le_pow_right (by omega) this
      omega
    have : heap_log2 (2 ^ e) = e := by omega
    rw [this]
    omega

theorem heap_perfect_log2_ne {N : Nat} (h : 1 ≤ N)
    (hne : ∀ e : Nat, N ≠ 2 ^ e) : ¬ heap_perfect_log2 N = 0 := by
  intro hc
  rcases (heap_perfect_log2_iff h).mp hc with ⟨e, he⟩
  exact hne e he

theorem stripTrail_nil (b : Bool) : stripTrail b [] = [] := rfl

theorem stripTrail_same (b : Bool) (p : List Bool) :
    stripTrail b (p ++ [b]) = stripTrail b p := by
  rw [stripTrail, stripTrail, List.reverse_append]
  simp

theorem stripTrail_other {b e : Bool} (hne : e ≠ b) (p : List Bool) :
    stripTrail b (p ++ [e]) = p ++ [e] := by
  rw [stripTrail, List.reverse_append]
  simp [List.dropWhile, hne]

theorem oddUp_zero : oddUp 0 = 0 := by simp [oddUp]

theorem oddUp_one : oddUp 1 = 1 := by simp [oddUp]

theorem oddUp_even {n : Nat} (h2 : 2 ≤ n) (he : n % 2 = 0) : oddUp n = n := by
  match n, h2 with
  | m + 2, _ =>
    rw [oddUp, if_neg (by omega)]

theorem oddUp_odd {n : Nat} (h2 : 3 ≤ n) (he : n % 2 = 1) :
    oddUp n = oddUp (n / 2) := by
  match n, h2 with
  | m + 2, _ =>
    rw [oddUp, if_pos he]

theorem oddDown_one : oddDown 1 = 1 := by simp [oddDown]

theorem oddDown_even {n : Nat} (h2 : 2 ≤ n) (he : n % 2 = 0) :
    oddDown n = oddDown (n / 2) := by
  match n, h2 with
  | m + 2, _ =>
    rw [oddDown, if_pos he]

theorem oddDown_odd {n : Nat} (h2 : 3 ≤ n) (he : n % 2 = 1) : oddDown n = n := by
  match n, h2 with
  | m + 2, _ =>
    rw [oddDown, if_neg (by omega)]

theorem strip_true_binPath : ∀ n : Nat, 1 ≤ n →
    stripTrail true (binPath n) = binPath (oddUp n) := by
  intro n
  induction n using Nat.strong_induction_on with
  | _ n ih =>
    intro h1
    by_cases h2 : n = 1
    · subst h2
      rw [oddUp_one]
      rfl
    · rcases Nat.even_or_odd n with he | he
      · have he2 : n % 2 = 0 := Nat.even_iff.mp he
        rw [binPath_even (by omega) he2, oddUp_even (by omega) he2,
          stripTrail_other (by simp) _, ← binPath_even (by omega) he2]
      · have he2 : n % 2 = 1 := Nat.odd_iff.mp he
        have h3 : 3 ≤ n := by omega
        rw [binPath_odd (by omega) he2, oddUp_odd h3 he2, stripTrail_same]
        exact ih (n / 2) (by omega) (by omega)

theorem strip_false_binPath : ∀ n : Nat, 1 ≤ n →
    stripTrail false (binPath n) = binPath (oddDown n) := by
  intro n
  induction n using Nat.strong_induction_on with
  | _ n ih =>
    intro h1
    by_cases h2 : n = 1
    · subst h2
      rw [oddDown_one]
      rfl
    · rcases Nat.even_or_odd n with he | he
      · have he2 : n % 2 = 0 := Nat.even_iff.mp he
        rw [binPath_even (by omega) he2, oddDown_even (by omega) he2,
          stripTrail_same]
        exact ih (n / 2) (by omega) (by omega)
      · have he2 : n % 2 = 1 := Nat.odd_iff.mp he
        rw [binPath_odd (by omega) he2, oddDown_odd (by omega) he2,
          stripTrail_other (by simp) _, ← binPath_odd (by omega) he2]

theorem oddUp_spec : ∀ n : Nat, 1 ≤ n →
    ∃ s : Nat, n + 1 = (oddUp n + 1) * 2 ^ s ∧
      (oddUp n = 1 ∨ oddUp n % 2 = 0) ∧ 1 ≤ oddUp n ∧ oddUp n ≤ n := by
  intro n
  induction n using Nat.strong_induction_on with
  | _ n ih =>
    intro h1
    by_cases h2 : n = 1
    · subst h2
      exact ⟨0, by rw [oddUp_one]; norm_num, Or.inl oddUp_one, by rw [oddUp_one],
        by rw [oddUp_one]⟩
    · rcases Nat.even_or_odd n with he | he
      · have he2 : n % 2 = 0 := Nat.even_iff.mp he
        rw [oddUp_even (by omega) he2]
        exact ⟨0, by omega, Or.inr he2, by omega, Nat.le_refl _⟩
      · have he2 : n % 2 = 1 := Nat.odd_iff.mp he
        have h3 : 3 ≤ n := by omega
        rw [oddUp_odd h3 he2]
        rcases ih (n / 2) (by omega) (by omega) with ⟨s, hs, hpar, hge, hle⟩
        refine ⟨s + 1, ?_, hpar, hge, by omega⟩
        rw [pow_succ, ← Nat.mul_assoc]
        omega

theorem oddDown_spec : ∀ n : Nat, 1 ≤ n →
    ∃ s : Nat, n = oddDown n * 2 ^ s ∧ oddDown n % 2 = 1 ∧ 1 ≤ oddDown n ∧
      oddDown n ≤ n := by
  intro n
  induction n using Nat.strong_induction_on with
  | _ n ih =>
    intro h1
    by_cases h2 : n = 1
    · subst h2
      exact ⟨0, by rw [oddDown_one]; norm_num, by rw [oddDown_one],
        by rw [oddDown_one], by rw [oddDown_one]⟩
    · rcases Nat.even_or_odd n with he | he
      · have he2 : n % 2 = 0 := Nat.even_iff.mp he
        rw [oddDown_even (by omega) he2]
        rcases ih (n / 2) (by omega) (by omega) with ⟨s, hs, hpar, hge, hle⟩
        refine ⟨s + 1, ?_, hpar, hge, by omega⟩
        rw [pow_succ, ← Nat.mul_assoc]
        omega
      · have he2 : n % 2 = 1 := Nat.odd_iff.mp he
        rw [oddDown_odd (by omega) he2]
        exact ⟨0, by omega, he2, by omega, Nat.le_refl _⟩

end Olsrd

namespace Olsrd

theorem Tree.hasPath_node_form {t : Tree} {q : List Bool}
    (h : t.hasPath q = true) :
    ∃ (i k : Nat) (l r : Tree), t.sub q = Tree.node i k l r := by
  rw [Tree.hasPath, Tree.idAt?] at h
  cases hs : t.sub q with
  | nil => rw [hs, Tree.rootId?] at h; exact absurd h (by simp)
  | node i k l r => exact ⟨i, k, l, r, rfl⟩

theorem Tree.leftDescent_node_node (i k li lk : Nat) (a b r : Tree) :
    (Tree.node i k (Tree.node li lk a b) r).leftDescent =
      false :: (Tree.node li lk a b).leftDescent := by
  simp [Tree.leftDescent]

theorem Tree.leftDescent_node_nil (i k : Nat) (r : Tree) :
    (Tree.node i k Tree.nil r).leftDescent = [] := by
  simp [Tree.leftDescent]

theorem Tree.rightDescent_node_node (i k ri rk : Nat) (l c d : Tree) :
    (Tree.node i k l (Tree.node ri rk c d)).rightDescent =
      true :: (Tree.node ri rk c d).rightDescent := by
  cases l <;> simp [Tree.rightDescent]

theorem Tree.rightDescent_node_nil (i k : Nat) (l : Tree) :
    (Tree.node i k l Tree.nil).rightDescent = [] := by
  cases l <;> simp [Tree.rightDescent]

theorem leftDescent_spec_aux {t : Tree} {n : Nat} (hC : Complete t n) :
    ∀ (m : Nat) (q : List Bool), n + 1 - pos q ≤ m → t.hasPath q = true →
    ∃ j : Nat, pos (q ++ (t.sub q).leftDescent) = pos q * 2 ^ j ∧
      pos q * 2 ^ j ≤ n ∧ n < 2 * (pos q * 2 ^ j) := by
  intro m
  induction m with
  | zero =>
    intro q hm hq
    have h1 : pos q ≤ n := (hC q).mp hq
    have h2 := pos_pos q
    omega
  | succ m ih =>
    intro q hm hq
    have h1 : pos q ≤ n := (hC q).mp hq
    rcases Tree.hasPath_node_form hq with ⟨i, k, l, r, hs⟩
    by_cases h2 : 2 * pos q ≤ n
    · have hcf : t.hasPath (q ++ [false]) = true := by
        rw [hC]
        rw [pos_append_single]
        simpa using h2
      have hlnode : ∃ li lk a b, l = Tree.node li lk a b := by
        rcases Tree.hasPath_node_form hcf with ⟨i2, k2, l2, r2, hs2⟩
        rw [Tree.sub_append, hs, Tree.sub_cons_false, Tree.sub_nil_path] at hs2
        exact ⟨i2, k2, l2, r2, hs2⟩
      rcases hlnode with ⟨li, lk, a, b, rfl⟩
      rw [hs, Tree.leftDescent_node_node]
      have hsub2 : t.sub (q ++ [false]) = Tree.node li lk a b := by
        rw [Tree.sub_append, hs, Tree.sub_cons_false, Tree.sub_nil_path]
      have hrec := ih (q ++ [false]) (by
        rw [pos_append_single]
        have := pos_pos q
        simp only [Bool.cond_false]
        omega) hcf
      rw [hsub2] at hrec
      rcases hrec with ⟨j, hj1, hj2, hj3⟩
      have hps : pos (q ++ [false]) = 2 * pos q := by
        rw [pos_append_single]
        simp
      rw [hps] at hj1 hj2 hj3
      refine ⟨j + 1, ?_, ?_, ?_⟩
      · rw [show q ++ false :: (Tree.node li lk a b).leftDescent =
          (q ++ [false]) ++ (Tree.node li lk a b).leftDescent by simp, hj1]
        rw [pow_succ]
        ring
      · rw [pow_succ]
        calc pos q * (2 ^ j * 2) = 2 * pos q * 2 ^ j := by ring
        _ ≤ n := hj2
      · rw [pow_succ]
        calc n < 2 * (2 * pos q * 2 ^ j) := hj3
        _ = 2 * (pos q * (2 ^ j * 2)) := by ring
    · have hcf : t.hasPath (q ++ [false]) = false := by
        rw [Bool.eq_false_iff]
        intro hc
        have := (hC _).mp hc
        rw [pos_append_single] at this
        simp at this
        omega
      have hlnil : l = Tree.nil := by
        cases hl : l with
        | nil => rfl
        | node li lk a b =>
          exfalso
          have : t.hasPath (q ++ [false]) = true := by
            rw [Tree.hasPath, Tree.idAt?, Tree.sub_append, hs, Tree.sub_cons_false,
              Tree.sub_nil_path, hl, Tree.rootId?]
            rfl
          rw [this] at hcf
          exact Bool.noConfusion hcf
      subst hlnil
      rw [hs, Tree.leftDescent_node_nil, List.append_nil]
      refine ⟨0, ?_, ?_, ?_⟩
      · rw [pow_zero, Nat.mul_one]
      · rw [pow_zero, Nat.mul_one]
        exact h1
      · rw [pow_zero, Nat.mul_one]
        omega

theorem leftDescent_spec {t : Tree} {n : Nat} (hC : Complete t n)
    {q : List Bool} (hq : t.hasPath q = true) :
    ∃ j : Nat, pos (q ++ (t.sub q).leftDescent) = pos q * 2 ^ j ∧
      pos q * 2 ^ j ≤ n ∧ n < 2 * (pos q * 2 ^ j) :=
  leftDescent_spec_aux hC (n + 1) q (by omega) hq

theorem rightDescent_spec_aux {t : Tree} {n : Nat} (hC : Complete t n) :
    ∀ (m : Nat) (q : List Bool), n + 1 - pos q ≤ m → t.hasPath q = true →
    ∃ j : Nat, pos (q ++ (t.sub q).rightDescent) = pos q * 2 ^ j + (2 ^ j - 1) ∧
      pos q * 2 ^ j + (2 ^ j - 1) ≤ n ∧
      n < 2 * (pos q * 2 ^ j + (2 ^ j - 1)) + 1 := by
  intro m
  induction m with
  | zero =>
    intro q hm hq
    have h1 : pos q ≤ n := (hC q).mp hq
    have h2 := pos_pos q
    omega
  | succ m ih =>
    intro q hm hq
    have h1 : pos q ≤ n := (hC q).mp hq
    rcases Tree.hasPath_node_form hq with ⟨i, k, l, r, hs⟩
    by_cases h2 : 2 * pos q + 1 ≤ n
    · have hcf : t.hasPath (q ++ [true]) = true := by
        rw [hC]
        rw [pos_append_single]
        simpa using h2
      have hrnode : ∃ ri rk c d, r = Tree.node ri rk c d := by
        rcases Tree.hasPath_node_form hcf with ⟨i2, k2, l2, r2, hs2⟩
        rw [Tree.sub_append, hs, Tree.sub_cons_true, Tree.sub_nil_path] at hs2
        exact ⟨i2, k2, l2, r2, hs2⟩
      rcases hrnode with ⟨ri, rk, c, d, rfl⟩
      rw [hs, Tree.rightDescent_node_node]
      have hsub2 : t.sub (q ++ [true]) = Tree.node ri rk c d := by
        rw [Tree.sub_append, hs, Tree.sub_cons_true, Tree.sub_nil_path]
      have hrec := ih (q ++ [true]) (by
        rw [pos_append_single]
        have := pos_pos q
        simp only [Bool.cond_true]
        omega) hcf
      rw [hsub2] at hrec
      rcases hrec with ⟨j, hj1, hj2, hj3⟩
      rw [pos_append_single] at hj1 hj2 hj3
      simp only [Bool.cond_true] at hj1 hj2 hj3
      have hexp : (2 * pos q + 1) * 2 ^ j + (2 ^ j - 1) =
          pos q * 2 ^ (j + 1) + (2 ^ (j + 1) - 1) := by
        have hpow : 1 ≤ (2 : Nat) ^ j := Nat.one_le_two_pow
        rw [pow_succ]
        ring_nf
        omega
      refine ⟨j + 1, ?_, ?_, ?_⟩
      · rw [show q ++ true :: (Tree.node ri rk c d).rightDescent =
          (q ++ [true]) ++ (Tree.node ri rk c d).rightDescent by simp, hj1]
        exact hexp
      · rw [← hexp]
        exact hj2
      · rw [← hexp]
        exact hj3
    · have hcf : t.hasPath (q ++ [true]) = false := by
        rw [Bool.eq_false_iff]
        intro hc
        have := (hC _).mp hc
        rw [pos_append_single] at this
        simp at this
        omega
      have hrnil : r = Tree.nil := by
        cases hr : r with
        | nil => rfl
        | node ri rk c d =>
          exfalso
          have : t.hasPath (q ++ [true]) = true := by
            rw [Tree.hasPath, Tree.idAt?, Tree.sub_append, hs, Tree.sub_cons_true,
              Tree.sub_nil_path, hr, Tree.rootId?]
            rfl
          rw [this] at hcf
          exact Bool.noConfusion hcf
      subst hrnil
      rw [hs, Tree.rightDescent_node_nil, List.append_nil]
      refine ⟨0, ?_, ?_, ?_⟩
      · rw [pow_zero, Nat.mul_one]
        omega
      · rw [pow_zero, Nat.mul_one]
        omega
      · rw [pow_zero, Nat.mul_one]
        omega

theorem rightDescent_spec {t : Tree} {n : Nat} (hC : Complete t n)
    {q : List Bool} (hq : t.hasPath q = true) :
    ∃ j : Nat, pos (q ++ (t.sub q).rightDescent) = pos q * 2 ^ j + (2 ^ j - 1) ∧
      pos q * 2 ^ j + (2 ^ j - 1) ≤ n ∧
      n < 2 * (pos q * 2 ^ j + (2 ^ j - 1)) + 1 :=
  rightDescent_spec_aux hC (n + 1) q (by omega) hq

end Olsrd

namespace Olsrd

theorem WF_last_some {h : BinHeap} (hWF : WF h) (hn : 1 ≤ h.count) :
    ∃ lid : Nat, h.last_node = some lid ∧
      h.root_node.idAt? (binPath h.count) = some lid ∧
      h.root_node.findPath? lid = some (binPath h.count) := by
  have hhas : h.root_node.hasPath (binPath h.count) = true := by
    rw [hWF.complete]
    rw [pos_binPath hn]
  rw [Tree.hasPath] at hhas
  cases hid : h.root_node.idAt? (binPath h.count) with
  | none => rw [hid] at hhas; exact absurd hhas (by simp)
  | some lid =>
    refine ⟨lid, ?_, rfl, Tree.findPath?_eq hWF.nodup hid⟩
    rw [hWF.lastv, hid]

theorem find_parent_correct {h : BinHeap} (hWF : WF h) (hn : 1 ≤ h.count) :
    ∃ pp : List Bool, heap_find_parent_insert_node h = some pp ∧
      pos pp = (h.count + 1) / 2 ∧ h.root_node.hasPath pp = true := by
  have hroot : h.root_node.hasPath [] = true := by
    rw [hWF.complete]
    have : pos ([] : List Bool) = 1 := rfl
    omega
  by_cases hperf : heap_perfect_log2 (h.count + 1) = 0
  · rcases (heap_perfect_log2_iff (by omega)).mp hperf with ⟨e, he⟩
    have he1 : 1 ≤ e := by
      by_contra hc
      have : e = 0 := by omega
      rw [this] at he
      simp at he
      omega
    rcases leftDescent_spec hWF.complete hroot with ⟨j, hj1, hj2, hj3⟩
    rw [List.nil_append, Tree.sub_nil_path] at hj1
    have hpow : (2 : Nat) ^ e = 2 ^ (e - 1) * 2 := by
      rw [← pow_succ]
      congr 1
      omega
    have hje : j = e - 1 := by
      have hb1 : (2 : Nat) ^ j ≤ 2 ^ e - 1 := by
        have hposn : pos ([] : List Bool) = 1 := rfl
        rw [hposn, Nat.one_mul] at hj2
        omega
      have hb2 : h.count < 2 ^ (j + 1) := by
        have hposn : pos ([] : List Bool) = 1 := rfl
        rw [hposn, Nat.one_mul] at hj3
        rw [pow_succ]
        omega
      have hj1e : j < e := by
        by_contra hc
        have : (2 : Nat) ^ e ≤ 2 ^ j := Nat.pow_le_pow_right (by omega) (by omega)
        have h1le : 1 ≤ (2 : Nat) ^ e := Nat.one_le_two_pow
        omega
      have hj2e : e ≤ j + 1 := by
        by_contra hc
        have : (2 : Nat) ^ (j + 1) ≤ 2 ^ (e - 1) := by
          refine Nat.pow_le_pow_right (by omega) (by omega)
        have h1le : 1 ≤ (2 : Nat) ^ (e - 1) := Nat.one_le_two_pow
        omega
      omega
    refine ⟨h.root_node.leftDescent, ?_, ?_, ?_⟩
    · simp only [heap_find_parent_insert_node, if_pos hperf]
    · rw [hj1]
      have hposn : pos ([] : List Bool) = 1 := rfl
      rw [hposn, Nat.one_mul, hje, he, hpow]
      omega
    · rw [hWF.complete]
      rw [hj1]
      have hposn : pos ([] : List Bool) = 1 := rfl
      rw [hposn, Nat.one_mul, hje]
      rw [hposn, Nat.one_mul, hje] at hj2
      exact hj2
  · rcases WF_last_some hWF hn with ⟨lid, hlast, hid, hfind⟩
    by_cases hNe : (h.count + 1) % 2 = 0
    · have hnodd : h.count % 2 = 1 := by omega
      rcases oddUp_spec h.count hn with ⟨s, hs1, hs2, hs3, hs4⟩
      have hmeven : oddUp h.count % 2 = 0 := by
        rcases hs2 with hm1 | hm2
        · exfalso
          rw [hm1] at hs1
          refine hperf ((heap_perfect_log2_iff (by omega)).mpr ⟨s + 1, ?_⟩)
          rw [pow_succ]
          omega
        · exact hm2
      have hm2 : 2 ≤ oddUp h.count := by omega
      have hs1' : 1 ≤ s := by
        by_contra hc
        have : s = 0 := by omega
        rw [this, pow_zero, Nat.mul_one] at hs1
        omega
      have hstrip : stripTrail true (binPath h.count) = binPath (oddUp h.count) :=
        strip_true_binPath h.count hn
      have hdec : binPath (oddUp h.count) =
          binPath (oddUp h.count / 2) ++ [false] := binPath_even hm2 hmeven
      have hppval : pos (binPath (oddUp h.count / 2)) = oddUp h.count / 2 :=
        pos_binPath (by omega)
      have hq : pos (binPath (oddUp h.count / 2) ++ [true]) = oddUp h.count + 1 := by
        rw [pos_append_single, hppval]
        simp only [Bool.cond_true]
        omega
      have hqle : oddUp h.count + 1 ≤ h.count := by
        have hp2 : (2 : Nat) ≤ 2 ^ s := by
          calc (2 : Nat) = 2 ^ 1 := by norm_num
          _ ≤ 2 ^ s := Nat.pow_le_pow_right (by omega) hs1'
        have : (oddUp h.count + 1) * 2 ≤ (oddUp h.count + 1) * 2 ^ s :=
          Nat.mul_le_mul_left _ hp2
        omega
      have hqpath : h.root_node.hasPath
          (binPath (oddUp h.count / 2) ++ [true]) = true := by
        rw [hWF.complete, hq]
        exact hqle
      rcases leftDescent_spec hWF.complete hqpath with ⟨j, hj1, hj2, hj3⟩
      rw [hq] at hj1 hj2 hj3
      have hje : j = s - 1 := by
        have hjlt : j < s := by
          by_contra hc
          have hge : (2 : Nat) ^ s ≤ 2 ^ j := Nat.pow_le_pow_right (by omega) (by omega)
          have : (oddUp h.count + 1) * 2 ^ s ≤ (oddUp h.count + 1) * 2 ^ j :=
            Nat.mul_le_mul_left _ hge
          omega
        have hjge : s ≤ j + 1 := by
          by_contra hc
          have hge : (2 : Nat) ^ (j + 2) ≤ 2 ^ s := Nat.pow_le_pow_right (by omega) (by omega)
          have h1 : (oddUp h.count + 1) * 2 ^ (j + 2) ≤ (oddUp h.count + 1) * 2 ^ s :=
            Nat.mul_le_mul_left _ hge
          have h2 : (oddUp h.count + 1) * 2 ^ (j + 2) =
              2 * (2 * ((oddUp h.count + 1) * 2 ^ j)) := by
            rw [pow_succ, pow_succ]
            ring
          omega
        omega
      refine ⟨(binPath (oddUp h.count / 2) ++ [true]) ++
        (h.root_node.sub (binPath (oddUp h.count / 2) ++ [true])).leftDescent,
        ?_, ?_, ?_⟩
      · simp only [heap_find_parent_insert_node, if_neg hperf, if_pos hNe, hlast,
          hfind, hstrip, hdec]
        rw [List.reverse_append]
        simp only [List.reverse_cons, List.reverse_nil, List.nil_append,
          List.cons_append, List.reverse_reverse]
        rw [if_pos hqpath]
      · rw [hj1, hje]
        have hpow : (oddUp h.count + 1) * 2 ^ s =
            ((oddUp h.count + 1) * 2 ^ (s - 1)) * 2 := by
          rw [Nat.mul_assoc, ← pow_succ]
          congr 2
          omega
        omega
      · rw [hWF.complete, hj1]
        exact hj2
    · have hneven : h.count % 2 = 0 := by omega
      have hn2 : 2 ≤ h.count := by
        by_contra hc
        have : h.count = 1 := by omega
        omega
      have hdec : binPath h.count = binPath (h.count / 2) ++ [false] :=
        binPath_even hn2 hneven
      refine ⟨binPath (h.count / 2), ?_, ?_, ?_⟩
      · simp only [heap_find_parent_insert_node, if_neg hperf, if_neg hNe, hlast,
          hfind, hdec]
        rw [List.reverse_append]
        simp only [List.reverse_cons, List.reverse_nil, List.nil_append,
          List.cons_append, List.reverse_reverse]
      · rw [pos_binPath (by omega)]
        omega
      · rw [hWF.complete, pos_binPath (by omega)]
        omega

end Olsrd

namespace Olsrd

theorem pos_lt_of_proper_prefix {q p : List Bool} (hpre : q <+: p) (hne : q ≠ p) :
    pos q < pos p := by
  rcases hpre with ⟨r, hr⟩
  subst hr
  cases r with
  | nil => exact absurd (List.append_nil q).symm hne
  | cons d r =>
    have h1 : pos (q ++ d :: r) = posFrom (pos q) (d :: r) := by
      rw [pos, pos, posFrom_append]
    have h2 := (posFrom_split (pos q) (d :: r)).1
    have h5 : pos q * 2 ^ (d :: r).length = pos q * 2 ^ r.length * 2 := by
      rw [List.length_cons, pow_succ, Nat.mul_assoc]
    have h6 := pos_pos q
    have h7 : pos q ≤ pos q * 2 ^ r.length :=
      Nat.le_mul_of_pos_right _ (Nat.pos_pow_of_pos _ (by omega))
    omega

theorem Tree.labelAt?_of_hasPath {t : Tree} {p : List Bool}
    (h : t.hasPath p = true) : ∃ a : Nat × Nat, t.labelAt? p = some a := by
  rw [Tree.hasPath_eq] at h
  cases hl : t.labelAt? p with
  | none => rw [hl] at h; exact absurd h (by simp)
  | some a => exact ⟨a, rfl⟩

theorem labelAt?_none_of_pos_gt {t : Tree} {n : Nat} {q : List Bool}
    (hC : Complete t n) (h : n < pos q) : t.labelAt? q = none := by
  cases hl : t.labelAt? q with
  | none => rfl
  | some a =>
    exfalso
    have hhp : t.hasPath q = true := by
      rw [Tree.hasPath_eq, hl]
      rfl
    have := (hC q).mp hhp
    omega

theorem Complete_zero_nil {t : Tree} (hC : Complete t 0) : t = Tree.nil := by
  cases t with
  | nil => rfl
  | node i k l r =>
    exfalso
    have := (hC []).mp (Tree.hasPath_node_nilq i k l r)
    have h1 : pos ([] : List Bool) = 1 := rfl
    omega

/-- The full effect of `heap_decrease_key` on a well-formed state, given
the sift-up invariant at the node's path: well-formedness is preserved,
the count is unchanged and the labels are a permutation. -/
theorem decrease_key_spec {heap : BinHeap} {i : Nat} {pp : List Bool} {d : Bool}
    (hC : Complete heap.root_node heap.count)
    (hlastv : heap.last_node = heap.root_node.idAt? (binPath heap.count))
    (hnd : heap.root_node.ids.Nodup)
    (hfind : heap.root_node.findPath? i = some (pp ++ [d]))
    (hinv : SiftUpInv heap.root_node (pp ++ [d])) :
    WF (heap_decrease_key heap i) ∧
    (heap_decrease_key heap i).count = heap.count ∧
    (heap_decrease_key heap i).root_node.labels.Perm heap.root_node.labels := by
  have hid : heap.root_node.idAt? (pp ++ [d]) = some i := Tree.findPath?_sound hfind
  have hhasp : heap.root_node.hasPath (pp ++ [d]) = true := by
    rw [Tree.hasPath, hid]
    rfl
  have hhaspp : heap.root_node.hasPath pp = true := Tree.hasPath_of_append hhasp
  rcases Tree.labelAt?_of_hasPath hhaspp with ⟨pa, hpa⟩
  rcases Tree.labelAt?_of_hasPath hhasp with ⟨na, hna⟩
  have hpk : heap.root_node.keyAt? pp = some pa.2 := keyAt?_of_labelAt? hpa
  have hnk : heap.root_node.keyAt? (pp ++ [d]) = some na.2 := keyAt?_of_labelAt? hna
  have hC' : Complete
      (heap_decrease_key_loop heap.root_node (d :: pp.reverse)) heap.count := by
    intro q
    rw [siftUp_hasPath]
    exact hC q
  have hord' : HeapOrd (heap_decrease_key_loop heap.root_node (d :: pp.reverse)) := by
    refine siftUp_ord (d :: pp.reverse) heap.root_node ?_
    have hrr : (d :: pp.reverse).reverse = pp ++ [d] := by simp
    rw [hrr]
    exact hinv
  have hperm' : (heap_decrease_key_loop heap.root_node
      (d :: pp.reverse)).labels.Perm heap.root_node.labels :=
    siftUp_labels_perm (d :: pp.reverse) heap.root_node
  have hnd' : (heap_decrease_key_loop heap.root_node (d :: pp.reverse)).ids.Nodup :=
    (List.Perm.nodup_iff (hperm'.map Prod.fst)).mpr hnd
  cases hq : pp ++ [d] with
  | nil => exact absurd hq (by simp)
  | cons e tl =>
    have hfind2 : heap.root_node.findPath? i = some (e :: tl) := by
      rw [← hq]
      exact hfind
    have hdl : (e :: tl).dropLast = pp := by
      rw [← hq]
      simp
    have hrev2 : (e :: tl).reverse = d :: pp.reverse := by
      rw [← hq]
      simp
    have hstep : heap_decrease_key heap i =
        { count := heap.count,
          root_node := heap_decrease_key_loop heap.root_node (d :: pp.reverse),
          last_node :=
            if pa.2 > na.2 ∧ heap.last_node = some i
            then heap.root_node.idAt? pp else heap.last_node } := by
      simp only [heap_decrease_key, hfind2]
      rw [hdl, hrev2, ← hq]
      simp only [hpk, hnk]
      split <;> rfl
    rw [hstep]
    refine ⟨⟨hC', hord', ?_, hnd'⟩, rfl, hperm'⟩
    show (if pa.2 > na.2 ∧ heap.last_node = some i
        then heap.root_node.idAt? pp else heap.last_node) = _
    by_cases hli : heap.last_node = some i
    · have hbp : binPath heap.count = pp ++ [d] := by
        refine Tree.idAt?_inj hnd ?_ hid
        rw [← hlastv]
        exact hli
      by_cases hgt : pa.2 > na.2
      · rw [if_pos ⟨hgt, hli⟩]
        have htop := siftUp_top_label heap.root_node d pp.reverse
          (by rw [List.reverse_reverse]; exact hpk)
          (by rw [List.reverse_reverse]; exact hnk) hgt
        rw [List.reverse_reverse] at htop
        rw [hbp, Tree.idAt?_eq, Tree.idAt?_eq, htop]
      · rw [if_neg (by intro hc; exact hgt hc.1)]
        have hnos : heap_decrease_key_loop heap.root_node (d :: pp.reverse)
            = heap.root_node := by
          refine siftUp_noswap heap.root_node d pp.reverse ?_
          intro pk' nk' hpk' hnk'
          rw [List.reverse_reverse] at hpk' hnk'
          rw [hpk] at hpk'
          rw [hnk] at hnk'
          injection hpk' with h1
          injection hnk' with h2
          rw [← h1, ← h2]
          exact hgt
        rw [hnos]
        exact hlastv
    · rw [if_neg (by intro hc; exact hli hc.2)]
      have hnp : ¬ binPath heap.count <+: (d :: pp.reverse).reverse := by
        rw [List.reverse_cons, List.reverse_reverse]
        intro hc
        by_cases heqp : binPath heap.count = pp ++ [d]
        · refine hli ?_
          rw [hlastv, heqp, hid]
        · have hlt := pos_lt_of_proper_prefix hc heqp
          have hple : pos (pp ++ [d]) ≤ heap.count := (hC _).mp hhasp
          have h1 : 1 ≤ heap.count := le_trans (pos_pos _) hple
          rw [pos_binPath h1] at hlt
          omega
      have hout := siftUp_labelAt_out (d :: pp.reverse) heap.root_node
        (binPath heap.count) hnp
      rw [hlastv, Tree.idAt?_eq, Tree.idAt?_eq, hout]

end Olsrd

namespace Olsrd

/-- Attaching a fresh leaf at the unique free slot of position `n + 1`
preserves the shape/id invariants and establishes the sift-up invariant
that `heap_decrease_key` needs. -/
theorem attach_step {t : Tree} {n : Nat} {pp : List Bool} {d : Bool} {nid nk : Nat}
    (hC : Complete t n) (hnd : t.ids.Nodup) (hord : HeapOrd t)
    (hfresh : nid ∉ t.ids)
    (hlab : ∀ q, (t.attachNew pp nid nk).labelAt? q =
        if q = pp ++ [d] then some (nid, nk) else t.labelAt? q)
    (hperm : (t.attachNew pp nid nk).labels.Perm ((nid, nk) :: t.labels))
    (hpos : pos (pp ++ [d]) = n + 1) :
    Complete (t.attachNew pp nid nk) (n + 1) ∧
    (t.attachNew pp nid nk).ids.Nodup ∧
    (t.attachNew pp nid nk).idAt? (binPath (n + 1)) = some nid ∧
    (t.attachNew pp nid nk).findPath? nid = some (pp ++ [d]) ∧
    SiftUpInv (t.attachNew pp nid nk) (pp ++ [d]) := by
  have hbp : binPath (n + 1) = pp ++ [d] := by
    rw [← hpos, binPath_pos]
  have hC' : Complete (t.attachNew pp nid nk) (n + 1) := by
    intro q
    rw [Tree.hasPath_eq, hlab q]
    by_cases hq : q = pp ++ [d]
    · rw [if_pos hq, hq, hpos]
      simp
    · rw [if_neg hq, ← Tree.hasPath_eq]
      constructor
      · intro h
        have := (hC q).mp h
        omega
      · intro h
        refine (hC q).mpr ?_
        by_cases hle : pos q ≤ n
        · exact hle
        · exfalso
          have hqn : pos q = n + 1 := by omega
          exact hq (pos_inj (by rw [hqn, hpos]))
  have hnd' : (t.attachNew pp nid nk).ids.Nodup := by
    refine (List.Perm.nodup_iff (hperm.map Prod.fst)).mpr ?_
    refine List.nodup_cons.mpr ⟨hfresh, hnd⟩
  have hidAt : (t.attachNew pp nid nk).idAt? (binPath (n + 1)) = some nid := by
    rw [hbp, Tree.idAt?_eq, hlab, if_pos rfl]
    rfl
  refine ⟨hC', hnd', hidAt, Tree.findPath?_eq hnd' (by rw [← hbp]; exact hidAt), ?_, ?_⟩
  · intro q e hne a b ha hb
    rw [hlab] at ha hb
    rw [if_neg hne] at hb
    by_cases hq : q = pp ++ [d]
    · exfalso
      have hgt : n < pos (q ++ [e]) := by
        rw [pos_append_single, hq, hpos]
        cases e <;> simp <;> omega
      rw [labelAt?_none_of_pos_gt hC hgt] at hb
      exact absurd hb (by simp)
    · rw [if_neg hq] at ha
      exact hord q e a b ha hb
  · intro d2 a b _ hb
    rw [hlab] at hb
    rw [if_neg (by simp)] at hb
    exfalso
    have hgt : n < pos ((pp ++ [d]) ++ [d2]) := by
      rw [pos_append_single, hpos]
      cases d2 <;> simp <;> omega
    rw [labelAt?_none_of_pos_gt hC hgt] at hb
    exact absurd hb (by simp)

end Olsrd

namespace Olsrd

/-- `heap_insert` of a fresh node preserves well-formedness, increments the
count and adds exactly the node's label. -/
theorem insert_WF {heap : BinHeap} (hWF : WF heap) (n0 : HeapNodeRec)
    (hfresh : heap.root_node.containsId n0.id = false) :
    WF (heap_insert heap n0) ∧
    (heap_insert heap n0).count = heap.count + 1 ∧
    (heap_insert heap n0).root_node.labels.Perm
      ((n0.id, n0.key) :: heap.root_node.labels) := by
  have hfresh' : n0.id ∉ heap.root_node.ids := by
    intro hc
    rw [← Tree.containsId_iff_mem, hfresh] at hc
    exact absurd hc (by simp)
  by_cases h0 : heap.count = 0
  · have htnil : heap.root_node = Tree.nil :=
      Complete_zero_nil (h0 ▸ hWF.complete)
    have hins : heap_insert heap n0 =
        { count := heap.count + 1,
          root_node := Tree.node n0.id n0.key Tree.nil Tree.nil,
          last_node := some n0.id } := by
      simp only [heap_insert, if_pos h0, heap_init_node]
    rw [hins]
    refine ⟨⟨?_, ?_, ?_, ?_⟩, rfl, ?_⟩
    · intro q
      cases q with
      | nil =>
        rw [Tree.hasPath_node_nilq]
        have h1 : pos ([] : List Bool) = 1 := rfl
        simp [h1]
      | cons e q =>
        have hfalse : (Tree.node n0.id n0.key Tree.nil Tree.nil).hasPath (e :: q)
            = false := by
          cases e
          · rw [Tree.hasPath_cons_false, Tree.hasPath_eq, Tree.labelAt?_nil_tree]
            rfl
          · rw [Tree.hasPath_cons_true, Tree.hasPath_eq, Tree.labelAt?_nil_tree]
            rfl
        rw [hfalse]
        have hb := (pos_bounds (e :: q)).1
        have h2 : 2 ≤ 2 ^ (e :: q).length := by
          calc (2 : Nat) = 2 ^ 1 := by norm_num
          _ ≤ 2 ^ (e :: q).length := Nat.pow_le_pow_right (by omega) (by simp)
        constructor
        · intro hc
          exact absurd hc (by simp)
        · intro hc
          exfalso
          have hcc : pos (e :: q) ≤ heap.count + 1 := hc
          omega
    · refine (HeapOrd_iff_R _).mpr ?_
      rw [HeapOrdR_node]
      exact ⟨trivial, trivial, trivial, trivial⟩
    · rw [h0]
      rfl
    · simp [Tree.ids, Tree.labels]
    · rw [htnil, Tree.labels_node, Tree.labels_nil]
      simp
  · have h1le : 1 ≤ heap.count := by omega
    rcases find_parent_correct hWF h1le with ⟨pp, hfp, hppos, hpphas⟩
    rcases Tree.hasPath_node_form hpphas with ⟨i, k, l, r, hsub⟩
    have hsubL : heap.root_node.sub (pp ++ [false]) = l := by
      rw [Tree.sub_append, hsub, Tree.sub_cons_false, Tree.sub_nil_path]
    have hsubR : heap.root_node.sub (pp ++ [true]) = r := by
      rw [Tree.sub_append, hsub, Tree.sub_cons_true, Tree.sub_nil_path]
    by_cases hpar : (heap.count + 1) % 2 = 0
    · have hposL : pos (pp ++ [false]) = heap.count + 1 := by
        rw [pos_append_single, hppos]
        simp only [Bool.cond_false, Nat.add_zero]
        omega
      have hlnil : l = Tree.nil := by
        cases l with
        | nil => rfl
        | node li lk a b =>
          exfalso
          have hhp : heap.root_node.hasPath (pp ++ [false]) = true := by
            rw [Tree.hasPath, Tree.idAt?, hsubL]
            rfl
          have hple := (hWF.complete _).mp hhp
          omega
      rw [hlnil] at hsub
      have hlab := @Tree.labelAt?_attachNew_left heap.root_node pp n0.id n0.key
        i k r hpphas hsub
      have hpermA := @Tree.labels_attachNew_left heap.root_node pp n0.id n0.key
        i k r hpphas hsub
      rcases attach_step hWF.complete hWF.nodup hWF.ord hfresh' hlab hpermA hposL
        with ⟨hC', hnd', hidAt', hfind', hinv'⟩
      have hins : heap_insert heap n0 = heap_decrease_key
          { count := heap.count + 1,
            root_node := heap.root_node.attachNew pp n0.id n0.key,
            last_node := some n0.id } n0.id := by
        simp only [heap_insert, if_neg h0, hfp, heap_init_node]
      rw [hins]
      rcases @decrease_key_spec
        { count := heap.count + 1,
          root_node := heap.root_node.attachNew pp n0.id n0.key,
          last_node := some n0.id } n0.id pp false
        hC' hidAt'.symm hnd' hfind' hinv' with ⟨hW2, hc2, hp2⟩
      exact ⟨hW2, hc2, hp2.trans hpermA⟩
    · have hposR : pos (pp ++ [true]) = heap.count + 1 := by
        rw [pos_append_single, hppos]
        simp only [Bool.cond_true]
        omega
      have hposL2 : pos (pp ++ [false]) = heap.count := by
        rw [pos_append_single, hppos]
        simp only [Bool.cond_false, Nat.add_zero]
        omega
      have hhpL : heap.root_node.hasPath (pp ++ [false]) = true := by
        refine (hWF.complete _).mpr ?_
        rw [hposL2]
      have hrnil : r = Tree.nil := by
        cases r with
        | nil => rfl
        | node ri rk c d2 =>
          exfalso
          have hhp : heap.root_node.hasPath (pp ++ [true]) = true := by
            rw [Tree.hasPath, Tree.idAt?, hsubR]
            rfl
          have hple := (hWF.complete _).mp hhp
          omega
      have hlnode : ∃ li lk a b, l = Tree.node li lk a b := by
        cases l with
        | nil =>
          exfalso
          rw [Tree.hasPath, Tree.idAt?, hsubL] at hhpL
          simp [Tree.rootId?] at hhpL
        | node li lk a b => exact ⟨li, lk, a, b, rfl⟩
      rcases hlnode with ⟨li, lk, a, b, hl⟩
      rw [hl, hrnil] at hsub
      have hlab := @Tree.labelAt?_attachNew_right heap.root_node pp n0.id n0.key
        i k li lk a b hpphas hsub
      have hpermA := @Tree.labels_attachNew_right heap.root_node pp n0.id n0.key
        i k li lk a b hpphas hsub
      rcases attach_step hWF.complete hWF.nodup hWF.ord hfresh' hlab hpermA hposR
        with ⟨hC', hnd', hidAt', hfind', hinv'⟩
      have hins : heap_insert heap n0 = heap_decrease_key
          { count := heap.count + 1,
            root_node := heap.root_node.attachNew pp n0.id n0.key,
            last_node := some n0.id } n0.id := by
        simp only [heap_insert, if_neg h0, hfp, heap_init_node]
      rw [hins]
      rcases @decrease_key_spec
        { count := heap.count + 1,
          root_node := heap.root_node.attachNew pp n0.id n0.key,
          last_node := some n0.id } n0.id pp true
        hC' hidAt'.symm hnd' hfind' hinv' with ⟨hW2, hc2, hp2⟩
      exact ⟨hW2, hc2, hp2.trans hpermA⟩

end Olsrd

namespace Olsrd

/-- Correctness of `heap_find_last_node` on the intermediate state built by
`heap_extract_min` after detaching a last node that was a left child: with
`count` already decremented to `c - 1` (for the original even count `c`) and
`last_node` pointing at the detached node's parent (position `c / 2`), the
navigator returns the id at position `c - 1`. -/
theorem find_last_correct {h1 : BinHeap} {c : Nat}
    (hcnt : h1.count = c - 1) (hc4 : 4 ≤ c) (hce : c % 2 = 0)
    (hC : Complete h1.root_node (c - 1))
    (hnd : h1.root_node.ids.Nodup)
    (hlast : h1.last_node = h1.root_node.idAt? (binPath (c / 2))) :
    heap_find_last_node h1 = h1.root_node.idAt? (binPath (c - 1)) := by
  have hN : h1.count + 1 = c := by omega
  have hroot : h1.root_node.hasPath [] = true := by
    rw [hC]
    have h1p : pos ([] : List Bool) = 1 := rfl
    omega
  by_cases hperf : heap_perfect_log2 (h1.count + 1) = 0
  · have hperf2 : heap_perfect_log2 c = 0 := by rw [hN] at hperf; exact hperf
    rcases (heap_perfect_log2_iff (show 1 ≤ c by omega)).mp hperf2 with ⟨e, he⟩
    have he2 : 2 ≤ e := by
      by_contra hcon
      interval_cases e <;> omega
    rcases rightDescent_spec hC hroot with ⟨j, hj1, hj2, hj3⟩
    have h1p : pos ([] : List Bool) = 1 := rfl
    rw [h1p, Nat.one_mul] at hj1 hj2 hj3
    have hP1 : 1 ≤ (2 : Nat) ^ j := Nat.one_le_two_pow
    have hje : j + 1 = e := by
      have hup : e ≥ j + 1 := by
        by_contra hcon
        have hle : (2 : Nat) ^ e ≤ 2 ^ j := Nat.pow_le_pow_right (by omega) (by omega)
        omega
      have hdn : e ≤ j + 1 := by
        by_contra hcon
        have hle : (2 : Nat) ^ (j + 2) ≤ 2 ^ e := Nat.pow_le_pow_right (by omega) (by omega)
        have hx : (2 : Nat) ^ (j + 2) = 2 ^ j * 4 := by
          rw [pow_succ, pow_succ]
          ring
        omega
      omega
    have hpose : pos ([] ++ (h1.root_node.sub []).rightDescent) = c - 1 := by
      rw [hj1]
      have hx : (2 : Nat) ^ e = 2 ^ j * 2 := by
        rw [← hje, pow_succ]
      omega
    have hpath : ([] : List Bool) ++ (h1.root_node.sub []).rightDescent
        = binPath (c - 1) := by
      rw [← hpose, binPath_pos]
    rw [List.nil_append, Tree.sub_nil_path] at hpath
    simp only [heap_find_last_node, if_pos hperf, hpath]
  · have hcpos : 1 ≤ c / 2 := by omega
    have hhalf : c / 2 ≤ c - 1 := by omega
    have hhasH : h1.root_node.hasPath (binPath (c / 2)) = true := by
      rw [hC, pos_binPath hcpos]
      exact hhalf
    have hlid : ∃ lid, h1.root_node.idAt? (binPath (c / 2)) = some lid := by
      rw [Tree.hasPath] at hhasH
      cases hx : h1.root_node.idAt? (binPath (c / 2)) with
      | none => rw [hx] at hhasH; exact absurd hhasH (by simp)
      | some lid => exact ⟨lid, rfl⟩
    rcases hlid with ⟨lid, hlid⟩
    have hlast2 : h1.last_node = some lid := by rw [hlast, hlid]
    have hfind : h1.root_node.findPath? lid = some (binPath (c / 2)) :=
      Tree.findPath?_eq hnd hlid
    have hstrip : stripTrail false (binPath (c / 2)) = binPath (oddDown (c / 2)) :=
      strip_false_binPath (c / 2) hcpos
    rcases oddDown_spec (c / 2) hcpos with ⟨s, hs1, hs2, hs3, hs4⟩
    have hm3 : 3 ≤ oddDown (c / 2) := by
      rcases Nat.lt_or_ge (oddDown (c / 2)) 3 with hlt | hge
      · exfalso
        have hm1 : oddDown (c / 2) = 1 := by omega
        rw [hm1, Nat.one_mul] at hs1
        refine hperf ?_
        rw [hN]
        refine (heap_perfect_log2_iff (by omega)).mpr ⟨s + 1, ?_⟩
        rw [pow_succ]
        omega
      · exact hge
    have hdec : binPath (oddDown (c / 2)) =
        binPath (oddDown (c / 2) / 2) ++ [true] := binPath_odd (by omega) hs2
    have hm2pos : 1 ≤ oddDown (c / 2) / 2 := by omega
    have hq : pos (binPath (oddDown (c / 2) / 2) ++ [false]) =
        oddDown (c / 2) - 1 := by
      rw [pos_append_single, pos_binPath hm2pos]
      simp only [Bool.cond_false, Nat.add_zero]
      omega
    have hc1 : c = oddDown (c / 2) * 2 ^ (s + 1) := by
      rw [pow_succ, ← Nat.mul_assoc]
      omega
    have hmle : oddDown (c / 2) ≤ c / 2 := hs4
    have hqpath : h1.root_node.hasPath
        (binPath (oddDown (c / 2) / 2) ++ [false]) = true := by
      rw [hC, hq]
      omega
    rcases rightDescent_spec hC hqpath with ⟨j, hj1, hj2, hj3⟩
    rw [hq] at hj1 hj2 hj3
    have hM : oddDown (c / 2) * 2 ^ j = (oddDown (c / 2) - 1) * 2 ^ j + 2 ^ j := by
      have hsm : ((oddDown (c / 2) - 1) + 1) * 2 ^ j =
          (oddDown (c / 2) - 1) * 2 ^ j + 2 ^ j := Nat.succ_mul _ _
      have hm1 : (oddDown (c / 2) - 1) + 1 = oddDown (c / 2) := by omega
      rw [hm1] at hsm
      exact hsm
    have hP1 : 1 ≤ (2 : Nat) ^ j := Nat.one_le_two_pow
    have hje : j = s + 1 := by
      have hup : j ≤ s + 1 := by
        by_contra hcon
        have hle : (2 : Nat) ^ (s + 2) ≤ 2 ^ j := Nat.pow_le_pow_right (by omega) (by omega)
        have hmul : oddDown (c / 2) * 2 ^ (s + 2) ≤ oddDown (c / 2) * 2 ^ j :=
          Nat.mul_le_mul_left _ hle
        have hbr : oddDown (c / 2) * 2 ^ (s + 2) =
            oddDown (c / 2) * 2 ^ (s + 1) * 2 := by
          rw [pow_succ, Nat.mul_assoc]
        omega
      have hdn : s + 1 ≤ j := by
        by_contra hcon
        have hle : (2 : Nat) ^ j ≤ 2 ^ s := Nat.pow_le_pow_right (by omega) (by omega)
        have hmul : oddDown (c / 2) * 2 ^ j ≤ oddDown (c / 2) * 2 ^ s :=
          Nat.mul_le_mul_left _ hle
        omega
      omega
    rw [hje] at hj1 hM
    have hpose : pos ((binPath (oddDown (c / 2) / 2) ++ [false]) ++
        (h1.root_node.sub (binPath (oddDown (c / 2) / 2) ++ [false])).rightDescent)
        = c - 1 := by
      rw [hj1]
      have hP2 : 1 ≤ (2 : Nat) ^ (s + 1) := Nat.one_le_two_pow
      omega
    have hpath : (binPath (oddDown (c / 2) / 2) ++ [false]) ++
        (h1.root_node.sub (binPath (oddDown (c / 2) / 2) ++ [false])).rightDescent
        = binPath (c - 1) := by
      rw [← hpose, binPath_pos]
    simp only [heap_find_last_node, if_neg hperf,
      if_pos (show (h1.count + 1) % 2 = 0 by omega), hlast2, hfind, hstrip, hdec]
    rw [List.reverse_append]
    simp only [List.reverse_cons, List.reverse_nil, List.nil_append,
      List.cons_append, List.reverse_reverse]
    rw [hpath]

end Olsrd

namespace Olsrd

theorem child_nil_of_complete {t : Tree} {c : Nat} (hC : Complete t c)
    (q : List Bool) (hgt : c < pos q) : t.sub q = Tree.nil := by
  cases hs : t.sub q with
  | nil => rfl
  | node i k l r =>
    exfalso
    have hhp : t.hasPath q = true := by
      rw [Tree.hasPath, Tree.idAt?, hs]
      rfl
    have := (hC q).mp hhp
    omega

/-- The node at the maximal occupied position is a leaf. -/
theorem last_leaf {t : Tree} {c : Nat} (hC : Complete t c) (hc : 1 ≤ c) :
    ∃ x y, t.sub (binPath c) = Tree.node x y Tree.nil Tree.nil := by
  have hhp : t.hasPath (binPath c) = true := by
    rw [hC, pos_binPath hc]
  rcases Tree.hasPath_node_form hhp with ⟨x, y, l, r, hs⟩
  have hposc : pos (binPath c) = c := pos_binPath hc
  have hl : l = Tree.nil := by
    have hsl : t.sub (binPath c ++ [false]) = l := by
      rw [Tree.sub_append, hs, Tree.sub_cons_false, Tree.sub_nil_path]
    rw [← hsl]
    refine child_nil_of_complete hC _ ?_
    rw [pos_append_single, hposc]
    simp only [Bool.cond_false, Nat.add_zero]
    omega
  have hr : r = Tree.nil := by
    have hsr : t.sub (binPath c ++ [true]) = r := by
      rw [Tree.sub_append, hs, Tree.sub_cons_true, Tree.sub_nil_path]
    rw [← hsr]
    refine child_nil_of_complete hC _ ?_
    rw [pos_append_single, hposc]
    simp only [Bool.cond_true]
    omega
  rw [hl, hr] at hs
  exact ⟨x, y, hs⟩

/-- A tree whose labels are everywhere either absent or equal to those of an
ordered tree is itself ordered. -/
theorem HeapOrd_sub_labels {t t1 : Tree}
    (h : ∀ q, t1.labelAt? q = none ∨ t1.labelAt? q = t.labelAt? q)
    (hord : HeapOrd t) : HeapOrd t1 := by
  intro q e a b ha hb
  rcases h q with h1 | h1
  · rw [h1] at ha
    exact absurd ha (by simp)
  · rcases h (q ++ [e]) with h2 | h2
    · rw [h2] at hb
      exact absurd hb (by simp)
    · rw [h1] at ha
      rw [h2] at hb
      exact hord q e a b ha hb

/-- Removing the subtree rooted at the last position yields a complete tree
of one fewer node. -/
theorem detach_complete {t : Tree} {c : Nat} (hC : Complete t c) (hc : 1 ≤ c)
    {t1 : Tree}
    (hlab : ∀ q, t1.labelAt? q =
      if binPath c <+: q then none else t.labelAt? q) :
    Complete t1 (c - 1) := by
  intro q
  rw [Tree.hasPath_eq, hlab]
  by_cases hpre : binPath c <+: q
  · rw [if_pos hpre]
    have hge : c ≤ pos q := by
      by_cases heq : binPath c = q
      · rw [← heq, pos_binPath hc]
      · have := pos_lt_of_proper_prefix hpre heq
        rw [pos_binPath hc] at this
        omega
    constructor
    · intro hcon
      exact absurd hcon (by simp)
    · intro hcon
      exfalso
      omega
  · rw [if_neg hpre, ← Tree.hasPath_eq]
    rw [hC q]
    constructor
    · intro h
      by_cases heq : pos q = c
      · exfalso
        refine hpre ?_
        have : q = binPath c := by
          rw [← heq, binPath_pos]
        rw [this]
      · omega
    · intro h
      omega

/-- The core of the general `heap_extract_min` branch: the last node's label
takes over the root slot and is sifted down; all heap invariants hold of the
result, whose `last_node` value is the id at position `c - 1`. -/
theorem promote_core {c : Nat} {lid lkeyv rid rkey : Nat} {A B : Tree}
    (hc3 : 3 ≤ c)
    (hC1 : Complete (Tree.node rid rkey A B) (c - 1))
    (hord1 : HeapOrd (Tree.node rid rkey A B))
    (hnd1 : (Tree.node rid rkey A B).ids.Nodup)
    (hlidout : lid ∉ (Tree.node rid rkey A B).ids) :
    Complete (heap_increse_key (Tree.node lid lkeyv A B)
      ((Tree.node rid rkey A B).idAt? (binPath (c - 1)))).1 (c - 1) ∧
    HeapOrd (heap_increse_key (Tree.node lid lkeyv A B)
      ((Tree.node rid rkey A B).idAt? (binPath (c - 1)))).1 ∧
    (heap_increse_key (Tree.node lid lkeyv A B)
      ((Tree.node rid rkey A B).idAt? (binPath (c - 1)))).2 =
      (heap_increse_key (Tree.node lid lkeyv A B)
        ((Tree.node rid rkey A B).idAt? (binPath (c - 1)))).1.idAt?
        (binPath (c - 1)) ∧
    (heap_increse_key (Tree.node lid lkeyv A B)
      ((Tree.node rid rkey A B).idAt? (binPath (c - 1)))).1.ids.Nodup ∧
    (heap_increse_key (Tree.node lid lkeyv A B)
      ((Tree.node rid rkey A B).idAt? (binPath (c - 1)))).1.labels.Perm
      ((lid, lkeyv) :: (A.labels ++ B.labels)) := by
  have hc1 : 2 ≤ c - 1 := by omega
  have hlab2 : ∀ q, (Tree.node lid lkeyv A B).labelAt? q =
      if q = [] then some (lid, lkeyv)
      else (Tree.node rid rkey A B).labelAt? q := by
    intro q
    cases q with
    | nil => rw [if_pos rfl, Tree.labelAt?_node_nil]
    | cons e q =>
      rw [if_neg (by simp)]
      cases e
      · rw [Tree.labelAt?_cons_false, Tree.labelAt?_cons_false]
      · rw [Tree.labelAt?_cons_true, Tree.labelAt?_cons_true]
  have hC2 : Complete (Tree.node lid lkeyv A B) (c - 1) := by
    intro q
    cases q with
    | nil =>
      rw [Tree.hasPath_node_nilq]
      have h1p : pos ([] : List Bool) = 1 := rfl
      constructor
      · intro _
        omega
      · intro _
        rfl
    | cons e q =>
      cases e
      · rw [Tree.hasPath_cons_false, ← Tree.hasPath_cons_false rid rkey A B,
          hC1 (false :: q)]
      · rw [Tree.hasPath_cons_true, ← Tree.hasPath_cons_true rid rkey A B,
          hC1 (true :: q)]
  have hnd2 : (Tree.node lid lkeyv A B).ids.Nodup := by
    rw [Tree.ids_node] at hnd1 hlidout ⊢
    have h1 := List.nodup_cons.mp hnd1
    refine List.nodup_cons.mpr ⟨?_, h1.2⟩
    intro hc
    exact hlidout (List.mem_cons_of_mem _ hc)
  have hAlm : AlmostOrd (Tree.node lid lkeyv A B) := by
    have hR := (HeapOrd_iff_R _).mp hord1
    rw [HeapOrdR_node] at hR
    exact ⟨hR.2.2.1, hR.2.2.2⟩
  have hbne : binPath (c - 1) ≠ [] := by
    intro hcon
    have := pos_binPath (show 1 ≤ c - 1 by omega)
    rw [hcon] at this
    have h1p : pos ([] : List Bool) = 1 := rfl
    omega
  have hhp1 : (Tree.node rid rkey A B).hasPath (binPath (c - 1)) = true := by
    rw [hC1, pos_binPath (show 1 ≤ c - 1 by omega)]
  have hj2 : ∃ j2, (Tree.node rid rkey A B).idAt? (binPath (c - 1)) = some j2 := by
    rw [Tree.hasPath] at hhp1
    cases hx : (Tree.node rid rkey A B).idAt? (binPath (c - 1)) with
    | none => rw [hx] at hhp1; exact absurd hhp1 (by simp)
    | some j2 => exact ⟨j2, rfl⟩
  rcases hj2 with ⟨j2, hj2⟩
  have hidt2 : (Tree.node lid lkeyv A B).idAt? (binPath (c - 1)) = some j2 := by
    rw [Tree.idAt?_eq, hlab2, if_neg hbne, ← Tree.idAt?_eq]
    exact hj2
  have hTI : TrackInv (Tree.node lid lkeyv A B) (some j2) := by
    intro j q hj hq
    injection hj with hj
    subst hj
    have hqe : q = binPath (c - 1) := Tree.idAt?_inj hnd2 hq hidt2
    subst hqe
    rcases last_leaf hC2 (show 1 ≤ c - 1 by omega) with ⟨x, y, hxy⟩
    exact ⟨x, y, hxy⟩
  have hTR := increse_track (Tree.node lid lkeyv A B) (some j2) hnd2 hTI
  have hlastres := hTR.1 j2 (binPath (c - 1)) rfl hidt2
  rw [hj2]
  refine ⟨?_, ?_, ?_, ?_, ?_⟩
  · intro q
    rw [increse_hasPath]
    exact hC2 q
  · exact (HeapOrd_iff_R _).mpr (increse_ord _ _ hAlm)
  · exact hlastres
  · exact (List.Perm.nodup_iff
      ((increse_labels_perm (Tree.node lid lkeyv A B) (some j2)).map Prod.fst)).mpr
      hnd2
  · have := increse_labels_perm (Tree.node lid lkeyv A B) (some j2)
    rw [Tree.labels_node] at this
    exact this

end Olsrd

namespace Olsrd

theorem Complete_singleton (i k : Nat) :
    Complete (Tree.node i k Tree.nil Tree.nil) 1 := by
  intro q
  cases q with
  | nil =>
    rw [Tree.hasPath_node_nilq]
    have h1p : pos ([] : List Bool) = 1 := rfl
    simp [h1p]
  | cons e q =>
    have hfalse : (Tree.node i k Tree.nil Tree.nil).hasPath (e :: q) = false := by
      cases e
      · rw [Tree.hasPath_cons_false, Tree.hasPath_eq, Tree.labelAt?_nil_tree]
        rfl
      · rw [Tree.hasPath_cons_true, Tree.hasPath_eq, Tree.labelAt?_nil_tree]
        rfl
    rw [hfalse]
    have hb := (pos_bounds (e :: q)).1
    have h2 : 2 ≤ 2 ^ (e :: q).length := by
      calc (2 : Nat) = 2 ^ 1 := by norm_num
      _ ≤ 2 ^ (e :: q).length := Nat.pow_le_pow_right (by omega) (by simp)
    constructor
    · intro hc
      exact absurd hc (by simp)
    · intro hc
      exfalso
      omega

theorem HeapOrd_singleton (i k : Nat) :
    HeapOrd (Tree.node i k Tree.nil Tree.nil) := by
  refine (HeapOrd_iff_R _).mpr ?_
  rw [HeapOrdR_node]
  exact ⟨trivial, trivial, trivial, trivial⟩

/-- `heap_extract_min` on a nonempty well-formed heap: the result is
well-formed, the count drops by one, and the returned record carries the
root's label (with all links cleared), which is removed from the heap. -/
theorem extract_WF {heap : BinHeap} (hWF : WF heap) (hpos : 1 ≤ heap.count) :
    WF (heap_extract_min heap).2 ∧
    (heap_extract_min heap).2.count = heap.count - 1 ∧
    ∃ rid rkey,
      (heap_extract_min heap).1 =
        some { id := rid, key := rkey, parent := none, left := none,
               right := none } ∧
      heap.root_node.labelAt? [] = some (rid, rkey) ∧
      heap.root_node.labels.Perm
        ((rid, rkey) :: (heap_extract_min heap).2.root_node.labels) := by
  have hshape : ∃ rid rkey L R, heap.root_node = Tree.node rid rkey L R := by
    have hhp : heap.root_node.hasPath [] = true := by
      rw [hWF.complete]
      have h1p : pos ([] : List Bool) = 1 := rfl
      omega
    rcases Tree.hasPath_node_form hhp with ⟨rid, rkey, L, R, hs⟩
    rw [Tree.sub_nil_path] at hs
    exact ⟨rid, rkey, L, R, hs⟩
  rcases hshape with ⟨rid, rkey, L, R, hroot⟩
  have hC : Complete (Tree.node rid rkey L R) heap.count := by
    rw [← hroot]
    exact hWF.complete
  have hord : HeapOrd (Tree.node rid rkey L R) := by
    rw [← hroot]
    exact hWF.ord
  have hnd : (Tree.node rid rkey L R).ids.Nodup := by
    rw [← hroot]
    exact hWF.nodup
  rcases WF_last_some hWF hpos with ⟨lid, hlast2, hlidid, hfind⟩
  rw [hroot] at hlidid hfind
  rcases last_leaf hC hpos with ⟨lx, lkeyv, hsubleaf⟩
  have hlx : lx = lid := by
    have hx : (Tree.node rid rkey L R).idAt? (binPath heap.count) = some lx := by
      rw [Tree.idAt?, hsubleaf]
      rfl
    rw [hlidid] at hx
    injection hx with hx
    exact hx.symm
  rw [hlx] at hsubleaf
  have hkeyp : (Tree.node rid rkey L R).keyAt? (binPath heap.count)
      = some lkeyv := by
    rw [Tree.keyAt?, hsubleaf]
    rfl
  by_cases hc1 : heap.count = 1
  · have hL : L = Tree.nil := by
      have hsl : (Tree.node rid rkey L R).sub [false] = L := by
        rw [Tree.sub_cons_false, Tree.sub_nil_path]
      rw [← hsl]
      refine child_nil_of_complete hC [false] ?_
      have h2p : pos [false] = 2 := rfl
      omega
    have hR : R = Tree.nil := by
      have hsr : (Tree.node rid rkey L R).sub [true] = R := by
        rw [Tree.sub_cons_true, Tree.sub_nil_path]
      rw [← hsr]
      refine child_nil_of_complete hC [true] ?_
      have h3p : pos [true] = 3 := rfl
      omega
    have hext : heap_extract_min heap =
        (some { id := rid, key := rkey, parent := none, left := none,
                right := none },
         { count := 0, root_node := Tree.nil, last_node := none }) := by
      simp only [heap_extract_min, hroot, hc1, if_true]
    rw [hext, hroot]
    have hnilpath : ∀ q : List Bool, Tree.nil.hasPath q = false := by
      intro q
      rw [Tree.hasPath_eq, Tree.labelAt?_nil_tree]
      rfl
    refine ⟨⟨?_, HeapOrd_nil, ?_, ?_⟩, ?_, rid, rkey, rfl, rfl, ?_⟩
    · intro q
      rw [hnilpath q]
      have := pos_pos q
      constructor
      · intro hc
        exact absurd hc (by simp)
      · intro hc
        exfalso
        have hcc : pos q ≤ 0 := hc
        omega
    · rw [Tree.idAt?, Tree.sub_nil_tree]
      rfl
    · simp [Tree.ids, Tree.labels]
    · show (0 : Nat) = heap.count - 1
      omega
    · rw [hL, hR]
      simp only [Tree.labels_node, Tree.labels_nil, List.append_nil,
        List.nil_append]
      exact List.Perm.refl _
  · by_cases hc2 : heap.count = 2
    · have hbp2 : binPath heap.count = [false] := by
        rw [hc2]
        rfl
      have hL : L = Tree.node lid lkeyv Tree.nil Tree.nil := by
        have hsl : (Tree.node rid rkey L R).sub [false] = L := by
          rw [Tree.sub_cons_false, Tree.sub_nil_path]
        rw [← hsl, ← hbp2]
        exact hsubleaf
      have hR : R = Tree.nil := by
        have hsr : (Tree.node rid rkey L R).sub [true] = R := by
          rw [Tree.sub_cons_true, Tree.sub_nil_path]
        rw [← hsr]
        refine child_nil_of_complete hC [true] ?_
        have h3p : pos [true] = 3 := rfl
        omega
      have hext : heap_extract_min heap =
          (some { id := rid, key := rkey, parent := none, left := none,
                  right := none },
           { count := heap.count - 1,
             root_node := (Tree.node rid rkey L R).sub (binPath heap.count),
             last_node := some lid }) := by
        simp only [heap_extract_min, hroot, hlast2, hfind]
        rw [if_neg (show ¬ heap.count - 1 = 0 by omega),
          if_pos (show heap.count - 1 = 1 by omega)]
      rw [hext, hroot, hsubleaf]
      refine ⟨⟨?_, HeapOrd_singleton lid lkeyv, ?_, ?_⟩, rfl, rid, rkey, rfl,
        rfl, ?_⟩
      · rw [show heap.count - 1 = 1 by omega]
        exact Complete_singleton lid lkeyv
      · rw [show heap.count - 1 = 1 by omega]
        rfl
      · simp [Tree.ids, Tree.labels]
      · rw [hL, hR]
        simp only [Tree.labels_node, Tree.labels_nil, List.append_nil,
          List.nil_append]
        exact List.Perm.refl _
    · have hc3 : 3 ≤ heap.count := by omega
      have hpne : binPath heap.count ≠ [] := by
        intro hcon
        have := pos_binPath hpos
        rw [hcon] at this
        have h1p : pos ([] : List Bool) = 1 := rfl
        omega
      have hhalfpos : 1 ≤ heap.count / 2 := by omega
      have hhaspp : (Tree.node rid rkey L R).hasPath (binPath (heap.count / 2))
          = true := by
        rw [hC, pos_binPath hhalfpos]
        omega
      rcases Tree.hasPath_node_form hhaspp with ⟨pi, pk2, pl, pr, hsubpp⟩
      by_cases hpar : heap.count % 2 = 0
      · -- the detached last node was a left child
        have hbpc : binPath heap.count =
            binPath (heap.count / 2) ++ [false] := binPath_even (by omega) hpar
        have hgetlast : (binPath heap.count).getLast? = some false := by
          rw [hbpc]
          simp
        have hdrop : (binPath heap.count).dropLast = binPath (heap.count / 2) := by
          rw [hbpc]
          simp
        have hleafside : pl = Tree.node lid lkeyv Tree.nil Tree.nil := by
          have hx : (Tree.node rid rkey L R).sub
              (binPath (heap.count / 2) ++ [false]) = pl := by
            rw [Tree.sub_append, hsubpp, Tree.sub_cons_false, Tree.sub_nil_path]
          rw [← hx, ← hbpc]
          exact hsubleaf
        have hleafside2 : (if false then pr else pl)
            = Tree.node lid lkeyv Tree.nil Tree.nil := by
          rw [if_neg (by simp)]
          exact hleafside
        have hlab1 : ∀ q,
            ((Tree.node rid rkey L R).setChildNil
              (binPath (heap.count / 2)) false).labelAt? q =
            if binPath heap.count <+: q then none
            else (Tree.node rid rkey L R).labelAt? q := by
          intro q
          rw [hbpc]
          exact Tree.labelAt?_setChildNil false hhaspp hsubpp q
        have hC1 := detach_complete hC hpos hlab1
        have hpermD := Tree.labels_setChildNil_leaf false hhaspp hsubpp hleafside2
        have hidsD : (Tree.node rid rkey L R).ids.Perm
            (lid :: ((Tree.node rid rkey L R).setChildNil
              (binPath (heap.count / 2)) false).ids) := by
          have hm := hpermD.map Prod.fst
          rw [List.map_cons] at hm
          exact hm
        have hndc := (List.Perm.nodup_iff hidsD).mp hnd
        have hnd1 := (List.nodup_cons.mp hndc).2
        have hlidout := (List.nodup_cons.mp hndc).1
        have hord1 : HeapOrd ((Tree.node rid rkey L R).setChildNil
            (binPath (heap.count / 2)) false) := by
          refine HeapOrd_sub_labels ?_ hord
          intro q
          rw [hlab1 q]
          by_cases hx : binPath heap.count <+: q
          · rw [if_pos hx]
            exact Or.inl rfl
          · rw [if_neg hx]
            exact Or.inr rfl
        have hl0 : ((Tree.node rid rkey L R).setChildNil
            (binPath (heap.count / 2)) false).labelAt? [] = some (rid, rkey) := by
          rw [hlab1]
          rw [if_neg (by
            intro hcon
            exact hpne (List.prefix_nil.mp hcon))]
          rfl
        have ht1AB : ∃ A B, (Tree.node rid rkey L R).setChildNil
            (binPath (heap.count / 2)) false = Tree.node rid rkey A B := by
          cases ht1 : (Tree.node rid rkey L R).setChildNil
              (binPath (heap.count / 2)) false with
          | nil =>
            rw [ht1, Tree.labelAt?_nil_tree] at hl0
            exact absurd hl0 (by simp)
          | node x y A B =>
            rw [ht1, Tree.labelAt?_node_nil] at hl0
            injection hl0 with hl0
            injection hl0 with hx hy
            exact ⟨A, B, by rw [hx, hy]⟩
        rcases ht1AB with ⟨A, B, ht1AB⟩
        have hppEq : (Tree.node rid rkey L R).idAt? (binPath (heap.count / 2)) =
            ((Tree.node rid rkey L R).setChildNil
              (binPath (heap.count / 2)) false).idAt?
              (binPath (heap.count / 2)) := by
          rw [Tree.idAt?_eq, Tree.idAt?_eq, hlab1]
          rw [if_neg (by
            intro hcon
            have hlen := hcon.length_le
            rw [hbpc] at hlen
            simp at hlen)]
        have hfl := @find_last_correct
          { count := heap.count - 1,
            root_node := (Tree.node rid rkey L R).setChildNil
              (binPath (heap.count / 2)) false,
            last_node := (Tree.node rid rkey L R).idAt?
              (binPath (heap.count / 2)) }
          heap.count rfl (by omega) hpar hC1 hnd1 hppEq
        rw [ht1AB] at hC1 hord1 hnd1 hlidout
        rcases @promote_core heap.count lid lkeyv rid rkey A B hc3 hC1 hord1
          hnd1 hlidout with ⟨hP1, hP2, hP3, hP4, hP5⟩
        simp only [heap_extract_min, hroot, hlast2, hfind]
        rw [if_neg (show ¬ heap.count - 1 = 0 by omega),
          if_neg (show ¬ heap.count - 1 = 1 by omega)]
        simp only [hgetlast]
        simp only [hdrop, hkeyp, Option.getD_some]
        rw [hfl]
        simp only [ht1AB]
        refine ⟨⟨hP1, hP2, hP3, hP4⟩, rfl, rid, rkey, rfl, rfl, ?_⟩
        refine hpermD.trans ?_
        rw [ht1AB, Tree.labels_node]
        refine (List.Perm.swap _ _ _).trans ?_
        exact List.Perm.cons _ hP5.symm
      · -- the detached last node was a right child
        have hpar1 : heap.count % 2 = 1 := by omega
        have hbpc : binPath heap.count =
            binPath (heap.count / 2) ++ [true] := binPath_odd (by omega) hpar1
        have hgetlast : (binPath heap.count).getLast? = some true := by
          rw [hbpc]
          simp
        have hdrop : (binPath heap.count).dropLast = binPath (heap.count / 2) := by
          rw [hbpc]
          simp
        have hleafside : pr = Tree.node lid lkeyv Tree.nil Tree.nil := by
          have hx : (Tree.node rid rkey L R).sub
              (binPath (heap.count / 2) ++ [true]) = pr := by
            rw [Tree.sub_append, hsubpp, Tree.sub_cons_true, Tree.sub_nil_path]
          rw [← hx, ← hbpc]
          exact hsubleaf
        have hleafside2 : (if true then pr else pl)
            = Tree.node lid lkeyv Tree.nil Tree.nil := by
          rw [if_pos rfl]
          exact hleafside
        have hlab1 : ∀ q,
            ((Tree.node rid rkey L R).setChildNil
              (binPath (heap.count / 2)) true).labelAt? q =
            if binPath heap.count <+: q then none
            else (Tree.node rid rkey L R).labelAt? q := by
          intro q
          rw [hbpc]
          exact Tree.labelAt?_setChildNil true hhaspp hsubpp q
        have hC1 := detach_complete hC hpos hlab1
        have hpermD := Tree.labels_setChildNil_leaf true hhaspp hsubpp hleafside2
        have hidsD : (Tree.node rid rkey L R).ids.Perm
            (lid :: ((Tree.node rid rkey L R).setChildNil
              (binPath (heap.count / 2)) true).ids) := by
          have hm := hpermD.map Prod.fst
          rw [List.map_cons] at hm
          exact hm
        have hndc := (List.Perm.nodup_iff hidsD).mp hnd
        have hnd1 := (List.nodup_cons.mp hndc).2
        have hlidout := (List.nodup_cons.mp hndc).1
        have hord1 : HeapOrd ((Tree.node rid rkey L R).setChildNil
            (binPath (heap.count / 2)) true) := by
          refine HeapOrd_sub_labels ?_ hord
          intro q
          rw [hlab1 q]
          by_cases hx : binPath heap.count <+: q
          · rw [if_pos hx]
            exact Or.inl rfl
          · rw [if_neg hx]
            exact Or.inr rfl
        have hl0 : ((Tree.node rid rkey L R).setChildNil
            (binPath (heap.count / 2)) true).labelAt? [] = some (rid, rkey) := by
          rw [hlab1]
          rw [if_neg (by
            intro hcon
            exact hpne (List.prefix_nil.mp hcon))]
          rfl
        have ht1AB : ∃ A B, (Tree.node rid rkey L R).setChildNil
            (binPath (heap.count / 2)) true = Tree.node rid rkey A B := by
          cases ht1 : (Tree.node rid rkey L R).setChildNil
              (binPath (heap.count / 2)) true with
          | nil =>
            rw [ht1, Tree.labelAt?_nil_tree] at hl0
            exact absurd hl0 (by simp)
          | node x y A B =>
            rw [ht1, Tree.labelAt?_node_nil] at hl0
            injection hl0 with hl0
            injection hl0 with hx hy
            exact ⟨A, B, by rw [hx, hy]⟩
        rcases ht1AB with ⟨A, B, ht1AB⟩
        have hppf : binPath (heap.count / 2) ++ [false]
            = binPath (heap.count - 1) := by
          have hhalf : (heap.count - 1) / 2 = heap.count / 2 := by omega
          rw [binPath_even (show 2 ≤ heap.count - 1 by omega)
            (show (heap.count - 1) % 2 = 0 by omega), hhalf]
        rw [ht1AB] at hC1 hord1 hnd1 hlidout
        rcases @promote_core heap.count lid lkeyv rid rkey A B hc3 hC1 hord1
          hnd1 hlidout with ⟨hP1, hP2, hP3, hP4, hP5⟩
        simp only [heap_extract_min, hroot, hlast2, hfind]
        rw [if_neg (show ¬ heap.count - 1 = 0 by omega),
          if_neg (show ¬ heap.count - 1 = 1 by omega)]
        simp only [hgetlast]
        simp only [hdrop, hkeyp, Option.getD_some]
        rw [hppf]
        simp only [ht1AB]
        refine ⟨⟨hP1, hP2, hP3, hP4⟩, rfl, rid, rkey, rfl, rfl, ?_⟩
        refine hpermD.trans ?_
        rw [ht1AB, Tree.labels_node]
        refine (List.Perm.swap _ _ _).trans ?_
        exact List.Perm.cons _ hP5.symm

end Olsrd

namespace Olsrd

/-- The documented decrease-key usage (lower the key in place, then call
`heap_decrease_key`) preserves well-formedness. -/
theorem set_key_decrease_WF {h : BinHeap} (hWF : WF h) (i k : Nat)
    (hpre : decrease_pre h i k = true) :
    WF (heap_decrease_key (heap_set_key h i k) i) := by
  cases hf : h.root_node.findPath? i with
  | none =>
    have hs : heap_set_key h i k = h := by
      simp only [heap_set_key, hf]
    rw [hs]
    have hd : heap_decrease_key h i = h := by
      simp only [heap_decrease_key, hf]
    rw [hd]
    exact hWF
  | some p =>
    have hid : h.root_node.idAt? p = some i := Tree.findPath?_sound hf
    have hhp : h.root_node.hasPath p = true := by
      rw [Tree.hasPath, hid]
      rfl
    rcases Tree.hasPath_node_form hhp with ⟨i0, ok, l0, r0, hsubp⟩
    have hi0 : i0 = i := by
      have hx : h.root_node.idAt? p = some i0 := by
        rw [Tree.idAt?, hsubp]
        rfl
      rw [hid] at hx
      injection hx with hx
      exact hx.symm
    rw [hi0] at hsubp
    have hok : h.root_node.keyAt? p = some ok := by
      rw [Tree.keyAt?, hsubp]
      rfl
    have hlabP : h.root_node.labelAt? p = some (i, ok) := by
      rw [Tree.labelAt?, hsubp]
    have hkle : k ≤ ok := by
      simp only [decrease_pre, hf, hok, Option.getD_some,
        decide_eq_true_eq] at hpre
      exact hpre
    have hlabS := fun q => Tree.labelAt?_setKeyAt hhp hsubp k q
    have hidsS := Tree.ids_setKeyAt hhp hsubp k
    have hsetk : heap_set_key h i k =
        { h with root_node := h.root_node.setKeyAt p k } := by
      simp only [heap_set_key, hf]
    have hCs : Complete (h.root_node.setKeyAt p k) h.count := by
      intro q
      rw [Tree.hasPath_eq, hlabS q]
      by_cases hq : q = p
      · rw [if_pos hq]
        have hle := (hWF.complete q).mp (by rw [hq]; exact hhp)
        constructor
        · intro _
          exact hle
        · intro _
          rfl
      · rw [if_neg hq, ← Tree.hasPath_eq]
        exact hWF.complete q
    have hidS : ∀ q, (h.root_node.setKeyAt p k).idAt? q = h.root_node.idAt? q := by
      intro q
      rw [Tree.idAt?_eq, Tree.idAt?_eq, hlabS q]
      by_cases hq : q = p
      · rw [if_pos hq, hq, hlabP]
        rfl
      · rw [if_neg hq]
    have hndS : (h.root_node.setKeyAt p k).ids.Nodup := by
      rw [hidsS]
      exact hWF.nodup
    have hlastS : h.last_node =
        (h.root_node.setKeyAt p k).idAt? (binPath h.count) := by
      rw [hidS]
      exact hWF.lastv
    have hfindS : (h.root_node.setKeyAt p k).findPath? i = some p :=
      Tree.findPath?_eq hndS (by rw [hidS]; exact hid)
    rcases List.eq_nil_or_concat p with hpnil | ⟨pp, d, hp⟩
    · subst hpnil
      have hd2 : heap_decrease_key (heap_set_key h i k) i
          = heap_set_key h i k := by
        rw [hsetk]
        simp only [heap_decrease_key, hfindS]
      rw [hd2, hsetk]
      refine ⟨hCs, ?_, hlastS, hndS⟩
      intro q e a b ha hb
      rw [hlabS] at ha hb
      rw [if_neg (by simp : ¬ q ++ [e] = ([] : List Bool))] at hb
      by_cases hq : q = ([] : List Bool)
      · rw [if_pos hq] at ha
        injection ha with ha
        have hold := hWF.ord q e (i, ok) b (by rw [hq]; exact hlabP) hb
        rw [← ha]
        exact le_trans hkle hold
      · rw [if_neg hq] at ha
        exact hWF.ord q e a b ha hb
    · rw [List.concat_eq_append] at hp
      subst hp
      have hinv : SiftUpInv (h.root_node.setKeyAt (pp ++ [d]) k) (pp ++ [d]) := by
        refine ⟨?_, ?_⟩
        · intro q e hne a b ha hb
          rw [hlabS] at ha hb
          rw [if_neg hne] at hb
          by_cases hq : q = pp ++ [d]
          · rw [if_pos hq] at ha
            injection ha with ha
            have hold := hWF.ord q e (i, ok) b (by rw [hq]; exact hlabP) hb
            rw [← ha]
            exact le_trans hkle hold
          · rw [if_neg hq] at ha
            exact hWF.ord q e a b ha hb
        · intro d2 a b ha hb
          rw [List.dropLast_concat] at ha
          rw [hlabS] at ha hb
          rw [if_neg (by
            intro hcon
            have := congrArg List.length hcon
            simp at this)] at ha
          rw [if_neg (by simp)] at hb
          have h1 := hWF.ord pp d a (i, ok) ha hlabP
          have h2 := hWF.ord (pp ++ [d]) d2 (i, ok) b hlabP hb
          exact le_trans h1 h2
      rw [hsetk]
      exact (@decrease_key_spec
        { h with root_node := h.root_node.setKeyAt (pp ++ [d]) k }
        i pp d hCs hlastS hndS hfindS hinv).1

end Olsrd

namespace Olsrd

theorem heap_init_WF : WF heap_init := by
  refine ⟨?_, HeapOrd_nil, rfl, ?_⟩
  · show Complete Tree.nil 0
    intro q
    have hfalse : Tree.nil.hasPath q = false := by
      rw [Tree.hasPath_eq, Tree.labelAt?_nil_tree]
      rfl
    rw [hfalse]
    have := pos_pos q
    constructor
    · intro hc
      exact absurd hc (by simp)
    · intro hc
      exfalso
      omega
  · simp [Tree.ids, Tree.labels]

theorem extract_min_empty {h : BinHeap} (hWF : WF h) (hc : h.count = 0) :
    heap_extract_min h = (none, h) := by
  have hnil : h.root_node = Tree.nil := Complete_zero_nil (hc ▸ hWF.complete)
  simp only [heap_extract_min, hnil]

/-- Every API-reachable heap state is well-formed. -/
theorem Reach_WF {h : BinHeap} (hr : Reach h) : WF h := by
  induction hr with
  | init => exact heap_init_WF
  | @insert h0 n _ hfresh ih => exact (insert_WF ih n hfresh).1
  | @decrease h0 i k _ hpre ih => exact set_key_decrease_WF ih i k hpre
  | @extract h0 _ ih =>
    by_cases hc : h0.count = 0
    · rw [extract_min_empty ih hc]
      exact ih
    · exact (extract_WF ih (by omega)).1

/-- The root label's key bounds every queued key. -/
theorem root_min_labels {t : Tree} (hord : HeapOrd t) {ri rk : Nat}
    (hroot : t.labelAt? [] = some (ri, rk)) :
    ∀ x ∈ t.labels, rk ≤ x.2 := by
  intro x hx
  rcases (Tree.mem_labels_iff t x).mp hx with ⟨p, hp⟩
  exact HeapOrd_root_min hord hroot p x hp

theorem buildHeap_go : ∀ (l : List (Nat × Nat)) (h0 : BinHeap), WF h0 →
    (∀ x ∈ l, x.1 ∉ h0.root_node.ids) → (l.map Prod.fst).Nodup →
    WF (l.foldl
      (fun h x => heap_insert h
        { id := x.1, key := x.2, parent := none, left := none, right := none })
      h0) ∧
    (l.foldl
      (fun h x => heap_insert h
        { id := x.1, key := x.2, parent := none, left := none, right := none })
      h0).root_node.labels.Perm (l ++ h0.root_node.labels) := by
  intro l
  induction l with
  | nil =>
    intro h0 hWF _ _
    exact ⟨hWF, by rw [List.foldl_nil, List.nil_append]⟩
  | cons x xs ih =>
    intro h0 hWF hfresh hnd
    rw [List.foldl_cons]
    have hxf : h0.root_node.containsId x.1 = false := by
      cases hcon : h0.root_node.containsId x.1 with
      | false => rfl
      | true =>
        exfalso
        exact hfresh x (List.mem_cons_self x xs)
          ((Tree.containsId_iff_mem _ _).mp hcon)
    rcases insert_WF hWF
      { id := x.1, key := x.2, parent := none, left := none, right := none }
      hxf with ⟨hWF1, _, hperm1⟩
    have hids1 : (heap_insert h0
        { id := x.1, key := x.2, parent := none, left := none,
          right := none }).root_node.ids.Perm (x.1 :: h0.root_node.ids) := by
      have hm := hperm1.map Prod.fst
      rw [List.map_cons] at hm
      exact hm
    rw [List.map_cons] at hnd
    have hnd1 := List.nodup_cons.mp hnd
    have hfresh1 : ∀ y ∈ xs, y.1 ∉ (heap_insert h0
        { id := x.1, key := x.2, parent := none, left := none,
          right := none }).root_node.ids := by
      intro y hy hymem
      have hy2 := hids1.mem_iff.mp hymem
      rcases List.mem_cons.mp hy2 with hy2 | hy2
      · exact hnd1.1 (by rw [← hy2]; exact List.mem_map_of_mem Prod.fst hy)
      · exact hfresh y (List.mem_cons_of_mem x hy) hy2
    rcases ih _ hWF1 hfresh1 hnd1.2 with ⟨hWF2, hperm2⟩
    refine ⟨hWF2, ?_⟩
    refine hperm2.trans ?_
    refine ((List.Perm.append_left xs hperm1).trans ?_)
    rw [List.cons_append]
    exact List.perm_middle
  
theorem buildHeap_WF (l : List (Nat × Nat)) (hnd : (l.map Prod.fst).Nodup) :
    WF (buildHeap l) ∧ (buildHeap l).root_node.labels.Perm l := by
  rcases buildHeap_go l heap_init heap_init_WF
    (by intro x _ hx; simp [Tree.ids, Tree.labels] at hx) hnd with ⟨h1, h2⟩
  refine ⟨h1, ?_⟩
  refine h2.trans ?_
  show (l ++ Tree.nil.labels).Perm l
  rw [Tree.labels_nil, List.append_nil]

end Olsrd

namespace Olsrd

/-- Draining a well-formed heap lists exactly the queued keys, in
non-decreasing order. -/
theorem drain_spec : ∀ (fuel : Nat) (h : BinHeap), WF h → h.count ≤ fuel →
    List.Sorted (· ≤ ·) (drain fuel h) ∧
    (drain fuel h).Perm (h.root_node.labels.map Prod.snd) := by
  intro fuel
  induction fuel with
  | zero =>
    intro h hWF hc
    have h0 : h.count = 0 := by omega
    have hnil : h.root_node = Tree.nil := Complete_zero_nil (h0 ▸ hWF.complete)
    constructor
    · simp [drain]
    · rw [hnil, Tree.labels_nil]
      simp [drain]
  | succ fuel ih =>
    intro h hWF hc
    by_cases h0 : h.count = 0
    · have hnil := Complete_zero_nil (h0 ▸ hWF.complete)
      have hext := extract_min_empty hWF h0
      constructor
      · simp [drain, hext]
      · rw [hnil, Tree.labels_nil]
        simp [drain, hext]
    · cases hE : heap_extract_min h with
      | mk a b =>
        rcases extract_WF hWF (by omega) with
          ⟨hWF2, hcnt2, rid, rkey, hres1, hrootlab, hperm⟩
        rw [hE] at hWF2 hcnt2 hres1 hperm
        have ha : a = some
            { id := rid, key := rkey, parent := none, left := none,
              right := none } :=
          hres1
        subst ha
        have hWFb : WF b := hWF2
        have hcb : b.count ≤ fuel := by
          have : b.count = h.count - 1 := hcnt2
          omega
        have hpermb : h.root_node.labels.Perm
            ((rid, rkey) :: b.root_node.labels) := hperm
        rcases ih b hWFb hcb with ⟨hsor, hper⟩
        have hstep : drain (fuel + 1) h = rkey :: drain fuel b := by
          simp only [drain, hE]
        rw [hstep]
        constructor
        · refine List.sorted_cons.mpr ⟨?_, hsor⟩
          intro y hy
          rcases List.mem_map.mp (hper.mem_iff.mp hy) with ⟨x, hx, hxy⟩
          have hxh : x ∈ h.root_node.labels :=
            hpermb.mem_iff.mpr (List.mem_cons_of_mem _ hx)
          have := root_min_labels hWF.ord hrootlab x hxh
          omega
        · have hm := hpermb.map Prod.snd
          rw [List.map_cons] at hm
          exact (List.Perm.cons _ hper).trans hm.symm

end Olsrd

namespace Olsrd

/-- The sift-up loop terminates within `fuel` iterations once `fuel` covers
the node's depth. -/
theorem decrease_loop_fuel_eq : ∀ (rp : List Bool) (fuel : Nat) (t : Tree),
    rp.length ≤ fuel →
    heap_decrease_key_loop_fuel fuel t rp =
      some (heap_decrease_key_loop t rp) := by
  intro rp
  induction rp with
  | nil =>
    intro fuel t _
    cases fuel with
    | zero =>
      rw [heap_decrease_key_loop_nil]
      rfl
    | succ f =>
      rw [heap_decrease_key_loop_nil]
      rfl
  | cons d rp ih =>
    intro fuel t hlen
    cases fuel with
    | zero => simp at hlen
    | succ f =>
      rw [heap_decrease_key_loop_cons]
      simp only [heap_decrease_key_loop_fuel]
      cases hpk : t.keyAt? rp.reverse with
      | none => simp only [hpk]
      | some pk =>
        cases hnk : t.keyAt? (rp.reverse ++ [d]) with
        | none => simp only [hpk, hnk]
        | some nk =>
          simp only [hpk, hnk]
          by_cases hgt : pk > nk
          · rw [if_pos hgt, if_pos hgt]
            refine ih f _ ?_
            simp at hlen
            omega
          · rw [if_neg hgt, if_neg hgt]

/-- The recursive sift-down terminates within `fuel` calls once `fuel`
exceeds the subtree size. -/
theorem increse_fuel_eq : ∀ (fuel : Nat) (t : Tree) (last : Option Nat),
    t.sizeT < fuel →
    heap_increse_key_fuel fuel t last = some (heap_increse_key t last) := by
  intro fuel
  induction fuel with
  | zero =>
    intro t last h
    exact absurd h (by omega)
  | succ f ih =>
    intro t last hsz
    cases t with
    | nil =>
      rw [increse_nil]
      rfl
    | node i k l r =>
      cases l with
      | node li lk a b =>
        cases r with
        | node ri rk c d =>
          simp only [heap_increse_key_fuel]
          by_cases h1 : k > lk
          · rw [if_pos h1]
            by_cases h2 : k > rk
            · rw [if_pos h2]
              by_cases h3 : lk < rk
              · rw [if_pos h3,
                  increse_swapL_both i k li lk ri rk a b c d last h1 h2 h3,
                  ih (Tree.node i k a b) _ (by
                    simp [Tree.sizeT] at hsz ⊢
                    omega)]
              · rw [if_neg h3,
                  increse_swapR_both i k li lk ri rk a b c d last h1 h2 h3,
                  ih (Tree.node i k c d) _ (by
                    simp [Tree.sizeT] at hsz ⊢
                    omega)]
            · rw [if_neg h2,
                increse_swapL_only i k li lk ri rk a b c d last h1 h2,
                ih (Tree.node i k a b) _ (by
                  simp [Tree.sizeT] at hsz ⊢
                  omega)]
          · rw [if_neg h1]
            by_cases h2 : k > rk
            · rw [if_pos h2,
                increse_swapR_only i k li lk ri rk a b c d last h1 h2,
                ih (Tree.node i k c d) _ (by
                  simp [Tree.sizeT] at hsz ⊢
                  omega)]
            · rw [if_neg h2,
                increse_stay_both i k li lk ri rk a b c d last h1 h2]
        | nil =>
          simp only [heap_increse_key_fuel]
          by_cases h1 : k > lk
          · rw [if_pos h1,
              increse_swapL_nilR i k li lk a b last h1,
              ih (Tree.node i k a b) _ (by
                simp [Tree.sizeT] at hsz ⊢
                omega)]
          · rw [if_neg h1,
              increse_stay_nilR i k li lk a b last h1]
      | nil =>
        cases r with
        | node ri rk c d =>
          simp only [heap_increse_key_fuel]
          by_cases h2 : k > rk
          · rw [if_pos h2,
              increse_swapR_nilL i k ri rk c d last h2,
              ih (Tree.node i k c d) _ (by
                simp [Tree.sizeT] at hsz ⊢
                omega)]
          · rw [if_neg h2,
              increse_stay_nilL i k ri rk c d last h2]
        | nil =>
          rw [increse_leaf]
          rfl

/-- `heap_decrease_key` is the identity when the node is the root. -/
theorem decrease_key_noop_root {h : BinHeap} {i : Nat}
    (hf : h.root_node.findPath? i = some []) :
    heap_decrease_key h i = h := by
  simp only [heap_decrease_key, hf]

/-- `heap_decrease_key` is the identity when the node's parent does not
hold a larger key. -/
theorem decrease_key_noop_ordered {h : BinHeap} {i : Nat} {pp : List Bool}
    {d : Bool} {pk nk : Nat}
    (hf : h.root_node.findPath? i = some (pp ++ [d]))
    (hpk : h.root_node.keyAt? pp = some pk)
    (hnk : h.root_node.keyAt? (pp ++ [d]) = some nk)
    (hle : ¬ pk > nk) :
    heap_decrease_key h i = h := by
  cases hq : pp ++ [d] with
  | nil => exact absurd hq (by simp)
  | cons e tl =>
    have hf2 : h.root_node.findPath? i = some (e :: tl) := by
      rw [← hq]
      exact hf
    have hdl : (e :: tl).dropLast = pp := by
      rw [← hq]
      simp
    have hrev2 : (e :: tl).reverse = d :: pp.reverse := by
      rw [← hq]
      simp
    simp only [heap_decrease_key, hf2]
    rw [hdl, hrev2, ← hq]
    simp only [hpk, hnk]
    rw [if_neg (fun hc => hle hc.1)]
    have hnos : heap_decrease_key_loop h.root_node (d :: pp.reverse)
        = h.root_node := by
      refine siftUp_noswap h.root_node d pp.reverse ?_
      intro pk' nk' hpk' hnk'
      rw [List.reverse_reverse] at hpk' hnk'
      rw [hpk] at hpk'
      rw [hnk] at hnk'
      injection hpk' with hp1
      injection hnk' with hp2
      rw [← hp1, ← hp2]
      exact hle
    rw [hnos]

/-- On a well-formed heap, `heap_is_node_added` coincides with actual
membership of the address in the linked structure. -/
theorem is_node_added_containsId {h : BinHeap} (hWF : WF h) (i : Nat) :
    heap_is_node_added h (some i) = h.root_node.containsId i := by
  cases hf : h.root_node.findPath? i with
  | none =>
    have hroot : ¬ heap_get_root_node h = some i := by
      intro hc
      rw [heap_get_root_node] at hc
      have hid : h.root_node.idAt? [] = some i := by
        cases ht : h.root_node with
        | nil => rw [ht] at hc; simp [Tree.rootId?] at hc
        | node x y L R =>
          rw [Tree.idAt?, Tree.sub_nil_path]
          rw [ht] at hc
          exact hc
      have := Tree.findPath?_total hid
      rw [hf] at this
      exact absurd this (by simp)
    simp only [heap_is_node_added, parentIdOf, leftIdOf, rightIdOf,
      Tree.containsId, hf]
    rw [if_neg (by simp)]
    rw [if_neg (by
      intro hc
      exact hroot (by simpa using hc))]
    rfl
  | some p =>
    have hcid : h.root_node.containsId i = true := by
      rw [Tree.containsId, hf]
      rfl
    rw [hcid]
    have hid : h.root_node.idAt? p = some i := Tree.findPath?_sound hf
    cases p with
    | nil =>
      have hroot : heap_get_root_node h == some i := by
        rw [heap_get_root_node]
        rw [Tree.idAt?, Tree.sub_nil_path] at hid
        rw [hid]
        simp
      simp only [heap_is_node_added, parentIdOf, leftIdOf, rightIdOf, hf]
      by_cases hcase : ((h.root_node.idAt? ([] ++ [false])).isSome
          || (h.root_node.idAt? ([] ++ [true])).isSome) = true
      · rw [if_pos (by simpa using hcase)]
      · rw [if_neg (by simpa using hcase), if_pos hroot]
    | cons e tl =>
      have hpar : (h.root_node.idAt? (e :: tl).dropLast).isSome = true := by
        have hhp : h.root_node.hasPath (e :: tl) = true := by
          rw [Tree.hasPath, hid]
          rfl
        have hsplit : e :: tl = (e :: tl).dropLast ++ [(e :: tl).getLast
            (by simp)] := (List.dropLast_append_getLast (by simp)).symm
        have hhp2 : h.root_node.hasPath (e :: tl).dropLast = true :=
          @Tree.hasPath_of_append h.root_node (e :: tl).dropLast
            [(e :: tl).getLast (by simp)] (by rw [← hsplit]; exact hhp)
        rw [Tree.hasPath] at hhp2
        exact hhp2
      simp only [heap_is_node_added, parentIdOf, leftIdOf, rightIdOf, hf]
      rw [if_pos (by simp [hpar])]

end Olsrd

namespace Olsrd

/-! ### Claim theorems -/

/-- C1: on every API-reachable non-empty heap, `heap_extract_min` returns
the queued node holding the globally smallest key (its label is the root's
label and bounds every queued key), and draining a heap built from a list
of `(id, key)` pairs with distinct ids yields the inserted keys in
non-decreasing order. -/
theorem C1_extract_min_and_sorted_drain (l : List (Nat × Nat))
    (hnd : (l.map Prod.fst).Nodup) :
    (∀ h : BinHeap, Reach h → 1 ≤ h.count →
      ∃ (n : HeapNodeRec) (h2 : BinHeap), heap_extract_min h = (some n, h2) ∧
        h.root_node.labelAt? [] = some (n.id, n.key) ∧
        (∀ x ∈ h.root_node.labels, n.key ≤ x.2)) ∧
    List.Sorted (· ≤ ·) (drain (buildHeap l).count (buildHeap l)) ∧
    (drain (buildHeap l).count (buildHeap l)).Perm (l.map Prod.snd) := by
  refine ⟨?_, ?_⟩
  · intro h hr hpos
    have hWF := Reach_WF hr
    cases hE : heap_extract_min h with
    | mk a b =>
      rcases extract_WF hWF hpos with ⟨_, _, rid, rkey, hres1, hrootlab, _⟩
      rw [hE] at hres1
      have ha : a = some
          { id := rid, key := rkey, parent := none, left := none,
            right := none } :=
        hres1
      subst ha
      refine ⟨_, b, rfl, hrootlab, ?_⟩
      intro x hx
      exact root_min_labels hWF.ord hrootlab x hx
  · rcases buildHeap_WF l hnd with ⟨hWF, hperm⟩
    rcases drain_spec (buildHeap l).count (buildHeap l) hWF (Nat.le_refl _)
      with ⟨h1, h2⟩
    exact ⟨h1, h2.trans (hperm.map Prod.snd)⟩

theorem C1_extract_min_and_sorted_drain_witness :
    (([(1, 5), (2, 3), (3, 8), (4, 1), (5, 4)] :
        List (Nat × Nat)).map Prod.fst).Nodup ∧
    ((∀ h : BinHeap, Reach h → 1 ≤ h.count →
      ∃ (n : HeapNodeRec) (h2 : BinHeap), heap_extract_min h = (some n, h2) ∧
        h.root_node.labelAt? [] = some (n.id, n.key) ∧
        (∀ x ∈ h.root_node.labels, n.key ≤ x.2)) ∧
    List.Sorted (· ≤ ·)
      (drain (buildHeap [(1, 5), (2, 3), (3, 8), (4, 1), (5, 4)]).count
        (buildHeap [(1, 5), (2, 3), (3, 8), (4, 1), (5, 4)])) ∧
    (drain (buildHeap [(1, 5), (2, 3), (3, 8), (4, 1), (5, 4)]).count
        (buildHeap [(1, 5), (2, 3), (3, 8), (4, 1), (5, 4)])).Perm
      (([(1, 5), (2, 3), (3, 8), (4, 1), (5, 4)] :
        List (Nat × Nat)).map Prod.snd)) :=
  ⟨by decide,
   C1_extract_min_and_sorted_drain [(1, 5), (2, 3), (3, 8), (4, 1), (5, 4)]
     (by decide)⟩

/-- C2: after every sequence of API operations under the documented
preconditions, the occupied pointer chains are exactly the level-order
positions `1 .. count`: the queued nodes form a complete binary tree filled
left to right. -/
theorem C2_complete_shape {h : BinHeap} (hr : Reach h) :
    ∀ p : List Bool, h.root_node.hasPath p = true ↔ pos p ≤ h.count :=
  (Reach_WF hr).complete

theorem C2_complete_shape_witness :
    Reach (heap_insert heap_init
      { id := 1, key := 5, parent := none, left := none, right := none }) ∧
    (∀ p : List Bool,
      (heap_insert heap_init
        { id := 1, key := 5, parent := none, left := none,
          right := none }).root_node.hasPath p = true ↔
      pos p ≤ (heap_insert heap_init
        { id := 1, key := 5, parent := none, left := none,
          right := none }).count) :=
  ⟨Reach.insert _ Reach.init (by decide),
   C2_complete_shape (Reach.insert _ Reach.init (by decide))⟩

/-- C3: on every API-reachable heap, every parent/child pointer pair is
ordered: the parent's key is no greater than the child's key. -/
theorem C3_parent_key_le {h : BinHeap} (hr : Reach h) :
    ∀ (q : List Bool) (d : Bool) (a b : Nat × Nat),
      h.root_node.labelAt? q = some a →
      h.root_node.labelAt? (q ++ [d]) = some b → a.2 ≤ b.2 :=
  fun q d => (Reach_WF hr).ord q d

theorem C3_parent_key_le_witness :
    Reach (heap_insert (heap_insert heap_init
      { id := 1, key := 5, parent := none, left := none, right := none })
      { id := 2, key := 3, parent := none, left := none, right := none }) ∧
    (∀ (q : List Bool) (d : Bool) (a b : Nat × Nat),
      (heap_insert (heap_insert heap_init
        { id := 1, key := 5, parent := none, left := none, right := none })
        { id := 2, key := 3, parent := none, left := none,
          right := none }).root_node.labelAt? q = some a →
      (heap_insert (heap_insert heap_init
        { id := 1, key := 5, parent := none, left := none, right := none })
        { id := 2, key := 3, parent := none, left := none,
          right := none }).root_node.labelAt? (q ++ [d]) = some b →
      a.2 ≤ b.2) :=
  ⟨Reach.insert _ (Reach.insert _ Reach.init (by decide)) (by decide),
   C3_parent_key_le
     (Reach.insert _ (Reach.insert _ Reach.init (by decide)) (by decide))⟩

/-- C4 (amended): during sift-down, when a node is greater than both
children and the children's keys are equal, the source's
`if (left->key < right->key)` comparison fails, so the node is rotated
with its RIGHT child — the right child wins the tie, not the left. -/
theorem C4_tie_breaks_right (i k li lk ri rk : Nat) (a b c d : Tree)
    (last : Option Nat) (h1 : k > lk) (h2 : k > rk) (heq : lk = rk) :
    heap_increse_key (Tree.node i k (Tree.node li lk a b)
      (Tree.node ri rk c d)) last =
      (Tree.node ri rk (Tree.node li lk a b)
        (heap_increse_key (Tree.node i k c d)
          (if last = some ri then some i else last)).1,
       (heap_increse_key (Tree.node i k c d)
          (if last = some ri then some i else last)).2) :=
  increse_swapR_both i k li lk ri rk a b c d last h1 h2 (by omega)

theorem C4_tie_breaks_right_witness :
    (5 > 2 ∧ 5 > 2 ∧ 2 = 2) ∧
    heap_increse_key (Tree.node 1 5 (Tree.node 2 2 Tree.nil Tree.nil)
      (Tree.node 3 2 Tree.nil Tree.nil)) none =
      (Tree.node 3 2 (Tree.node 2 2 Tree.nil Tree.nil)
        (heap_increse_key (Tree.node 1 5 Tree.nil Tree.nil)
          (if (none : Option Nat) = some 3 then some 1 else none)).1,
       (heap_increse_key (Tree.node 1 5 Tree.nil Tree.nil)
          (if (none : Option Nat) = some 3 then some 1 else none)).2) :=
  ⟨by decide,
   C4_tie_breaks_right 1 5 2 2 3 2 Tree.nil Tree.nil Tree.nil Tree.nil none
     (by decide) (by decide) (by decide)⟩

/-- C4 counterexample: with root key 5 and both children holding key 2,
the sift-down promotes the RIGHT child (address 3) into the root slot, so
the claimed left-child tie-break is false. -/
theorem C4_counterexample :
    (heap_increse_key (Tree.node 1 5 (Tree.node 2 2 Tree.nil Tree.nil)
      (Tree.node 3 2 Tree.nil Tree.nil)) none).1.rootId? = some 3 ∧
    some (3 : Nat) ≠ some 2 := by
  constructor
  · rw [increse_swapR_both 1 5 2 2 3 2 Tree.nil Tree.nil Tree.nil Tree.nil
      none (by omega) (by omega) (by omega)]
    rfl
  · decide

/-- C5 (amended): `heap_decrease_key` leaves the heap unchanged when the
node is the root (no parent) or when the PARENT's key is not greater than
the node's key — the converse inequality of the claim's wording. -/
theorem C5_decrease_key_noop :
    (∀ (h : BinHeap) (i : Nat), h.root_node.findPath? i = some [] →
      heap_decrease_key h i = h) ∧
    (∀ (h : BinHeap) (i : Nat) (pp : List Bool) (e : Bool) (pk nk : Nat),
      h.root_node.findPath? i = some (pp ++ [e]) →
      h.root_node.keyAt? pp = some pk →
      h.root_node.keyAt? (pp ++ [e]) = some nk →
      pk ≤ nk → heap_decrease_key h i = h) :=
  ⟨fun _ _ hf => decrease_key_noop_root hf,
   fun _ _ _ _ _ _ hf hpk hnk hle =>
     decrease_key_noop_ordered hf hpk hnk (by omega)⟩

theorem C5_decrease_key_noop_witness :
    ({ count := 2,
       root_node := Tree.node 1 1 (Tree.node 2 2 Tree.nil Tree.nil) Tree.nil,
       last_node := some 2 } : BinHeap).root_node.findPath? 2 =
        some ([] ++ [false]) ∧
    ({ count := 2,
       root_node := Tree.node 1 1 (Tree.node 2 2 Tree.nil Tree.nil) Tree.nil,
       last_node := some 2 } : BinHeap).root_node.keyAt? [] = some 1 ∧
    ({ count := 2,
       root_node := Tree.node 1 1 (Tree.node 2 2 Tree.nil Tree.nil) Tree.nil,
       last_node := some 2 } : BinHeap).root_node.keyAt? ([] ++ [false]) =
        some 2 ∧
    (1 : Nat) ≤ 2 ∧
    heap_decrease_key
      { count := 2,
        root_node := Tree.node 1 1 (Tree.node 2 2 Tree.nil Tree.nil) Tree.nil,
        last_node := some 2 } 2 =
      { count := 2,
        root_node := Tree.node 1 1 (Tree.node 2 2 Tree.nil Tree.nil) Tree.nil,
        last_node := some 2 } :=
  ⟨by decide, by decide, by decide, by decide,
   C5_decrease_key_noop.2
     { count := 2,
       root_node := Tree.node 1 1 (Tree.node 2 2 Tree.nil Tree.nil) Tree.nil,
       last_node := some 2 } 2 [] false 1 2 (by decide) (by decide) (by decide)
     (by decide)⟩

/-- C5 counterexample: a queued node whose key (3) is NOT greater than its
parent's key (5) — the claim's stated no-op condition — is nonetheless
moved by `heap_decrease_key`: the sift-up swaps it with the parent, so the
heap changes. -/
theorem C5_counterexample :
    (({ count := 2,
        root_node := Tree.node 1 5 (Tree.node 2 3 Tree.nil Tree.nil) Tree.nil,
        last_node := some 2 } : BinHeap).root_node.keyAt? ([] ++ [false]) =
          some 3 ∧
     ({ count := 2,
        root_node := Tree.node 1 5 (Tree.node 2 3 Tree.nil Tree.nil) Tree.nil,
        last_node := some 2 } : BinHeap).root_node.keyAt? [] = some 5 ∧
     (3 : Nat) ≤ 5) ∧
    heap_decrease_key
      { count := 2,
        root_node := Tree.node 1 5 (Tree.node 2 3 Tree.nil Tree.nil) Tree.nil,
        last_node := some 2 } 2 ≠
      { count := 2,
        root_node := Tree.node 1 5 (Tree.node 2 3 Tree.nil Tree.nil) Tree.nil,
        last_node := some 2 } := by
  decide

/-- C6: `heap_extract_min` on an empty reachable heap returns the empty
signal and leaves the state untouched: count stays `0`, root and last stay
NULL. -/
theorem C6_extract_on_empty {h : BinHeap} (hr : Reach h)
    (hc : h.count = 0) :
    heap_extract_min h = (none, h) ∧ h.count = 0 ∧
    h.root_node = Tree.nil ∧ h.last_node = none := by
  have hWF := Reach_WF hr
  have hnil := Complete_zero_nil (hc ▸ hWF.complete)
  refine ⟨extract_min_empty hWF hc, hc, hnil, ?_⟩
  rw [hWF.lastv, hnil, Tree.idAt?, Tree.sub_nil_tree]
  rfl

theorem C6_extract_on_empty_witness :
    (Reach heap_init ∧ heap_init.count = 0) ∧
    (heap_extract_min heap_init = (none, heap_init) ∧ heap_init.count = 0 ∧
     heap_init.root_node = Tree.nil ∧ heap_init.last_node = none) :=
  ⟨⟨Reach.init, rfl⟩, C6_extract_on_empty Reach.init rfl⟩

/-- C7: on every reachable heap, `heap_is_node_added` answers exactly
membership of the address: `false` for a NULL argument, it agrees with
`containsId` for every address (so it stays true exactly while the node is
queued), it is true immediately after inserting a fresh node, and false
for the node just returned by `heap_extract_min`. -/
theorem C7_is_node_added {h : BinHeap} (hr : Reach h) :
    heap_is_node_added h none = false ∧
    (∀ i : Nat, heap_is_node_added h (some i) = h.root_node.containsId i) ∧
    (∀ n : HeapNodeRec, h.root_node.containsId n.id = false →
      heap_is_node_added (heap_insert h n) (some n.id) = true) ∧
    (1 ≤ h.count → ∀ (n : HeapNodeRec) (h2 : BinHeap),
      heap_extract_min h = (some n, h2) →
      heap_is_node_added h2 (some n.id) = false) := by
  have hWF := Reach_WF hr
  refine ⟨rfl, is_node_added_containsId hWF, ?_, ?_⟩
  · intro n hfresh
    rcases insert_WF hWF n hfresh with ⟨hWF1, _, hperm1⟩
    rw [is_node_added_containsId hWF1 n.id]
    refine (Tree.containsId_iff_mem _ _).mpr ?_
    have hm := hperm1.map Prod.fst
    rw [List.map_cons] at hm
    exact hm.mem_iff.mpr (List.mem_cons_self _ _)
  · intro hpos n h2 hE
    rcases extract_WF hWF hpos with ⟨hWF2, _, rid, rkey, hres1, _, hperm⟩
    rw [hE] at hres1 hperm hWF2
    have hn : some n = some
        { id := rid, key := rkey, parent := none, left := none,
          right := none } :=
      hres1
    injection hn with hn
    have hWF2' : WF h2 := hWF2
    have hpermb : h.root_node.labels.Perm
        ((rid, rkey) :: h2.root_node.labels) := hperm
    have hout : rid ∉ h2.root_node.ids := by
      have hm := hpermb.map Prod.fst
      rw [List.map_cons] at hm
      have hndc := (List.Perm.nodup_iff hm).mp hWF.nodup
      exact (List.nodup_cons.mp hndc).1
    rw [is_node_added_containsId hWF2' n.id, hn]
    cases hcc : h2.root_node.containsId rid with
    | false => rfl
    | true =>
      exfalso
      exact hout ((Tree.containsId_iff_mem _ _).mp hcc)

theorem C7_is_node_added_witness :
    Reach (heap_insert heap_init
      { id := 1, key := 5, parent := none, left := none, right := none }) ∧
    (heap_is_node_added (heap_insert heap_init
        { id := 1, key := 5, parent := none, left := none, right := none })
        none = false ∧
     (∀ i : Nat, heap_is_node_added (heap_insert heap_init
        { id := 1, key := 5, parent := none, left := none, right := none })
        (some i) =
       (heap_insert heap_init
        { id := 1, key := 5, parent := none, left := none,
          right := none }).root_node.containsId i) ∧
     (∀ n : HeapNodeRec, (heap_insert heap_init
        { id := 1, key := 5, parent := none, left := none,
          right := none }).root_node.containsId n.id = false →
       heap_is_node_added (heap_insert (heap_insert heap_init
        { id := 1, key := 5, parent := none, left := none, right := none })
        n) (some n.id) = true) ∧
     (1 ≤ (heap_insert heap_init
        { id := 1, key := 5, parent := none, left := none,
          right := none }).count →
      ∀ (n : HeapNodeRec) (h2 : BinHeap),
       heap_extract_min (heap_insert heap_init
        { id := 1, key := 5, parent := none, left := none, right := none })
        = (some n, h2) →
       heap_is_node_added h2 (some n.id) = false)) :=
  ⟨Reach.insert _ Reach.init (by decide),
   C7_is_node_added (Reach.insert _ Reach.init (by decide))⟩

/-- C8 (amended): on every reachable heap, `last_node` holds exactly the
id stored at the final level-order position (`binPath count`), and it is
NULL exactly when the heap is empty.  The claim's 7-node instance is wrong:
two full levels plus one extra is 4 nodes, and after inserting 4 nodes the
third level has a single occupant (the position-4 slot), which `last_node`
references. -/
theorem C8_last_pointer :
    (∀ h : BinHeap, Reach h →
      h.last_node = h.root_node.idAt? (binPath h.count) ∧
      (h.last_node = none ↔ h.count = 0)) ∧
    ((buildHeap [(1, 1), (2, 2), (3, 3), (4, 4)]).last_node =
      (buildHeap [(1, 1), (2, 2), (3, 3), (4, 4)]).root_node.idAt?
        [false, false] ∧
     (buildHeap [(1, 1), (2, 2), (3, 3), (4, 4)]).root_node.hasPath
        [false, false] = true ∧
     (buildHeap [(1, 1), (2, 2), (3, 3), (4, 4)]).root_node.hasPath
        [false, true] = false ∧
     (buildHeap [(1, 1), (2, 2), (3, 3), (4, 4)]).root_node.hasPath
        [true, false] = false ∧
     (buildHeap [(1, 1), (2, 2), (3, 3), (4, 4)]).root_node.hasPath
        [true, true] = false) := by
  refine ⟨?_, by decide⟩
  intro h hr
  have hWF := Reach_WF hr
  refine ⟨hWF.lastv, ?_, ?_⟩
  · intro hn
    by_contra hc
    rcases WF_last_some hWF (by omega) with ⟨lid, hlast2, _, _⟩
    rw [hn] at hlast2
    exact absurd hlast2 (by simp)
  · intro hc
    have hnil := Complete_zero_nil (hc ▸ hWF.complete)
    rw [hWF.lastv, hnil, Tree.idAt?, Tree.sub_nil_tree]
    rfl

/-- C8 counterexample: after inserting 7 nodes the third level is full —
positions 4 (path LL) and 7 (path RR) are both occupied — so `last`
cannot reference "the single occupant of the third level"; it names the
node at position 7 while position 4 holds a different node. -/
theorem C8_counterexample :
    (buildHeap [(1, 1), (2, 2), (3, 3), (4, 4), (5, 5), (6, 6),
      (7, 7)]).root_node.hasPath [false, false] = true ∧
    (buildHeap [(1, 1), (2, 2), (3, 3), (4, 4), (5, 5), (6, 6),
      (7, 7)]).root_node.hasPath [true, true] = true ∧
    (buildHeap [(1, 1), (2, 2), (3, 3), (4, 4), (5, 5), (6, 6),
      (7, 7)]).last_node =
      (buildHeap [(1, 1), (2, 2), (3, 3), (4, 4), (5, 5), (6, 6),
        (7, 7)]).root_node.idAt? [true, true] ∧
    (buildHeap [(1, 1), (2, 2), (3, 3), (4, 4), (5, 5), (6, 6),
      (7, 7)]).root_node.idAt? [false, false] ≠
      (buildHeap [(1, 1), (2, 2), (3, 3), (4, 4), (5, 5), (6, 6),
        (7, 7)]).root_node.idAt? [true, true] := by
  decide

/-- C9: the two iterative/recursive components of the operations — the
sift-up loop of `heap_decrease_key` and the recursive sift-down
`heap_increse_key` — terminate: their fuel-instrumented counterparts
return a result (never exhaust) as soon as the fuel covers the node's
depth resp. the subtree size, and the result is the operation's value. -/
theorem C9_termination :
    (∀ (fuel : Nat) (t : Tree) (last : Option Nat), t.sizeT < fuel →
      heap_increse_key_fuel fuel t last = some (heap_increse_key t last)) ∧
    (∀ (rp : List Bool) (fuel : Nat) (t : Tree), rp.length ≤ fuel →
      heap_decrease_key_loop_fuel fuel t rp =
        some (heap_decrease_key_loop t rp)) :=
  ⟨increse_fuel_eq, decrease_loop_fuel_eq⟩

theorem C9_termination_witness :
    ((Tree.node 1 5 (Tree.node 2 2 Tree.nil Tree.nil)
        (Tree.node 3 2 Tree.nil Tree.nil)).sizeT < 10 ∧
      heap_increse_key_fuel 10
        (Tree.node 1 5 (Tree.node 2 2 Tree.nil Tree.nil)
          (Tree.node 3 2 Tree.nil Tree.nil)) none =
        some (heap_increse_key
          (Tree.node 1 5 (Tree.node 2 2 Tree.nil Tree.nil)
            (Tree.node 3 2 Tree.nil Tree.nil)) none)) ∧
    (([false] : List Bool).length ≤ 3 ∧
      heap_decrease_key_loop_fuel 3
        (Tree.node 1 5 (Tree.node 2 3 Tree.nil Tree.nil) Tree.nil) [false] =
        some (heap_decrease_key_loop
          (Tree.node 1 5 (Tree.node 2 3 Tree.nil Tree.nil) Tree.nil)
          [false])) :=
  ⟨⟨by decide, C9_termination.1 10 _ none (by decide)⟩,
   ⟨by decide, C9_termination.2 [false] 3 _ (by decide)⟩⟩

/-- C10: `heap_insert` first clears the node's three links
(`heap_init_node`), so its result depends only on the heap state and the
node's id and key — two argument records differing only in their stale
link fields produce identical heaps. -/
theorem C10_insert_ignores_stale_links (h : BinHeap) (n1 n2 : HeapNodeRec)
    (hid : n1.id = n2.id) (hkey : n1.key = n2.key) :
    heap_insert h n1 = heap_insert h n2 := by
  have hinit : heap_init_node n1 = heap_init_node n2 := by
    simp only [heap_init_node]
    rw [hid, hkey]
  simp only [heap_insert]
  rw [hinit]

theorem C10_insert_ignores_stale_links_witness :
    ({ id := 5, key := 7, parent := some 9, left := some 3,
       right := none } : HeapNodeRec).id =
      ({ id := 5, key := 7, parent := none, left := none,
         right := some 8 } : HeapNodeRec).id ∧
    ({ id := 5, key := 7, parent := some 9, left := some 3,
       right := none } : HeapNodeRec).key =
      ({ id := 5, key := 7, parent := none, left := none,
         right := some 8 } : HeapNodeRec).key ∧
    heap_insert (buildHeap [(1, 1)])
      { id := 5, key := 7, parent := some 9, left := some 3,
        right := none } =
    heap_insert (buildHeap [(1, 1)])
      { id := 5, key := 7, parent := none, left := none, right := some 8 } :=
  ⟨rfl, rfl,
   C10_insert_ignores_stale_links (buildHeap [(1, 1)])
     { id := 5, key := 7, parent := some 9, left := some 3, right := none }
     { id := 5, key := 7, parent := none, left := none, right := some 8 }
     rfl rfl⟩

end Olsrd

namespace Olsrd

theorem C8_last_pointer_witness :
    Reach (heap_insert heap_init
      { id := 1, key := 5, parent := none, left := none, right := none }) ∧
    ((heap_insert heap_init
        { id := 1, key := 5, parent := none, left := none,
          right := none }).last_node =
      (heap_insert heap_init
        { id := 1, key := 5, parent := none, left := none,
          right := none }).root_node.idAt?
        (binPath (heap_insert heap_init
          { id := 1, key := 5, parent := none, left := none,
            right := none }).count) ∧
     ((heap_insert heap_init
        { id := 1, key := 5, parent := none, left := none,
          right := none }).last_node = none ↔
      (heap_insert heap_init
        { id := 1, key := 5, parent := none, left := none,
          right := none }).count = 0)) :=
  ⟨Reach.insert _ Reach.init (by decide),
   C8_last_pointer.1 _ (Reach.insert _ Reach.init (by decide))⟩

end Olsrd
